import Mathlib

/-!
# Verification of the ordermypdf command-resolution engine

This file embeds the deterministic core of the repository's command
resolution engine (app/clarification_layer.py, app/one_flow_resolver.py,
app/pattern_matching.py, app/command_intelligence.py, app/main.py) into
Lean 4 and settles the frozen claims C1..C10 about it.

The Python code works on strings through `re` word-boundary regexes.  All
regexes relevant to the claims are alternations of literal words separated
by `\s*` / `\s+` gaps, wrapped in `\b ... \b`.  We model strings as lists
of characters, tokenize them into maximal word-character runs and
non-word-character gaps (exactly the `\b` boundaries of `re`), and give an
executable matcher for such phrase alternations.  Numeric capture groups
(`(\d+)` etc.) are modelled by dedicated scanners.

`app/utils.py` is not part of the sources; the handful of helpers imported
from it are modelled from the specification where needed, and each such
definition carries a `Modelled from the spec:` doc comment.
-/

namespace OrderMyPdf

/-- Python `\w` for the ASCII inputs considered here: letters, digits, `_`. -/
def isWordChar (c : Char) : Bool :=
  c.isAlpha || c.isDigit || c = '_'

/-- Whitespace as matched by `\s` on the inputs considered here. -/
def isWs (c : Char) : Bool :=
  c = ' ' || c = '\t' || c = '\n' || c = '\r'

/-- One token of a string: a maximal run of word characters, or a maximal
run of non-word characters (a "gap").  `\b` boundaries of `re` are exactly
the borders between the two kinds of run. -/
inductive Tok where
  | word (w : List Char)
  | gap (g : List Char)
  deriving Repr, DecidableEq

/-- Tokenize a character list into alternating maximal word runs and gaps. -/
def tokenize : List Char → List Tok
  | [] => []
  | c :: cs =>
    if isWordChar c then
      match tokenize cs with
      | .word w :: rest => .word (c :: w) :: rest
      | rest => .word [c] :: rest
    else
      match tokenize cs with
      | .gap g :: rest => .gap (c :: g) :: rest
      | rest => .gap [c] :: rest

/-- Flatten a token list back into the character list. -/
def flattenToks : List Tok → List Char
  | [] => []
  | .word w :: rest => w ++ flattenToks rest
  | .gap g :: rest => g ++ flattenToks rest

theorem flatten_tokenize (s : List Char) : flattenToks (tokenize s) = s := by
  induction s with
  | nil => rfl
  | cons c cs ih =>
    by_cases h : isWordChar c = true
    · simp only [tokenize, h, if_pos]
      cases htl : tokenize cs with
      | nil => simpa [flattenToks, htl] using ih
      | cons t rest =>
        cases t with
        | word w => rw [htl] at ih; simpa [flattenToks] using ih
        | gap g => rw [htl] at ih; simpa [flattenToks] using ih
    · simp only [tokenize, h, if_neg, Bool.false_eq_true, not_false_iff]
      cases htl : tokenize cs with
      | nil => simpa [flattenToks, htl] using ih
      | cons t rest =>
        cases t with
        | word w => rw [htl] at ih; simpa [flattenToks] using ih
        | gap g => rw [htl] at ih; simpa [flattenToks] using ih

/-- A gap made only of whitespace: the gaps `\s*` / `\s+` can cross. -/
def pureWs (g : List Char) : Bool := g.all isWs

/-- Pieces of a word-boundary phrase pattern, the shallow embedding of the
source's `\b lit (\s* lit)* \b`-shaped regexes:
* `lit p` — a literal character run inside a word token;
* `anyGap` — `\s*`: either nothing (stay inside the token) or a crossing of
  one whitespace-only gap;
* `someGap` — `\s+`: a mandatory crossing of one whitespace-only gap;
* `gapLit g` — a literal non-word separator (e.g. the `-` of `e-sign`),
  matching one gap token exactly;
* `gapWith c` — `\s*c\s*` for a non-word `c` (e.g. the `&` alternatives),
  matching one gap token of the form `ws* c ws*`. -/
inductive Piece where
  | lit (p : List Char)
  | anyGap
  | someGap
  | gapLit (g : List Char)
  | gapWith (c : Char)
  deriving Repr, DecidableEq

abbrev Phrase := List Piece

/-- Does a gap have the exact shape `ws* c ws*`? -/
def gapIsWsCharWs (c : Char) (g : List Char) : Bool :=
  let rest := g.dropWhile isWs
  match rest with
  | [] => false
  | d :: tail => d = c && tail.all isWs

/-- Match the remaining pieces of a phrase, standing inside a word token
with remainder `wrem`, followed by the tokens `toks`.  The phrase must end
at the end of a word token (the trailing `\b`). -/
def mAt : Phrase → List Char → List Tok → Bool
  | [], wrem, _ => wrem.isEmpty
  | .lit p :: ps, wrem, toks =>
    p.isPrefixOf wrem && mAt ps (wrem.drop p.length) toks
  | .anyGap :: ps, wrem, toks =>
    mAt ps wrem toks ||
    (wrem.isEmpty &&
      match toks with
      | .gap g :: .word w :: rest => pureWs g && mAt ps w rest
      | _ => false)
  | .someGap :: ps, wrem, toks =>
    wrem.isEmpty &&
      match toks with
      | .gap g :: .word w :: rest => pureWs g && mAt ps w rest
      | _ => false
  | .gapLit gl :: ps, wrem, toks =>
    wrem.isEmpty &&
      match toks with
      | .gap g :: .word w :: rest => g = gl && mAt ps w rest
      | _ => false
  | .gapWith c :: ps, wrem, toks =>
    wrem.isEmpty &&
      match toks with
      | .gap g :: .word w :: rest => gapIsWsCharWs c g && mAt ps w rest
      | _ => false

/-- Search for a phrase anywhere in the token list.  A match can start only
at the beginning of a word token (the leading `\b`). -/
def searchPh (a : Phrase) : List Tok → Bool
  | [] => false
  | .word w :: rest => mAt a w rest || searchPh a rest
  | .gap _ :: rest => searchPh a rest

/-- `re.search` of an alternation of phrases (the shape of every
word-boundary regex used by the source). -/
def searchAlts (alts : List Phrase) (toks : List Tok) : Bool :=
  alts.any fun a => searchPh a toks

/-! ## Digit-transparency of alphabetic keyword searches

The keyword regexes of the source consist of purely alphabetic literals.
Such a search can never involve a word token that contains a digit, so its
result is unchanged when one digit-containing token is replaced by another.
This is what lets us evaluate every keyword flag on a prompt like
`compress to {N}mb` for **all** N at once, by reducing to a concrete
representative. -/

/-- A word consisting of letters only. -/
def allAlpha (w : List Char) : Bool := w.all Char.isAlpha

/-- Pieces allowed in a purely alphabetic phrase (see `searchAlts_congr`). -/
def alphaPiece : Piece → Bool
  | .lit p => !p.isEmpty && allAlpha p
  | .anyGap => true
  | .someGap => true
  | .gapLit g => g.any fun c => !(isWs c)
  | .gapWith c => !(isWs c)

def alphaPhrase (a : Phrase) : Bool := a.all alphaPiece

def alphaAlts (alts : List Phrase) : Bool := alts.all alphaPhrase

/-- Two tokens that no alphabetic phrase can tell apart: equal tokens,
two word tokens both containing a non-letter, or two whitespace-only gaps. -/
inductive TokRelOne : Tok → Tok → Prop where
  | word_eq (w : List Char) : TokRelOne (.word w) (.word w)
  | word_taint (w w' : List Char) :
      allAlpha w = false → allAlpha w' = false → TokRelOne (.word w) (.word w')
  | gap_eq (g : List Char) : TokRelOne (.gap g) (.gap g)
  | gap_ws (g g' : List Char) :
      pureWs g = true → pureWs g' = true → TokRelOne (.gap g) (.gap g')

abbrev TokRel : List Tok → List Tok → Prop := List.Forall₂ TokRelOne

theorem dropWhile_nil_of_all {p : Char → Bool} {g : List Char} (h : g.all p = true) :
    g.dropWhile p = [] := by
  induction g with
  | nil => rfl
  | cons x xs ih =>
    simp only [List.all_cons, Bool.and_eq_true] at h
    simp [List.dropWhile, h.1, ih h.2]

theorem pureWs_gapIsWsCharWs {c : Char} {g : List Char}
    (_hc : isWs c = false) (hg : pureWs g = true) :
    gapIsWsCharWs c g = false := by
  unfold gapIsWsCharWs
  have h0 : g.dropWhile isWs = [] := dropWhile_nil_of_all hg
  simp [h0]

theorem pureWs_eq_of_rel {g g' : List Char}
    (h : TokRelOne (.gap g) (.gap g')) : pureWs g = pureWs g' := by
  cases h with
  | gap_eq _ => rfl
  | gap_ws _ _ h1 h2 => rw [h1, h2]

/-- A successful match of an alphabetic phrase consumes only letters:
the token remainder it starts from must be purely alphabetic. -/
theorem mAt_alpha_of_true :
    ∀ (a : Phrase) (wrem : List Char) (toks : List Tok),
      alphaPhrase a = true → mAt a wrem toks = true → allAlpha wrem = true := by
  intro a
  induction a with
  | nil =>
    intro wrem toks _ h
    have : wrem = [] := by simpa [mAt, List.isEmpty_iff] using h
    simp [this, allAlpha]
  | cons pc ps ih =>
    intro wrem toks ha h
    rw [alphaPhrase, List.all_cons, Bool.and_eq_true] at ha
    have hps : alphaPhrase ps = true := ha.2
    have hpc : alphaPiece pc = true := ha.1
    cases pc with
    | lit p =>
      simp only [mAt, Bool.and_eq_true] at h
      obtain ⟨hpre, hrest⟩ := h
      have hdrop := ih _ _ hps hrest
      have hp : allAlpha p = true := by
        simp [alphaPiece, Bool.and_eq_true] at hpc
        exact hpc.2
      have hw : p <+: wrem := by
        exact List.isPrefixOf_iff_prefix.mp hpre
      obtain ⟨t, ht⟩ := hw
      subst ht
      have : (p ++ t).drop p.length = t := List.drop_left p t
      rw [this] at hdrop
      rw [allAlpha, List.all_append, Bool.and_eq_true]
      exact ⟨hp, hdrop⟩
    | anyGap =>
      simp only [mAt, Bool.or_eq_true, Bool.and_eq_true] at h
      rcases h with h | h
      · exact ih _ _ hps h
      · have : wrem = [] := by
          simpa [List.isEmpty_iff] using h.1
        simp [this, allAlpha]
    | someGap =>
      simp only [mAt, Bool.and_eq_true] at h
      have : wrem = [] := by simpa [List.isEmpty_iff] using h.1
      simp [this, allAlpha]
    | gapLit gl =>
      simp only [mAt, Bool.and_eq_true] at h
      have : wrem = [] := by simpa [List.isEmpty_iff] using h.1
      simp [this, allAlpha]
    | gapWith c =>
      simp only [mAt, Bool.and_eq_true] at h
      have : wrem = [] := by simpa [List.isEmpty_iff] using h.1
      simp [this, allAlpha]

theorem mAt_false_of_taint {a : Phrase} {wrem : List Char} {toks : List Tok}
    (ha : alphaPhrase a = true) (hw : allAlpha wrem = false) :
    mAt a wrem toks = false := by
  by_contra h
  have := mAt_alpha_of_true a wrem toks ha (by
    cases hm : mAt a wrem toks
    · exact absurd hm h
    · rfl)
  rw [this] at hw
  exact Bool.true_eq_false.mp hw

/-- The gap-hopping part shared by `anyGap`, `someGap`, `gapLit`, `gapWith`. -/
def hopB (f : List Char → Bool) (ps : Phrase) : List Tok → Bool
  | .gap g :: .word w :: rest => f g && mAt ps w rest
  | _ => false

theorem mAt_anyGap (ps : Phrase) (wrem : List Char) (toks : List Tok) :
    mAt (.anyGap :: ps) wrem toks
      = (mAt ps wrem toks || (wrem.isEmpty && hopB pureWs ps toks)) := by
  cases toks with
  | nil => rfl
  | cons t ts =>
    cases t with
    | word w => rfl
    | gap g =>
      cases ts with
      | nil => rfl
      | cons t2 r2 => cases t2 with
        | word w2 => rfl
        | gap g2 => rfl

theorem mAt_someGap (ps : Phrase) (wrem : List Char) (toks : List Tok) :
    mAt (.someGap :: ps) wrem toks = (wrem.isEmpty && hopB pureWs ps toks) := by
  cases toks with
  | nil => rfl
  | cons t ts =>
    cases t with
    | word w => rfl
    | gap g =>
      cases ts with
      | nil => rfl
      | cons t2 r2 => cases t2 with
        | word w2 => rfl
        | gap g2 => rfl

theorem mAt_gapLit (gl : List Char) (ps : Phrase) (wrem : List Char) (toks : List Tok) :
    mAt (.gapLit gl :: ps) wrem toks
      = (wrem.isEmpty && hopB (fun g => g = gl) ps toks) := by
  cases toks with
  | nil => rfl
  | cons t ts =>
    cases t with
    | word w => rfl
    | gap g =>
      cases ts with
      | nil => rfl
      | cons t2 r2 => cases t2 with
        | word w2 => rfl
        | gap g2 => rfl

theorem mAt_gapWith (c : Char) (ps : Phrase) (wrem : List Char) (toks : List Tok) :
    mAt (.gapWith c :: ps) wrem toks
      = (wrem.isEmpty && hopB (gapIsWsCharWs c) ps toks) := by
  cases toks with
  | nil => rfl
  | cons t ts =>
    cases t with
    | word w => rfl
    | gap g =>
      cases ts with
      | nil => rfl
      | cons t2 r2 => cases t2 with
        | word w2 => rfl
        | gap g2 => rfl

theorem hopB_congr {f : List Char → Bool} {ps : Phrase}
    (hps : alphaPhrase ps = true)
    (hf : ∀ g g', TokRelOne (.gap g) (.gap g') → f g = f g')
    (ih : ∀ wrem toks toks', TokRel toks toks' → mAt ps wrem toks = mAt ps wrem toks')
    {toks toks' : List Tok} (hrel : TokRel toks toks') :
    hopB f ps toks = hopB f ps toks' := by
  cases hrel with
  | nil => rfl
  | cons h1 htail =>
    cases h1 with
    | word_eq w =>
      cases htail with
      | nil => rfl
      | cons h2 _ => cases h2 <;> rfl
    | word_taint w w' _ _ =>
      cases htail with
      | nil => rfl
      | cons h2 _ => cases h2 <;> rfl
    | gap_eq g =>
      cases htail with
      | nil => rfl
      | cons h2 htail2 =>
        cases h2 with
        | word_eq w =>
          show (f g && mAt ps w _) = (f g && mAt ps w _)
          rw [ih _ _ _ htail2]
        | word_taint w w' hw hw' =>
          show (f g && mAt ps w _) = (f g && mAt ps w' _)
          rw [mAt_false_of_taint hps hw, mAt_false_of_taint hps hw']
        | gap_eq g2 => rfl
        | gap_ws g2 g2' _ _ => rfl
    | gap_ws g g' hg hg' =>
      cases htail with
      | nil => rfl
      | cons h2 htail2 =>
        cases h2 with
        | word_eq w =>
          show (f g && mAt ps w _) = (f g' && mAt ps w _)
          rw [hf _ _ (TokRelOne.gap_ws g g' hg hg'), ih _ _ _ htail2]
        | word_taint w w' hw hw' =>
          show (f g && mAt ps w _) = (f g' && mAt ps w' _)
          rw [mAt_false_of_taint hps hw, mAt_false_of_taint hps hw',
            hf _ _ (TokRelOne.gap_ws g g' hg hg')]
        | gap_eq g2 => rfl
        | gap_ws g2 g2' _ _ => rfl

/-- An alphabetic phrase cannot see the difference between related token
lists: their digit-containing word tokens never take part in a match. -/
theorem mAt_congr :
    ∀ (a : Phrase), alphaPhrase a = true →
      ∀ (wrem : List Char) (toks toks' : List Tok), TokRel toks toks' →
        mAt a wrem toks = mAt a wrem toks' := by
  intro a
  induction a with
  | nil => intro _ wrem toks toks' _; rfl
  | cons pc ps ih =>
    intro ha wrem toks toks' hrel
    rw [alphaPhrase, List.all_cons, Bool.and_eq_true] at ha
    obtain ⟨hpc, hps⟩ := ha
    have hps' : alphaPhrase ps = true := hps
    have ih' : ∀ wrem toks toks', TokRel toks toks' →
        mAt ps wrem toks = mAt ps wrem toks' := fun w t t' h => ih hps' w t t' h
    cases pc with
    | lit p =>
      show (p.isPrefixOf wrem && _) = (p.isPrefixOf wrem && _)
      rw [ih' _ _ _ hrel]
    | anyGap =>
      rw [mAt_anyGap, mAt_anyGap, ih' _ _ _ hrel,
        hopB_congr hps' (fun _ _ h => pureWs_eq_of_rel h) ih' hrel]
    | someGap =>
      rw [mAt_someGap, mAt_someGap,
        hopB_congr hps' (fun _ _ h => pureWs_eq_of_rel h) ih' hrel]
    | gapLit gl =>
      have hgl : gl.any (fun c => !(isWs c)) = true := by
        simpa [alphaPiece] using hpc
      rw [mAt_gapLit, mAt_gapLit]
      refine congrArg (_ && ·) (hopB_congr hps' ?_ ih' hrel)
      intro g g' h
      cases h with
      | gap_eq _ => rfl
      | gap_ws g g' hg hg' =>
        have hne : ∀ x : List Char, pureWs x = true → (decide (x = gl)) = false := by
          intro x hx
          rcases List.any_eq_true.mp hgl with ⟨c, hcmem, hcw⟩
          simp only [decide_eq_false_iff_not]
          intro hxgl
          subst hxgl
          have := (List.all_eq_true.mp hx) c hcmem
          simp [this] at hcw
        simp [hne g hg, hne g' hg']
    | gapWith c =>
      have hc : isWs c = false := by
        simpa [alphaPiece] using hpc
      rw [mAt_gapWith, mAt_gapWith]
      refine congrArg (_ && ·) (hopB_congr hps' ?_ ih' hrel)
      intro g g' h
      cases h with
      | gap_eq _ => rfl
      | gap_ws g g' hg hg' =>
        rw [pureWs_gapIsWsCharWs hc hg, pureWs_gapIsWsCharWs hc hg']

theorem searchPh_congr {a : Phrase} (ha : alphaPhrase a = true) :
    ∀ {toks toks' : List Tok}, TokRel toks toks' →
      searchPh a toks = searchPh a toks' := by
  intro toks toks' hrel
  induction hrel with
  | nil => rfl
  | cons h1 htail ih2 =>
    cases h1 with
    | word_eq w =>
      show (mAt a w _ || searchPh a _) = (mAt a w _ || searchPh a _)
      rw [mAt_congr a ha w _ _ htail, ih2]
    | word_taint w w' hw hw' =>
      show (mAt a w _ || searchPh a _) = (mAt a w' _ || searchPh a _)
      rw [mAt_false_of_taint ha hw, mAt_false_of_taint ha hw', ih2]
    | gap_eq g => simpa [searchPh] using ih2
    | gap_ws g g' _ _ => simpa [searchPh] using ih2

/-- Digit-transparency: an alternation of alphabetic phrases gives the same
search result on related token lists. -/
theorem searchAlts_congr :
    ∀ {alts : List Phrase}, alphaAlts alts = true →
      ∀ {toks toks' : List Tok}, TokRel toks toks' →
        searchAlts alts toks = searchAlts alts toks' := by
  intro alts
  induction alts with
  | nil => intro _ _ _ _; rfl
  | cons a rest ih =>
    intro h toks toks' hrel
    rw [alphaAlts, List.all_cons, Bool.and_eq_true] at h
    have h1 := searchPh_congr h.1 hrel
    have h2 := ih h.2 hrel
    simp only [searchAlts, List.any_cons] at h2 ⊢
    rw [h1, h2]

/-! ## Structural lemmas about `tokenize` -/

theorem tokenize_cons_eq (c : Char) (cs : List Char) :
    tokenize (c :: cs) =
      if isWordChar c then
        match tokenize cs with
        | .word w :: rest => .word (c :: w) :: rest
        | rest => .word [c] :: rest
      else
        match tokenize cs with
        | .gap g :: rest => .gap (c :: g) :: rest
        | rest => .gap [c] :: rest := rfl

theorem tokenize_ne_nil {l : List Char} (h : l ≠ []) : tokenize l ≠ [] := by
  cases l with
  | nil => exact absurd rfl h
  | cons c cs =>
    rw [tokenize_cons_eq]
    by_cases hw : isWordChar c = true
    · simp only [hw, if_pos]
      cases tokenize cs with
      | nil => simp
      | cons t rest => cases t <;> simp
    · simp only [hw, Bool.false_eq_true, if_neg, not_false_iff]
      cases tokenize cs with
      | nil => simp
      | cons t rest => cases t <;> simp

/-- A nonempty all-word-character run is a single word token. -/
theorem tokenize_all_word :
    ∀ {l : List Char}, l ≠ [] → (∀ c ∈ l, isWordChar c = true) →
      tokenize l = [.word l] := by
  intro l
  induction l with
  | nil => intro h _; exact absurd rfl h
  | cons c cs ih =>
    intro _ hw
    have hc : isWordChar c = true := hw c (by simp)
    cases cs with
    | nil => simp [tokenize, hc]
    | cons d ds =>
      have hcs : tokenize (d :: ds) = [.word (d :: ds)] :=
        ih (by simp) fun x hx => hw x (by simp [hx])
      rw [tokenize_cons_eq, hcs, hc]
      simp

/-- A nonempty all-non-word run is a single gap token. -/
theorem tokenize_all_gap :
    ∀ {l : List Char}, l ≠ [] → (∀ c ∈ l, isWordChar c = false) →
      tokenize l = [.gap l] := by
  intro l
  induction l with
  | nil => intro h _; exact absurd rfl h
  | cons c cs ih =>
    intro _ hw
    have hc : isWordChar c = false := hw c (by simp)
    cases cs with
    | nil => simp [tokenize, hc]
    | cons d ds =>
      have hcs : tokenize (d :: ds) = [.gap (d :: ds)] :=
        ih (by simp) fun x hx => hw x (by simp [hx])
      rw [tokenize_cons_eq, hcs, hc]
      simp

/-- The kind of the first token matches the kind of the first character. -/
theorem tokenize_head_word {c : Char} {l : List Char} (h : isWordChar c = true) :
    ∃ w rest, tokenize (c :: l) = .word (c :: w) :: rest := by
  rw [tokenize_cons_eq, h]
  cases tokenize l with
  | nil => exact ⟨[], [], by simp⟩
  | cons t rest =>
    cases t with
    | word w => exact ⟨w, rest, by simp⟩
    | gap g => exact ⟨[], .gap g :: rest, by simp⟩

theorem tokenize_head_gap {c : Char} {l : List Char} (h : isWordChar c = false) :
    ∃ g rest, tokenize (c :: l) = .gap (c :: g) :: rest := by
  rw [tokenize_cons_eq, h]
  cases tokenize l with
  | nil => exact ⟨[], [], by simp⟩
  | cons t rest =>
    cases t with
    | word w => exact ⟨[], .word w :: rest, by simp⟩
    | gap g => exact ⟨g, rest, by simp⟩

/-- Tokenization splits over an append whose seam separates a word char
from a non-word char (in either order). -/
theorem tokenize_append_break :
    ∀ {a : List Char} (_ : a ≠ []) {b : List Char} (_ : b ≠ []),
      (∀ (x y : Char), a.getLast? = some x → b.head? = some y →
        isWordChar x ≠ isWordChar y) →
      tokenize (a ++ b) = tokenize a ++ tokenize b := by
  intro a
  induction a with
  | nil => intro h; exact absurd rfl h
  | cons x a' ih =>
    intro _ b hb hbreak
    cases ha' : a' with
    | nil =>
      subst ha'
      cases b with
      | nil => exact absurd rfl hb
      | cons y b' =>
        have hxy : isWordChar x ≠ isWordChar y := hbreak x y (by simp) (by simp)
        by_cases hw : isWordChar x = true
        · have hy : isWordChar y = false := by
            cases hyv : isWordChar y
            · rfl
            · rw [hw, hyv] at hxy; exact absurd rfl hxy
          obtain ⟨g, rest, hg⟩ := tokenize_head_gap (l := b') hy
          rw [List.singleton_append, tokenize_cons_eq, hw, hg]
          rw [show tokenize [x] = [.word [x]] from by rw [tokenize_cons_eq, hw]; rfl]
          simp
        · have hwx : isWordChar x = false := by
            cases hxv : isWordChar x
            · rfl
            · exact absurd hxv hw
          have hy : isWordChar y = true := by
            cases hyv : isWordChar y
            · rw [hwx, hyv] at hxy; exact absurd rfl hxy
            · rfl
          obtain ⟨w, rest, hg⟩ := tokenize_head_word (l := b') hy
          rw [List.singleton_append, tokenize_cons_eq, hwx, hg]
          rw [show tokenize [x] = [.gap [x]] from by rw [tokenize_cons_eq, hwx]; rfl]
          simp
    | cons z a'' =>
      have ha'ne : a' ≠ [] := by rw [ha']; simp
      rw [← ha']
      have hlast : (x :: a').getLast? = a'.getLast? := by
        rw [ha']
        exact List.getLast?_cons_cons
      have ihx : tokenize (a' ++ b) = tokenize a' ++ tokenize b := by
        refine ih ha'ne hb ?_
        intro u v hu hv
        exact hbreak u v (by rw [hlast]; exact hu) hv
      have hcons : x :: a' ++ b = x :: (a' ++ b) := rfl
      rw [hcons, tokenize_cons_eq, tokenize_cons_eq, ihx]
      cases hta' : tokenize a' with
      | nil => exact absurd hta' (tokenize_ne_nil ha'ne)
      | cons t rest =>
        by_cases hw : isWordChar x = true
        · simp only [hw, if_pos]
          cases t with
          | word w => simp
          | gap g => simp
        · have hwx : isWordChar x = false := by
            cases hxv : isWordChar x
            · rfl
            · exact absurd hxv hw
          simp only [hwx, Bool.false_eq_true, if_neg, not_false_iff]
          cases t with
          | word w => simp
          | gap g => simp

/-! ## Decimal numerals -/

def digitChar (d : ℕ) : Char := Char.ofNat (48 + d)

def digitVal (c : Char) : ℕ := c.toNat - 48

def digitsVal (l : List Char) : ℕ :=
  l.foldl (fun acc c => 10 * acc + digitVal c) 0

/-- The decimal numeral of a natural number, most significant digit first
(the way Python renders the `{N}` of `compress to {N}mb`). -/
def natToDigits (n : ℕ) : List Char :=
  if h : n < 10 then [digitChar n]
  else natToDigits (n / 10) ++ [digitChar (n % 10)]
decreasing_by exact Nat.div_lt_self (by omega) (by omega)

theorem digitChar_isDigit {d : ℕ} (h : d < 10) : (digitChar d).isDigit = true := by
  interval_cases d <;> decide

theorem digitVal_digitChar {d : ℕ} (h : d < 10) : digitVal (digitChar d) = d := by
  interval_cases d <;> decide

theorem natToDigits_ne_nil (n : ℕ) : natToDigits n ≠ [] := by
  rw [natToDigits]
  by_cases h : n < 10 <;> simp [h]

theorem natToDigits_all_digit (n : ℕ) : ∀ c ∈ natToDigits n, c.isDigit = true := by
  induction n using Nat.strong_induction_on with
  | _ n ih =>
    rw [natToDigits]
    by_cases h : n < 10
    · simp only [h, dif_pos]
      intro c hc
      simp at hc
      subst hc
      exact digitChar_isDigit h
    · simp only [h, dif_neg, not_false_iff]
      intro c hc
      rcases List.mem_append.mp hc with hc | hc
      · exact ih (n / 10) (Nat.div_lt_self (by omega) (by omega)) c hc
      · simp at hc
        subst hc
        exact digitChar_isDigit (Nat.mod_lt _ (by omega))

theorem digitsVal_append_one (l : List Char) (c : Char) :
    digitsVal (l ++ [c]) = 10 * digitsVal l + digitVal c := by
  simp [digitsVal, List.foldl_append]

theorem digitsVal_natToDigits (n : ℕ) : digitsVal (natToDigits n) = n := by
  induction n using Nat.strong_induction_on with
  | _ n ih =>
    rw [natToDigits]
    by_cases h : n < 10
    · simp only [h, dif_pos]
      simp [digitsVal, digitVal_digitChar h]
    · simp only [h, dif_neg, not_false_iff]
      rw [digitsVal_append_one,
        ih (n / 10) (Nat.div_lt_self (by omega) (by omega)),
        digitVal_digitChar (Nat.mod_lt _ (by omega))]
      omega

/-- A digit is a word character but not a letter: the taint facts used
throughout. -/
theorem isWordChar_of_isDigit {c : Char} (h : c.isDigit = true) :
    isWordChar c = true := by
  simp [isWordChar, h]

theorem not_isAlpha_of_isDigit {c : Char} (h : c.isDigit = true) :
    c.isAlpha = false := by
  unfold Char.isDigit at h
  unfold Char.isAlpha Char.isUpper Char.isLower
  rw [Bool.and_eq_true, decide_eq_true_eq, decide_eq_true_eq] at h
  obtain ⟨h1, h2⟩ := h
  have h2' : c.val.toBitVec.toNat ≤ (57 : UInt32).toBitVec.toNat :=
    BitVec.le_def.mp (UInt32.le_def.mp h2)
  have e57 : (57 : UInt32).toBitVec.toNat = 57 := rfl
  simp only [Bool.or_eq_false_iff, Bool.and_eq_false_iff, decide_eq_false_iff_not]
  constructor
  · left
    intro hh
    have h3 : (65 : UInt32).toBitVec.toNat ≤ c.val.toBitVec.toNat :=
      BitVec.le_def.mp (UInt32.le_def.mp hh)
    have e65 : (65 : UInt32).toBitVec.toNat = 65 := rfl
    omega
  · left
    intro hh
    have h3 : (97 : UInt32).toBitVec.toNat ≤ c.val.toBitVec.toNat :=
      BitVec.le_def.mp (UInt32.le_def.mp hh)
    have e97 : (97 : UInt32).toBitVec.toNat = 97 := rfl
    omega

theorem allAlpha_false_of_digit_mem {w : List Char} {c : Char}
    (hc : c ∈ w) (hd : c.isDigit = true) : allAlpha w = false := by
  cases h : allAlpha w
  · rfl
  · have := (List.all_eq_true.mp h) c hc
    rw [not_isAlpha_of_isDigit hd] at this
    exact absurd this (by simp)

/-! ## Valid token lists and retokenization -/

/-- A well-formed token list: nonempty tokens of the right character kind,
alternating word/gap.  `prev` is the kind of the previous token
(`some true` = word), `none` at the start. -/
def validChain : Option Bool → List Tok → Bool
  | _, [] => true
  | prev, .word w :: rest =>
    !w.isEmpty && w.all isWordChar && (prev ≠ some true) && validChain (some true) rest
  | prev, .gap g :: rest =>
    !g.isEmpty && (g.all fun c => !isWordChar c) && (prev ≠ some false) &&
      validChain (some false) rest

theorem validChain_word (prev : Option Bool) (w : List Char) (rest : List Tok) :
    validChain prev (.word w :: rest)
      = (!w.isEmpty && w.all isWordChar && (prev ≠ some true) &&
          validChain (some true) rest) := rfl

theorem validChain_gap (prev : Option Bool) (g : List Char) (rest : List Tok) :
    validChain prev (.gap g :: rest)
      = (!g.isEmpty && (g.all fun c => !isWordChar c) && (prev ≠ some false) &&
          validChain (some false) rest) := rfl

theorem validChain_tokenize (s : List Char) :
    ∀ prev, (match tokenize s with
      | .word _ :: _ => prev ≠ some true
      | .gap _ :: _ => prev ≠ some false
      | [] => True) →
    validChain prev (tokenize s) = true := by
  induction s with
  | nil => intro prev _; rfl
  | cons c cs ih =>
    intro prev hprev
    rw [tokenize_cons_eq] at hprev ⊢
    by_cases hw : isWordChar c = true
    · simp only [hw, if_pos] at hprev ⊢
      cases htl : tokenize cs with
      | nil =>
        simp only [htl] at hprev ⊢
        rw [validChain_word]
        simp [hw, hprev, validChain]
      | cons t rest =>
        cases t with
        | word w =>
          have hvcs := ih none (by rw [htl]; simp)
          rw [htl] at hvcs
          simp only [htl] at hprev ⊢
          rw [validChain_word] at hvcs ⊢
          simp only [Bool.and_eq_true] at hvcs
          obtain ⟨⟨⟨hne, hall⟩, _⟩, hrest⟩ := hvcs
          simp only [Bool.and_eq_true]
          refine ⟨⟨⟨by simp, ?_⟩, by simp [hprev]⟩, hrest⟩
          simp only [List.all_cons, Bool.and_eq_true]
          exact ⟨hw, List.all_eq_true.mpr (List.all_eq_true.mp hall)⟩
        | gap g =>
          have hvcs := ih (some true) (by rw [htl]; simp)
          rw [htl] at hvcs
          simp only [htl] at hprev ⊢
          rw [validChain_word]
          simp only [Bool.and_eq_true]
          exact ⟨⟨⟨by simp, by simp [hw]⟩, by simp [hprev]⟩, hvcs⟩
    · have hwx : isWordChar c = false := by
        cases hxv : isWordChar c
        · rfl
        · exact absurd hxv hw
      simp only [hwx, Bool.false_eq_true, if_neg, not_false_iff] at hprev ⊢
      cases htl : tokenize cs with
      | nil =>
        simp only [htl] at hprev ⊢
        rw [validChain_gap]
        simp [hwx, hprev, validChain]
      | cons t rest =>
        cases t with
        | gap g =>
          have hvcs := ih none (by rw [htl]; simp)
          rw [htl] at hvcs
          simp only [htl] at hprev ⊢
          rw [validChain_gap] at hvcs ⊢
          simp only [Bool.and_eq_true] at hvcs
          obtain ⟨⟨⟨hne, hall⟩, _⟩, hrest⟩ := hvcs
          simp only [Bool.and_eq_true]
          refine ⟨⟨⟨by simp, ?_⟩, by simp [hprev]⟩, hrest⟩
          simp only [List.all_cons, Bool.and_eq_true]
          refine ⟨by simp [hwx], List.all_eq_true.mpr (List.all_eq_true.mp hall)⟩
        | word w =>
          have hvcs := ih (some false) (by rw [htl]; simp)
          rw [htl] at hvcs
          simp only [htl] at hprev ⊢
          rw [validChain_gap]
          simp only [Bool.and_eq_true]
          exact ⟨⟨⟨by simp, by simp [hwx]⟩, by simp [hprev]⟩, hvcs⟩

theorem tokenize_valid (s : List Char) : validChain none (tokenize s) = true := by
  apply validChain_tokenize
  cases tokenize s with
  | nil => trivial
  | cons t rest => cases t <;> simp

theorem flattenToks_ne_nil {toks : List Tok} {prev : Option Bool}
    (hv : validChain prev toks = true) (hne : toks ≠ []) :
    flattenToks toks ≠ [] := by
  cases toks with
  | nil => exact absurd rfl hne
  | cons t rest =>
    cases t with
    | word w =>
      simp only [validChain, Bool.and_eq_true] at hv
      have : w ≠ [] := by
        intro h
        rw [h] at hv
        simp at hv
      cases w with
      | nil => exact absurd rfl this
      | cons c cs => simp [flattenToks]
    | gap g =>
      simp only [validChain, Bool.and_eq_true] at hv
      have : g ≠ [] := by
        intro h
        rw [h] at hv
        simp at hv
      cases g with
      | nil => exact absurd rfl this
      | cons c cs => simp [flattenToks]

theorem mem_of_getLast_opt {α : Type} {l : List α} {x : α}
    (h : l.getLast? = some x) : x ∈ l := by
  have hx : x ∈ l.getLast? := by simp [h, Option.mem_def]
  rcases List.mem_getLast?_eq_getLast hx with ⟨hne, he⟩
  rw [he]
  exact List.getLast_mem hne

/-- Retokenizing a valid token list gives it back. -/
theorem tokenize_flattenToks :
    ∀ (toks : List Tok) (prev : Option Bool), validChain prev toks = true →
      tokenize (flattenToks toks) = toks := by
  intro toks
  induction toks with
  | nil => intro _ _; rfl
  | cons t rest ih =>
    intro prev hv
    cases t with
    | word w =>
      simp only [validChain, Bool.and_eq_true] at hv
      obtain ⟨⟨⟨hne, hall⟩, _⟩, hrest⟩ := hv
      have hwne : w ≠ [] := by
        intro h; rw [h] at hne; simp at hne
      have hwall : ∀ c ∈ w, isWordChar c = true := List.all_eq_true.mp hall
      show tokenize (w ++ flattenToks rest) = .word w :: rest
      cases hr : rest with
      | nil =>
        simp only [flattenToks, List.append_nil]
        exact tokenize_all_word hwne hwall
      | cons t2 rest2 =>
        have hfne : flattenToks rest ≠ [] := by
          rw [hr]
          exact flattenToks_ne_nil (by rw [← hr]; exact hrest) (by simp)
        rw [← hr]
        have hbreak : ∀ (x y : Char), w.getLast? = some x →
            (flattenToks rest).head? = some y → isWordChar x ≠ isWordChar y := by
          intro x y hx hy
          have hxw : isWordChar x = true :=
            hwall x (mem_of_getLast_opt hx)
          have hyg : isWordChar y = false := by
            rw [hr] at hrest hy
            cases t2 with
            | word w2 =>
              simp [validChain] at hrest
            | gap g2 =>
              simp only [validChain, Bool.and_eq_true] at hrest
              obtain ⟨⟨⟨hne2, hall2⟩, _⟩, _⟩ := hrest
              have : y ∈ g2 := by
                cases g2 with
                | nil => simp at hne2
                | cons d ds =>
                  simp only [flattenToks] at hy
                  simp only [List.cons_append, List.head?_cons] at hy
                  rw [← Option.some_inj.mp hy]
                  simp
              have := (List.all_eq_true.mp hall2) y this
              simpa using this
          rw [hxw, hyg]
          simp
        rw [tokenize_append_break hwne hfne hbreak,
          tokenize_all_word hwne hwall, ih _ hrest]
        rfl
    | gap g =>
      simp only [validChain, Bool.and_eq_true] at hv
      obtain ⟨⟨⟨hne, hall⟩, _⟩, hrest⟩ := hv
      have hgne : g ≠ [] := by
        intro h; rw [h] at hne; simp at hne
      have hgall : ∀ c ∈ g, isWordChar c = false := by
        intro c hc
        have := (List.all_eq_true.mp hall) c hc
        simpa using this
      have hgtok : tokenize g = [.gap g] := tokenize_all_gap hgne hgall
      show tokenize (g ++ flattenToks rest) = .gap g :: rest
      cases hr : rest with
      | nil =>
        simp only [flattenToks, List.append_nil]
        exact hgtok
      | cons t2 rest2 =>
        have hfne : flattenToks rest ≠ [] := by
          rw [hr]
          exact flattenToks_ne_nil (by rw [← hr]; exact hrest) (by simp)
        rw [← hr]
        have hbreak : ∀ (x y : Char), g.getLast? = some x →
            (flattenToks rest).head? = some y → isWordChar x ≠ isWordChar y := by
          intro x y hx hy
          have hxw : isWordChar x = false :=
            hgall x (mem_of_getLast_opt hx)
          have hyg : isWordChar y = true := by
            rw [hr] at hrest hy
            cases t2 with
            | gap g2 =>
              simp [validChain] at hrest
            | word w2 =>
              simp only [validChain, Bool.and_eq_true] at hrest
              obtain ⟨⟨⟨hne2, hall2⟩, _⟩, _⟩ := hrest
              have : y ∈ w2 := by
                cases w2 with
                | nil => simp at hne2
                | cons d ds =>
                  simp only [flattenToks] at hy
                  simp only [List.cons_append, List.head?_cons] at hy
                  rw [← Option.some_inj.mp hy]
                  simp
              exact (List.all_eq_true.mp hall2) y this
          rw [hxw, hyg]
          simp
        rw [tokenize_append_break hgne hfne hbreak, hgtok, ih _ hrest]
        rfl

/-! ## `_fix_common_connector_typos` (app/clarification_layer.py, lines 380-400) -/

def lowerL (l : List Char) : List Char := l.map Char.toLower

/-- The whole-word substitutions of `_fix_common_connector_typos`, in source
order: `adn`/`n` to `and`, `thne`/`thn` to `then`, and the conservative
full-word action typo fixes. -/
def connectorTypoRules : List (List Char × List Char) :=
  [ ("adn".toList, "and".toList),
    ("n".toList, "and".toList),
    ("thne".toList, "then".toList),
    ("thn".toList, "then".toList),
    ("compres".toList, "compress".toList),
    ("comprss".toList, "compress".toList),
    ("splt".toList, "split".toList),
    ("spllit".toList, "split".toList),
    ("merg".toList, "merge".toList),
    ("conver".toList, "convert".toList),
    ("cnvert".toList, "convert".toList),
    ("cnvrt".toList, "convert".toList),
    ("convrt".toList, "convert".toList) ]

/-- Apply a list of case-insensitive whole-word substitutions to one word
token, in order (each `re.sub` sees the result of the previous one). -/
def applyTypoRules (rules : List (List Char × List Char)) (w : List Char) : List Char :=
  rules.foldl (fun t r => if lowerL t = r.1 then r.2 else t) w

def mapWordTok (rules : List (List Char × List Char)) : Tok → Tok
  | .word w => .word (applyTypoRules rules w)
  | .gap g => .gap g

/-- `_fix_common_connector_typos`: a sequence of case-insensitive whole-word
`re.sub`s.  A `\b<typo>\b` sub rewrites exactly the maximal word tokens
equal (case-insensitively) to the typo word; every replacement is again a
nonempty word, so the token decomposition is unchanged between the subs and
the whole sequence acts independently on each word token. -/
def fix_common_connector_typos (s : List Char) : List Char :=
  flattenToks ((tokenize s).map (mapWordTok connectorTypoRules))

theorem applyTypoRules_out (rules : List (List Char × List Char)) :
    ∀ (w : List Char),
      applyTypoRules rules w = w ∨ applyTypoRules rules w ∈ rules.map Prod.snd := by
  induction rules with
  | nil => intro w; exact Or.inl rfl
  | cons r rs ih =>
    intro w
    have e : applyTypoRules (r :: rs) w
        = applyTypoRules rs (if lowerL w = r.1 then r.2 else w) := rfl
    by_cases h : lowerL w = r.1
    · rw [e, if_pos h]
      rcases ih r.2 with h2 | h2
      · right; rw [h2]; simp
      · right
        simp only [List.map_cons, List.mem_cons]
        exact Or.inr h2
    · rw [e, if_neg h]
      rcases ih w with h2 | h2
      · exact Or.inl h2
      · right
        simp only [List.map_cons, List.mem_cons]
        exact Or.inr h2

theorem connector_reps_fixed :
    ∀ rep ∈ connectorTypoRules.map Prod.snd,
      applyTypoRules connectorTypoRules rep = rep := by decide

theorem applyTypoRules_connector_idem (w : List Char) :
    applyTypoRules connectorTypoRules (applyTypoRules connectorTypoRules w)
      = applyTypoRules connectorTypoRules w := by
  rcases applyTypoRules_out connectorTypoRules w with h | h
  · rw [h]; exact h
  · exact connector_reps_fixed _ h

theorem mapWordTok_valid {rules : List (List Char × List Char)}
    (hreps : ∀ rep ∈ rules.map Prod.snd, rep ≠ [] ∧ rep.all isWordChar = true) :
    ∀ (toks : List Tok) (prev : Option Bool), validChain prev toks = true →
      validChain prev (toks.map (mapWordTok rules)) = true := by
  intro toks
  induction toks with
  | nil => intro prev _; rfl
  | cons t rest ih =>
    intro prev hv
    cases t with
    | word w =>
      rw [validChain_word, Bool.and_eq_true, Bool.and_eq_true, Bool.and_eq_true] at hv
      obtain ⟨⟨⟨hne, hall⟩, hp⟩, hrest⟩ := hv
      show validChain prev (.word (applyTypoRules rules w) :: rest.map (mapWordTok rules)) = true
      rw [validChain_word, Bool.and_eq_true, Bool.and_eq_true, Bool.and_eq_true]
      refine ⟨⟨⟨?_, ?_⟩, hp⟩, ih _ hrest⟩
      · rcases applyTypoRules_out rules w with h | h
        · rw [h]; exact hne
        · have := (hreps _ h).1
          simpa using this
      · rcases applyTypoRules_out rules w with h | h
        · rw [h]; exact hall
        · exact (hreps _ h).2
    | gap g =>
      rw [validChain_gap, Bool.and_eq_true, Bool.and_eq_true, Bool.and_eq_true] at hv
      obtain ⟨⟨⟨hne, hall⟩, hp⟩, hrest⟩ := hv
      show validChain prev (.gap g :: rest.map (mapWordTok rules)) = true
      rw [validChain_gap, Bool.and_eq_true, Bool.and_eq_true, Bool.and_eq_true]
      exact ⟨⟨⟨hne, hall⟩, hp⟩, ih _ hrest⟩

/-! ## `LocalNormalizer.normalize` (app/one_flow_resolver.py, lines 185-230) -/

namespace LocalNormalizer

/-- One building block of an anchored `PREFIX_PATTERNS` regex. -/
inductive PrePiece where
  | lit (w : List Char)
  | wsp
  | digits
  deriving Repr

def dropPrePiece : PrePiece → List Char → Option (List Char)
  | .lit w, s => if w.isPrefixOf s then some (s.drop w.length) else none
  | .wsp, s =>
    let r := s.dropWhile isWs
    if r.length < s.length then some r else none
  | .digits, s =>
    let r := s.dropWhile Char.isDigit
    if r.length < s.length then some r else none

/-- Match an anchored prefix pattern; `some rem` is the text after the
matched prefix (what `re.sub(pattern, "", s)` keeps). -/
def dropPre : List PrePiece → List Char → Option (List Char)
  | [], s => some s
  | p :: ps, s => (dropPrePiece p s).bind (dropPre ps)

/-- `PREFIX_PATTERNS` (app/one_flow_resolver.py, lines 66-83), in order. -/
def prePats : List (List PrePiece) :=
  [ [.lit "and".toList, .wsp],
    [.lit "pls".toList, .wsp],
    [.lit "plz".toList, .wsp],
    [.lit "please".toList, .wsp],
    [.lit "do".toList, .wsp, .lit "it".toList, .wsp],
    [.lit "make".toList, .wsp, .lit "small".toList, .wsp],
    [.lit "fix".toList, .wsp, .lit "this".toList, .wsp],
    [.lit "to".toList, .wsp, .lit "doc".toList, .wsp],
    [.lit "to".toList, .wsp, .lit "img".toList, .wsp],
    [.digits, .wsp, .lit "to".toList, .wsp, .digits, .wsp],
    [.lit "then".toList, .wsp],
    [.lit "now".toList, .wsp],
    [.lit "just".toList, .wsp],
    [.lit "can".toList, .wsp, .lit "you".toList, .wsp],
    [.lit "i".toList, .wsp, .lit "want".toList, .wsp, .lit "to".toList, .wsp],
    [.lit "i".toList, .wsp, .lit "need".toList, .wsp, .lit "to".toList, .wsp] ]

/-- Python `str.strip()`. -/
def stripWs (l : List Char) : List Char :=
  ((l.dropWhile isWs).reverse.dropWhile isWs).reverse

/-- The `typo_fixes` map of `LocalNormalizer.normalize`, in insertion
order (several entries map a word to itself). -/
def normalizeTypoRules : List (List Char × List Char) :=
  [ ("compres".toList, "compress".toList),
    ("comprs".toList, "compress".toList),
    ("mrge".toList, "merge".toList),
    ("merg".toList, "merge".toList),
    ("splt".toList, "split".toList),
    ("spill".toList, "split".toList),
    ("spilt".toList, "split".toList),
    ("convrt".toList, "convert".toList),
    ("rotate".toList, "rotate".toList),
    ("rotat".toList, "rotate".toList),
    ("rotae".toList, "rotate".toList),
    ("watermark".toList, "watermark".toList),
    ("enhance".toList, "enhance".toList),
    ("reorder".toList, "reorder".toList),
    ("flatten".toList, "flatten".toList),
    ("clean".toList, "clean".toList),
    ("adn".toList, "and".toList),
    ("thn".toList, "then".toList),
    ("thne".toList, "then".toList),
    ("dog".toList, "docx".toList),
    ("dox".toList, "docx".toList),
    ("pfd".toList, "pdf".toList),
    ("imag".toList, "image".toList) ]

/-- One `(?:→|➔|->|>)` alternative. -/
def arrowOne : List Char → Option (List Char)
  | '→' :: r => some r
  | '➔' :: r => some r
  | '-' :: '>' :: r => some r
  | '>' :: r => some r
  | _ => none

/-- One-or-more arrows, greedy.  The fuel only needs to cover the input
length (every arrow consumes at least one character). -/
def arrowRunF : ℕ → List Char → Option (List Char)
  | 0, _ => none
  | fuel + 1, s =>
    match arrowOne s with
    | none => none
    | some r =>
      match arrowRunF fuel r with
      | some r2 => some r2
      | none => some r

/-- Try `PIPELINE_ARROW = \s*(?:→|➔|->|>)+\s*` at the current position:
leading whitespace can only be part of a match if an arrow follows it. -/
def tryArrowMatch (s : List Char) : Option (List Char) :=
  let r1 := s.dropWhile isWs
  match arrowRunF (r1.length + 1) r1 with
  | none => none
  | some r2 => some (r2.dropWhile isWs)

/-- `PIPELINE_ARROW.sub(" → ", s)`: left-to-right non-overlapping maximal
matches replaced by a single spaced arrow.  Every step consumes at least
one character, so `s.length` fuel is always enough. -/
def arrowSubF : ℕ → List Char → List Char
  | 0, s => s
  | _ + 1, [] => []
  | fuel + 1, c :: rest =>
    match tryArrowMatch (c :: rest) with
    | some rem => ' ' :: '→' :: ' ' :: arrowSubF fuel rem
    | none => c :: arrowSubF fuel rest

def arrowSub (s : List Char) : List Char := arrowSubF s.length s

/-- `LocalNormalizer.normalize`: lowercase and strip, strip the context
prefixes one pattern at a time (each an anchored `re.sub` followed by
`.strip()`), fix whole-word typos, normalize pipeline arrows, strip. -/
def normalize (s : List Char) : List Char :=
  if s.isEmpty then s
  else
    let r0 := stripWs (lowerL s)
    let r1 := prePats.foldl (fun r pat =>
      stripWs (match dropPre pat r with
        | some rem => rem
        | none => r)) r0
    let r2 := flattenToks ((tokenize r1).map (mapWordTok normalizeTypoRules))
    let r3 := arrowSub r2
    stripWs r3

end LocalNormalizer

/-- C7 — amended.  The connector-typo repair
`_fix_common_connector_typos` is idempotent: applying it twice gives the
same result as applying it once, for every input string.  (The
prefix-stripping normalizer `LocalNormalizer.normalize` is *not*
idempotent; see the counterexample theorem.) -/
theorem C7_connector_typos_idem (s : List Char) :
    fix_common_connector_typos (fix_common_connector_typos s)
      = fix_common_connector_typos s := by
  unfold fix_common_connector_typos
  have hreps : ∀ rep ∈ connectorTypoRules.map Prod.snd,
      rep ≠ [] ∧ rep.all isWordChar = true := by decide
  have hv : validChain none ((tokenize s).map (mapWordTok connectorTypoRules)) = true :=
    mapWordTok_valid hreps _ none (tokenize_valid s)
  rw [tokenize_flattenToks _ none hv]
  congr 1
  rw [List.map_map]
  apply List.map_congr_left
  intro t _
  cases t with
  | word w =>
    show mapWordTok _ (.word (applyTypoRules connectorTypoRules w)) = _
    simp only [mapWordTok, applyTypoRules_connector_idem]
  | gap g => rfl

set_option maxRecDepth 8192 in
/-- C7 — counterexample.  `LocalNormalizer.normalize` is not idempotent:
on `"pls and compress"` the single pass strips only `pls `, and a second
pass strips the now-leading `and ` as well. -/
theorem C7_normalize_not_idem :
    LocalNormalizer.normalize
        (LocalNormalizer.normalize ("pls and compress".toList))
      ≠ LocalNormalizer.normalize ("pls and compress".toList) := by
  decide

/-! ## Size extraction: app/pattern_matching.py vs app/one_flow_resolver.py

Both extractors return megabytes.  Python float arithmetic is modelled over
`ℚ`; on the integer-valued claim inputs the reasoning is exact ("500kb" is
answered from the shortcut table without arithmetic, `n/1024` is exact in
binary floating point for these `n`, and `n*0.001` differs from `n/1024`
by far more than one ulp for every nonzero `n`, so the `ℚ`-level
disagreements are also float-level disagreements). -/

theorem takeWhile_append_all {p : Char → Bool} :
    ∀ {l1 l2 : List Char}, (∀ c ∈ l1, p c = true) →
      (l1 ++ l2).takeWhile p = l1 ++ l2.takeWhile p := by
  intro l1
  induction l1 with
  | nil => intro l2 _; rfl
  | cons c cs ih =>
    intro l2 h
    have hc : p c = true := h c (by simp)
    simp only [List.cons_append, List.takeWhile_cons, hc, if_pos]
    rw [ih fun x hx => h x (by simp [hx])]

theorem dropWhile_append_all {p : Char → Bool} :
    ∀ {l1 l2 : List Char}, (∀ c ∈ l1, p c = true) →
      (l1 ++ l2).dropWhile p = l2.dropWhile p := by
  intro l1
  induction l1 with
  | nil => intro l2 _; rfl
  | cons c cs ih =>
    intro l2 h
    have hc : p c = true := h c (by simp)
    simp only [List.cons_append, List.dropWhile_cons, hc, if_pos]
    exact ih fun x hx => h x (by simp [hx])

/-- Fractional part value of the optional `(?:\.\d+)?` group. -/
def fracVal (ds : List Char) : ℚ := (digitsVal ds : ℚ) / (10 ^ ds.length)

/-- Check `\s*<unit>` after the captured number, returning the value. -/
def sizeUnitChk (unit : List Char) (v : ℚ) (r2 : List Char) : Option ℚ :=
  if unit.isPrefixOf (lowerL (r2.dropWhile isWs)) then some v else none

/-- Handle the optional `(?:\.\d+)?` after the integer part. -/
def sizeAfterNum (unit : List Char) (v : ℚ) : List Char → Option ℚ
  | '.' :: r =>
    if (r.takeWhile Char.isDigit).isEmpty then sizeUnitChk unit v ('.' :: r)
    else sizeUnitChk unit (v + fracVal (r.takeWhile Char.isDigit)) (r.dropWhile Char.isDigit)
  | r1 => sizeUnitChk unit v r1

/-- Match `(\d+(?:\.\d+)?)\s*<unit>` at the current position, returning
the captured numeric value.  Greedy `\d+` and the optional fraction need
no backtracking here: a shorter digit run leaves a digit in front of the
unit letters, which can never match. -/
def sizeMatchAt (unit : List Char) (s : List Char) : Option ℚ :=
  if (s.takeWhile Char.isDigit).isEmpty then none
  else sizeAfterNum unit (digitsVal (s.takeWhile Char.isDigit) : ℚ) (s.dropWhile Char.isDigit)

/-- Is the position after the matched unit a word boundary?  (The trailing
`\b` of the `SIZE_PATTERNS` regexes.) -/
def sizeTailChk (unit : List Char) (r2 : List Char) : Bool :=
  match (r2.dropWhile isWs).drop unit.length with
  | [] => true
  | c :: _ => !isWordChar c

def sizeTailAfterNum (unit : List Char) : List Char → Bool
  | '.' :: r =>
    if (r.takeWhile Char.isDigit).isEmpty then sizeTailChk unit ('.' :: r)
    else sizeTailChk unit (r.dropWhile Char.isDigit)
  | r1 => sizeTailChk unit r1

def sizeTailBoundary (unit : List Char) (s : List Char) : Bool :=
  sizeTailAfterNum unit (s.dropWhile Char.isDigit)

/-- Leftmost search for a size pattern.  `prev` is the character before the
current position; `withB` demands the `\b` boundaries of the
`SIZE_PATTERNS` regexes (app/pattern_matching.py), while `TARGET_SIZE_PATTERN`
(app/one_flow_resolver.py) has none. -/
def sizeSearch (withB : Bool) (unit : List Char) : Option Char → List Char → Option ℚ
  | _, [] => none
  | prev, c :: rest =>
    let bOk := !withB || (match prev with
      | none => true
      | some p => !isWordChar p)
    match (if bOk then sizeMatchAt unit (c :: rest) else none) with
    | some v =>
      if !withB || sizeTailBoundary unit (c :: rest) then some v
      else sizeSearch withB unit (some c) rest
    | none => sizeSearch withB unit (some c) rest

/-- Does `pat` occur as a contiguous substring (Python `in`)? -/
def containsSeq (pat : List Char) : List Char → Bool
  | [] => pat.isEmpty
  | c :: rest => pat.isPrefixOf (c :: rest) || containsSeq pat rest

namespace PatternMatcher

/-- `NAMED_SIZES` (app/pattern_matching.py, lines 136-142), in insertion
order. -/
def namedSizes : List (List Char × ℚ) :=
  [ ("500kb".toList, 1/2), ("1mb".toList, 1), ("2mb".toList, 2),
    ("5mb".toList, 5), ("10mb".toList, 10) ]

/-- `PatternMatcher._extract_size` (app/pattern_matching.py, lines
274-289): named shortcuts are checked first by *substring* on the
de-spaced, lowercased text; then the `SIZE_PATTERNS` are tried in order
kb (×0.001), mb (×1.0), gb (×1024.0). -/
def extract_size (s : List Char) : Option ℚ :=
  match namedSizes.find? (fun ns =>
      containsSeq ns.1 (lowerL (s.filter (fun c => c ≠ ' ')))) with
  | some ns => some ns.2
  | none =>
    match sizeSearch true ("kb".toList) none s with
    | some v => some (v * (1 / 1000))
    | none =>
      match sizeSearch true ("mb".toList) none s with
      | some v => some (v * 1)
      | none =>
        match sizeSearch true ("gb".toList) none s with
        | some v => some (v * 1024)
        | none => none

end PatternMatcher

namespace LocalNormalizer

/-- `LocalNormalizer.extract_target_size` (app/one_flow_resolver.py, lines
262-277): a single boundary-free search of
`(\d+(?:\.\d+)?)\s*(kb|mb|gb)`; kb divides by 1024, gb multiplies by
1024. -/
def extract_target_size (s : List Char) : Option ℚ :=
  match sizeSearch false ("kb".toList) none s,
        sizeSearch false ("mb".toList) none s,
        sizeSearch false ("gb".toList) none s with
  | some v, _, _ => some (v / 1024)
  | none, some v, _ => some v
  | none, none, some v => some (v * 1024)
  | none, none, none => none

end LocalNormalizer

/-! ### C9: comparing the two extractors on `"<n> kb|mb|gb"` inputs -/

theorem takeWhile_nil_dropWhile {p : Char → Bool} {T : List Char}
    (h : T.takeWhile p = []) : T.dropWhile p = T := by
  cases T with
  | nil => rfl
  | cons c r =>
    by_cases hc : p c = true
    · simp [List.takeWhile_cons, hc] at h
    · simp [List.dropWhile_cons, hc]

theorem sizeMatchAt_digits {unit ds T : List Char}
    (hds : ∀ c ∈ ds, Char.isDigit c = true) (hne : ds ≠ [])
    (hT : T.takeWhile Char.isDigit = []) (hTdot : T.head? ≠ some '.') :
    sizeMatchAt unit (ds ++ T)
      = sizeUnitChk unit (digitsVal ds : ℚ) T := by
  unfold sizeMatchAt
  rw [takeWhile_append_all hds, dropWhile_append_all hds, hT, List.append_nil,
    takeWhile_nil_dropWhile hT]
  have hnem : (ds.isEmpty) = false := by
    cases ds with
    | nil => exact absurd rfl hne
    | cons c cs => rfl
  rw [if_neg (by simp [hnem])]
  cases T with
  | nil => rfl
  | cons c r =>
    have hcd : c ≠ '.' := by
      intro h
      rw [h] at hTdot
      simp at hTdot
    unfold sizeAfterNum
    split
    next heq =>
      injection heq with h1 _
      exact absurd h1 hcd
    next => rfl

theorem sizeTailBoundary_digits {unit ds T : List Char}
    (hds : ∀ c ∈ ds, Char.isDigit c = true)
    (hT : T.takeWhile Char.isDigit = []) (hTdot : T.head? ≠ some '.') :
    sizeTailBoundary unit (ds ++ T) = sizeTailChk unit T := by
  unfold sizeTailBoundary
  rw [dropWhile_append_all hds, takeWhile_nil_dropWhile hT]
  cases T with
  | nil => rfl
  | cons c r =>
    have hcd : c ≠ '.' := by
      intro h
      rw [h] at hTdot
      simp at hTdot
    unfold sizeTailAfterNum
    split
    next heq =>
      injection heq with h1 _
      exact absurd h1 hcd
    next => rfl

/-- One scan step when the per-position match fails: move one character. -/
theorem sizeSearch_step {withB : Bool} {unit : List Char} {prev : Option Char}
    {c : Char} {rest : List Char} (hc : sizeMatchAt unit (c :: rest) = none) :
    sizeSearch withB unit prev (c :: rest) = sizeSearch withB unit (some c) rest := by
  show (match (if (!withB || (match prev with
      | none => true
      | some p => !isWordChar p)) = true
      then sizeMatchAt unit (c :: rest) else none) with
    | some v => if (!withB || sizeTailBoundary unit (c :: rest)) = true then some v
        else sizeSearch withB unit (some c) rest
    | none => sizeSearch withB unit (some c) rest)
    = sizeSearch withB unit (some c) rest
  rw [hc, ite_self]

/-- Scanning a digit run whose match fails at every suffix position. -/
theorem sizeSearch_over_digits {withB : Bool} {unit : List Char} {T : List Char}
    (hT : T.takeWhile Char.isDigit = []) (hTdot : T.head? ≠ some '.')
    (hu : unit.isPrefixOf (lowerL (T.dropWhile isWs)) = false) :
    ∀ (ds : List Char), (∀ c ∈ ds, Char.isDigit c = true) →
      ∀ prev, sizeSearch withB unit prev (ds ++ T) = sizeSearch withB unit
        (match ds.getLast? with | some d => some d | none => prev) T := by
  intro ds
  induction ds with
  | nil => intro _ prev; rfl
  | cons d ds ih =>
    intro hds prev
    have hmatch : sizeMatchAt unit ((d :: ds) ++ T) = none := by
      rw [sizeMatchAt_digits hds (by simp) hT hTdot]
      simp [sizeUnitChk, hu]
    have step : sizeSearch withB unit prev ((d :: ds) ++ T)
        = sizeSearch withB unit (some d) (ds ++ T) := by
      exact sizeSearch_step hmatch
    rw [step, ih (fun c hc => hds c (by simp [hc])) (some d)]
    congr 1
    cases ds with
    | nil => simp
    | cons e es =>
      rw [List.getLast?_cons_cons,
        List.getLast?_eq_getLast_of_ne_nil (l := e :: es) (by simp)]

theorem sizeSearch_head_success {withB : Bool} {unit ds T : List Char}
    (hds : ∀ c ∈ ds, Char.isDigit c = true) (hne : ds ≠ [])
    (hT : T.takeWhile Char.isDigit = []) (hTdot : T.head? ≠ some '.')
    (hu : unit.isPrefixOf (lowerL (T.dropWhile isWs)) = true)
    (htail : sizeTailChk unit T = true) :
    sizeSearch withB unit none (ds ++ T) = some (digitsVal ds : ℚ) := by
  have hm : sizeMatchAt unit (ds ++ T) = some (digitsVal ds : ℚ) := by
    rw [sizeMatchAt_digits hds hne hT hTdot]
    simp [sizeUnitChk, hu]
  have hb : sizeTailBoundary unit (ds ++ T) = true := by
    rw [sizeTailBoundary_digits hds hT hTdot]
    exact htail
  cases ds with
  | nil => exact absurd rfl hne
  | cons d ds' =>
    show (match (if (!withB || true) = true
        then sizeMatchAt unit ((d :: ds') ++ T) else none) with
      | some v => if (!withB || sizeTailBoundary unit ((d :: ds') ++ T)) = true
          then some v else sizeSearch withB unit (some d) (ds' ++ T)
      | none => sizeSearch withB unit (some d) (ds' ++ T))
      = some (digitsVal (d :: ds') : ℚ)
    rw [Bool.or_true, if_pos rfl, hm, hb]
    simp

theorem sizeSearch_concrete_tail_none {withB : Bool} {unit : List Char}
    {c : Char} {rest : List Char} (prev : Option Char)
    (hc : sizeMatchAt unit (c :: rest) = none)
    (hnone : sizeSearch withB unit (some c) rest = none) :
    sizeSearch withB unit prev (c :: rest) = none := by
  rw [sizeSearch_step hc]
  exact hnone

/-- C9 — counterexample.  The two target-size extractors disagree on the
input `"500kb"`: `PatternMatcher._extract_size` answers 0.5 MB from its
named-shortcut table, while `LocalNormalizer.extract_target_size` computes
500/1024 MB. -/
theorem C9_counterexample :
    PatternMatcher.extract_size ("500kb".toList) = some (1 / 2 : ℚ)
    ∧ LocalNormalizer.extract_target_size ("500kb".toList) = some (125 / 256 : ℚ)
    ∧ PatternMatcher.extract_size ("500kb".toList)
        ≠ LocalNormalizer.extract_target_size ("500kb".toList) := by
  have hds : ∀ c ∈ ("500".toList), Char.isDigit c = true := by decide
  have hpm : PatternMatcher.extract_size ("500kb".toList) = some (1 / 2 : ℚ) := rfl
  have hkb : sizeSearch false ("kb".toList) none ("500".toList ++ "kb".toList)
      = some (digitsVal ("500".toList) : ℚ) :=
    sizeSearch_head_success hds (by decide) (by decide) (by decide) (by decide) (by decide)
  have hln : LocalNormalizer.extract_target_size ("500kb".toList)
      = some ((digitsVal ("500".toList) : ℚ) / 1024) := by
    show LocalNormalizer.extract_target_size ("500".toList ++ "kb".toList) = _
    unfold LocalNormalizer.extract_target_size
    rw [hkb]
  have hval : (digitsVal ("500".toList) : ℚ) = 500 := by
    rw [show digitsVal ("500".toList) = 500 from by decide]
    norm_num
  refine ⟨hpm, ?_, ?_⟩
  · rw [hln, hval]
    norm_num
  · rw [hpm, hln, hval]
    intro h
    have h2 := Option.some.inj h
    norm_num at h2

/-- C9 — amended.  On `"<n> gb"` inputs, and on `"<n> mb"` inputs whose
de-spaced text contains no named shortcut, the two extractors agree; on
`"<n> kb"` inputs `PatternMatcher._extract_size` divides by 1000 while
`LocalNormalizer.extract_target_size` divides by 1024, so they disagree
for every nonzero n (and the named-shortcut substring check diverts
`PatternMatcher._extract_size` on inputs like `"500kb"` or `"21 mb"`). -/
theorem C9_extractors_compared (ds : List Char) (hne : ds ≠ [])
    (hds : ∀ c ∈ ds, Char.isDigit c = true)
    (hnamedMb : ∀ ns ∈ PatternMatcher.namedSizes,
      containsSeq ns.1 (lowerL ((ds ++ " mb".toList).filter (fun c => c ≠ ' '))) = false)
    (hnamedGb : ∀ ns ∈ PatternMatcher.namedSizes,
      containsSeq ns.1 (lowerL ((ds ++ " gb".toList).filter (fun c => c ≠ ' '))) = false)
    (hnamedKb : ∀ ns ∈ PatternMatcher.namedSizes,
      containsSeq ns.1 (lowerL ((ds ++ " kb".toList).filter (fun c => c ≠ ' '))) = false) :
    (PatternMatcher.extract_size (ds ++ " mb".toList) = some (digitsVal ds : ℚ)
      ∧ LocalNormalizer.extract_target_size (ds ++ " mb".toList) = some (digitsVal ds : ℚ))
    ∧ (PatternMatcher.extract_size (ds ++ " gb".toList) = some ((digitsVal ds : ℚ) * 1024)
      ∧ LocalNormalizer.extract_target_size (ds ++ " gb".toList)
          = some ((digitsVal ds : ℚ) * 1024))
    ∧ (PatternMatcher.extract_size (ds ++ " kb".toList)
          = some ((digitsVal ds : ℚ) * (1 / 1000))
      ∧ LocalNormalizer.extract_target_size (ds ++ " kb".toList)
          = some ((digitsVal ds : ℚ) / 1024)
      ∧ ((digitsVal ds : ℚ) ≠ 0 →
          PatternMatcher.extract_size (ds ++ " kb".toList)
            ≠ LocalNormalizer.extract_target_size (ds ++ " kb".toList))) := by
  have kbOnMb : ∀ (withB : Bool) (prev : Option Char),
      sizeSearch withB ("kb".toList) prev (ds ++ " mb".toList) = none := by
    intro withB prev
    rw [sizeSearch_over_digits (by decide) (by decide) (by decide) ds hds prev]
    exact sizeSearch_concrete_tail_none _ (by decide) (by cases withB <;> decide)
  have gbOnMb : ∀ (withB : Bool) (prev : Option Char),
      sizeSearch withB ("gb".toList) prev (ds ++ " mb".toList) = none := by
    intro withB prev
    rw [sizeSearch_over_digits (by decide) (by decide) (by decide) ds hds prev]
    exact sizeSearch_concrete_tail_none _ (by decide) (by cases withB <;> decide)
  have mbOnMb : ∀ (withB : Bool),
      sizeSearch withB ("mb".toList) none (ds ++ " mb".toList)
        = some (digitsVal ds : ℚ) := fun withB =>
    sizeSearch_head_success hds hne (by decide) (by decide) (by decide) (by decide)
  have kbOnGb : ∀ (withB : Bool) (prev : Option Char),
      sizeSearch withB ("kb".toList) prev (ds ++ " gb".toList) = none := by
    intro withB prev
    rw [sizeSearch_over_digits (by decide) (by decide) (by decide) ds hds prev]
    exact sizeSearch_concrete_tail_none _ (by decide) (by cases withB <;> decide)
  have mbOnGb : ∀ (withB : Bool) (prev : Option Char),
      sizeSearch withB ("mb".toList) prev (ds ++ " gb".toList) = none := by
    intro withB prev
    rw [sizeSearch_over_digits (by decide) (by decide) (by decide) ds hds prev]
    exact sizeSearch_concrete_tail_none _ (by decide) (by cases withB <;> decide)
  have gbOnGb : ∀ (withB : Bool),
      sizeSearch withB ("gb".toList) none (ds ++ " gb".toList)
        = some (digitsVal ds : ℚ) := fun withB =>
    sizeSearch_head_success hds hne (by decide) (by decide) (by decide) (by decide)
  have kbOnKb : ∀ (withB : Bool),
      sizeSearch withB ("kb".toList) none (ds ++ " kb".toList)
        = some (digitsVal ds : ℚ) := fun withB =>
    sizeSearch_head_success hds hne (by decide) (by decide) (by decide) (by decide)
  have findMb : List.find? (fun ns => containsSeq ns.1
      (lowerL ((ds ++ " mb".toList).filter (fun c => c ≠ ' '))))
        PatternMatcher.namedSizes = none :=
    List.find?_eq_none.mpr (fun ns hns => by simpa using hnamedMb ns hns)
  have findGb : List.find? (fun ns => containsSeq ns.1
      (lowerL ((ds ++ " gb".toList).filter (fun c => c ≠ ' '))))
        PatternMatcher.namedSizes = none :=
    List.find?_eq_none.mpr (fun ns hns => by simpa using hnamedGb ns hns)
  have findKb : List.find? (fun ns => containsSeq ns.1
      (lowerL ((ds ++ " kb".toList).filter (fun c => c ≠ ' '))))
        PatternMatcher.namedSizes = none :=
    List.find?_eq_none.mpr (fun ns hns => by simpa using hnamedKb ns hns)
  refine ⟨⟨?_, ?_⟩, ⟨?_, ?_⟩, ?_, ?_, ?_⟩
  · unfold PatternMatcher.extract_size
    simp only [findMb, kbOnMb true none, mbOnMb true, mul_one]
  · unfold LocalNormalizer.extract_target_size
    simp only [kbOnMb false none, mbOnMb false]
  · unfold PatternMatcher.extract_size
    simp only [findGb, kbOnGb true none, mbOnGb true none, gbOnGb true]
  · unfold LocalNormalizer.extract_target_size
    simp only [kbOnGb false none, mbOnGb false none, gbOnGb false]
  · unfold PatternMatcher.extract_size
    simp only [findKb, kbOnKb true]
  · unfold LocalNormalizer.extract_target_size
    simp only [kbOnKb false]
  · intro hv0 heq
    unfold PatternMatcher.extract_size at heq
    unfold LocalNormalizer.extract_target_size at heq
    simp only [findKb, kbOnKb true, kbOnKb false] at heq
    have h1 : (digitsVal ds : ℚ) * (1 / 1000) = (digitsVal ds : ℚ) / 1024 :=
      Option.some.inj heq
    field_simp at h1
    rcases h1 with h1 | h1
    · norm_num at h1
    · exact hv0 (by rw [h1]; norm_num)

/-- C9 — witness for the amended theorem, at n = 3. -/
theorem C9_extractors_compared_witness :
    (PatternMatcher.extract_size (['3'] ++ " mb".toList) = some (digitsVal ['3'] : ℚ)
      ∧ LocalNormalizer.extract_target_size (['3'] ++ " mb".toList)
          = some (digitsVal ['3'] : ℚ))
    ∧ (PatternMatcher.extract_size (['3'] ++ " gb".toList)
          = some ((digitsVal ['3'] : ℚ) * 1024)
      ∧ LocalNormalizer.extract_target_size (['3'] ++ " gb".toList)
          = some ((digitsVal ['3'] : ℚ) * 1024))
    ∧ (PatternMatcher.extract_size (['3'] ++ " kb".toList)
          = some ((digitsVal ['3'] : ℚ) * (1 / 1000))
      ∧ LocalNormalizer.extract_target_size (['3'] ++ " kb".toList)
          = some ((digitsVal ['3'] : ℚ) / 1024)
      ∧ ((digitsVal ['3'] : ℚ) ≠ 0 →
          PatternMatcher.extract_size (['3'] ++ " kb".toList)
            ≠ LocalNormalizer.extract_target_size (['3'] ++ " kb".toList))) :=
  C9_extractors_compared ['3'] (by decide) (by decide) (by decide) (by decide) (by decide)

/-! ## app/command_intelligence.py: confidence scoring and Stage 1

The scoring arithmetic is embedded over `ℚ`.  The only values the float
code can produce are sums drawn from 0.3 + {0, 0.4} + {0, 0.15, 0.3}
(each `required_params` list has at most one element, so the completeness
ratio is 0 or 1); each such float sum compares against the 0.7 threshold
exactly as its rational counterpart does, so the `ℚ` model is faithful to
the float behaviour on every reachable input. -/

namespace CommandIntelligence

/-- The eight command families of `CommandPatterns.COMPILED_PATTERNS`, in
table order. -/
inductive CIIntent where
  | merge | split | delete | compress | ocr | convert | rotate | clean
  deriving Repr, DecidableEq

/-- A prompt abstracted at the boundary of the regex layer: which pattern
families hit (`COMPILED_PATTERNS`), and the clarity indicators tested by
`detect_ambiguity` (page numbers, target format, compression keyword,
vague keyword). -/
structure CIPrompt where
  hits : CIIntent → Bool
  pagesDigit : Bool
  toFormat : Bool
  sizeKw : Bool
  vague : Bool

def intentOrder : List CIIntent :=
  [.merge, .split, .delete, .compress, .ocr, .convert, .rotate, .clean]

/-- `detect_intent` (lines 144-157): first family in table order whose
pattern list has a hit. -/
def detect_intent (p : CIPrompt) : Option CIIntent :=
  intentOrder.find? p.hits

/-- `find_all_intents` (lines 262-272): all hit families, in table order. -/
def find_all_intents (p : CIPrompt) : List CIIntent :=
  intentOrder.filter p.hits

inductive AmbiguityLevel where
  | low | medium | high
  deriving Repr, DecidableEq

/-- The clarity score of `detect_ambiguity` (lines 222-259): +2 for page
numbers, +2 for a target format, +1 for a compression-level keyword, −1
if more than one family matched, −2 for a vague keyword. -/
def clarity_score (p : CIPrompt) : ℤ :=
  (if p.pagesDigit then 2 else 0) + (if p.toFormat then 2 else 0)
    + (if p.sizeKw then 1 else 0)
    - (if (find_all_intents p).length > 1 then 1 else 0)
    - (if p.vague then 2 else 0)

def detect_ambiguity (p : CIPrompt) : AmbiguityLevel :=
  if clarity_score p ≥ 2 then .low
  else if clarity_score p ≥ 0 then .medium
  else .high

/-- Whether each possible required key is present and truthy in the
dictionary built by `extract_parameters`. -/
structure CIParams where
  files : Bool
  pages : Bool
  target_format : Bool
  degrees : Bool

/-- The `required_params` table of `calculate_confidence` (lines 183-192). -/
def required_params : CIIntent → List String
  | .merge => ["files"]
  | .split => ["pages"]
  | .delete => ["pages"]
  | .compress => []
  | .ocr => []
  | .convert => ["target_format"]
  | .rotate => ["degrees"]
  | .clean => []

def param_provided (params : CIParams) : String → Bool
  | "files" => params.files
  | "pages" => params.pages
  | "target_format" => params.target_format
  | "degrees" => params.degrees
  | _ => false

/-- `CommandIntelligence.calculate_confidence` (lines 159-206): 0.3 for a
detected intent, 0.4 scaled by the fraction of required parameters
provided (0.4 outright when none are required), plus 0.3 / 0.15 / 0 by
ambiguity level, clamped to 1. -/
def calculate_confidence (p : CIPrompt) (intent : CIIntent) (params : CIParams) : ℚ :=
  let c1 : ℚ := if (detect_intent p).isSome then 3 / 10 else 0
  let required := required_params intent
  let provided := (required.filter (param_provided params)).length
  let c2 : ℚ := if required.length = 0 then 2 / 5
    else (2 / 5) * (provided : ℚ) / (required.length : ℚ)
  let c3 : ℚ := match detect_ambiguity p with
    | .low => 3 / 10
    | .medium => 3 / 20
    | .high => 0
  min (c1 + c2 + c3) 1

/-- `parse_command` (lines 343-385): `None` when no intent is detected,
else the detected intent with its confidence. -/
def parse_command (p : CIPrompt) (params : CIParams) : Option (CIIntent × ℚ) :=
  match detect_intent p with
  | none => none
  | some intent => some (intent, calculate_confidence p intent params)

/-- `ResolutionPipeline.stage1_direct_parse` (lines 394-409): the parsing
is returned iff its confidence reaches `STAGE1_CONFIDENCE_THRESHOLD = 0.7`. -/
def stage1_direct_parse (p : CIPrompt) (params : CIParams) : Option (CIIntent × ℚ) :=
  match parse_command p params with
  | some pr => if pr.2 ≥ 7 / 10 then some pr else none
  | none => none

end CommandIntelligence

/-- C5.  For every prompt on which a direct parse exists, the Stage-1
confidence computed by `calculate_confidence` equals the clamp of the sum
of an intent-clarity term in [0, 0.3], a parameter-completeness term in
[0, 0.4] and an ambiguity term in {0, 0.15, 0.3}; the result always lies
in [0, 1]; and `stage1_direct_parse` returns a parsing iff this
confidence is at least 0.7. -/
theorem C5_confidence_structure (p : CommandIntelligence.CIPrompt)
    (intent : CommandIntelligence.CIIntent) (params : CommandIntelligence.CIParams)
    (hdet : CommandIntelligence.detect_intent p = some intent) :
    (∃ c1 c2 c3 : ℚ,
      CommandIntelligence.calculate_confidence p intent params = min (c1 + c2 + c3) 1
      ∧ 0 ≤ c1 ∧ c1 ≤ 3 / 10
      ∧ 0 ≤ c2 ∧ c2 ≤ 2 / 5
      ∧ (c3 = 0 ∨ c3 = 3 / 20 ∨ c3 = 3 / 10))
    ∧ 0 ≤ CommandIntelligence.calculate_confidence p intent params
    ∧ CommandIntelligence.calculate_confidence p intent params ≤ 1
    ∧ ((CommandIntelligence.stage1_direct_parse p params).isSome
        ↔ CommandIntelligence.calculate_confidence p intent params ≥ 7 / 10) := by
  classical
  set c1 : ℚ := if (CommandIntelligence.detect_intent p).isSome then 3 / 10 else 0 with hc1
  set required := CommandIntelligence.required_params intent with hreq
  set provided := (required.filter (CommandIntelligence.param_provided params)).length
    with hprov
  set c2 : ℚ := if required.length = 0 then 2 / 5
    else (2 / 5) * (provided : ℚ) / (required.length : ℚ) with hc2
  set c3 : ℚ := match CommandIntelligence.detect_ambiguity p with
    | .low => 3 / 10
    | .medium => 3 / 20
    | .high => 0 with hc3
  have hconf : CommandIntelligence.calculate_confidence p intent params
      = min (c1 + c2 + c3) 1 := rfl
  have h1a : 0 ≤ c1 := by
    rw [hc1]
    split <;> norm_num
  have h1b : c1 ≤ 3 / 10 := by
    rw [hc1]
    split <;> norm_num
  have hple : provided ≤ required.length := by
    rw [hprov]
    exact List.length_filter_le _ _
  have h2a : 0 ≤ c2 := by
    rw [hc2]
    split
    · norm_num
    · positivity
  have h2b : c2 ≤ 2 / 5 := by
    rw [hc2]
    split
    · norm_num
    · rename_i hlen
      have hpos : (0 : ℚ) < (required.length : ℚ) := by
        have : 0 < required.length := Nat.pos_of_ne_zero hlen
        exact_mod_cast this
      rw [mul_div_assoc]
      have hle1 : (provided : ℚ) / (required.length : ℚ) ≤ 1 := by
        rw [div_le_one hpos]
        exact_mod_cast hple
      nlinarith
  have h3 : c3 = 0 ∨ c3 = 3 / 20 ∨ c3 = 3 / 10 := by
    rw [hc3]
    cases CommandIntelligence.detect_ambiguity p <;> simp
  have h3a : 0 ≤ c3 := by
    rcases h3 with h | h | h <;> rw [h] <;> norm_num
  refine ⟨⟨c1, c2, c3, hconf, h1a, h1b, h2a, h2b, h3⟩, ?_, ?_, ?_⟩
  · rw [hconf]
    have : (0 : ℚ) ≤ c1 + c2 + c3 := by linarith
    exact le_min this (by norm_num)
  · rw [hconf]
    exact min_le_right _ _
  · unfold CommandIntelligence.stage1_direct_parse CommandIntelligence.parse_command
    rw [hdet]
    by_cases hge : CommandIntelligence.calculate_confidence p intent params ≥ 7 / 10
    · simp [hge]
    · simp [hge]

/-- C5 — witness: a prompt hitting only the compress family with a
compression keyword and no vague words. -/
theorem C5_confidence_structure_witness :
    (∃ c1 c2 c3 : ℚ,
      CommandIntelligence.calculate_confidence
          ⟨fun i => i = CommandIntelligence.CIIntent.compress, false, false, true, false⟩
          CommandIntelligence.CIIntent.compress ⟨false, false, false, false⟩
        = min (c1 + c2 + c3) 1
      ∧ 0 ≤ c1 ∧ c1 ≤ 3 / 10
      ∧ 0 ≤ c2 ∧ c2 ≤ 2 / 5
      ∧ (c3 = 0 ∨ c3 = 3 / 20 ∨ c3 = 3 / 10))
    ∧ 0 ≤ CommandIntelligence.calculate_confidence
        ⟨fun i => i = CommandIntelligence.CIIntent.compress, false, false, true, false⟩
        CommandIntelligence.CIIntent.compress ⟨false, false, false, false⟩
    ∧ CommandIntelligence.calculate_confidence
        ⟨fun i => i = CommandIntelligence.CIIntent.compress, false, false, true, false⟩
        CommandIntelligence.CIIntent.compress ⟨false, false, false, false⟩ ≤ 1
    ∧ ((CommandIntelligence.stage1_direct_parse
          ⟨fun i => i = CommandIntelligence.CIIntent.compress, false, false, true, false⟩
          ⟨false, false, false, false⟩).isSome
        ↔ CommandIntelligence.calculate_confidence
            ⟨fun i => i = CommandIntelligence.CIIntent.compress, false, false, true, false⟩
            CommandIntelligence.CIIntent.compress ⟨false, false, false, false⟩ ≥ 7 / 10) :=
  C5_confidence_structure _ _ _ (by rfl)

/-! ## `_clause_priority` and default multi-op ordering
(app/clarification_layer.py, lines 503-544 and 560-589) -/

/-- Shorthand: a one-word alternative list. -/
def w1 (ws : List String) : List Phrase :=
  ws.map fun w => [Piece.lit w.toList]

/-- `\bimages?_to_pdf\b|\b(images?)\s*(to|into)\s*pdf\b`. -/
def imagesToPdfAlts : List Phrase :=
  w1 ["images_to_pdf", "image_to_pdf"] ++
  [ [Piece.lit "image".toList, .anyGap, .lit "to".toList, .anyGap, .lit "pdf".toList],
    [Piece.lit "image".toList, .anyGap, .lit "into".toList, .anyGap, .lit "pdf".toList],
    [Piece.lit "images".toList, .anyGap, .lit "to".toList, .anyGap, .lit "pdf".toList],
    [Piece.lit "images".toList, .anyGap, .lit "into".toList, .anyGap, .lit "pdf".toList] ]

def pageNumbersPrioAlts : List Phrase :=
  [ [Piece.lit "page".toList, .anyGap, .lit "numbers".toList],
    [Piece.lit "page".toList, .anyGap, .lit "number".toList] ]

def extractTextPrioAlts : List Phrase :=
  [ [Piece.lit "extract".toList, .someGap, .lit "text".toList],
    [Piece.lit "txt".toList] ]

def splitToFilesPrioAlts : List Phrase :=
  [ [Piece.lit "split".toList, .anyGap, .lit "to".toList, .anyGap, .lit "files".toList],
    [Piece.lit "separate".toList, .someGap, .lit "pdfs".toList] ]

/-- `_clause_priority` (lines 503-544): lower runs earlier.  Note that the
source gives `merge` priority 1 (not 0), and only when at least two files
are uploaded; the `images_to_pdf` family gets 0; unmatched clauses get 50. -/
def clause_priority (clause : List Char) (file_names : List (List Char)) : ℕ :=
  let toks := tokenize (lowerL clause)
  if searchAlts imagesToPdfAlts toks then 0
  else if searchAlts (w1 ["merge", "combine", "join"]) toks && file_names.length ≥ 2 then 1
  else if searchAlts (w1 ["ocr"]) toks then 2
  else if searchAlts (w1 ["delete", "remove"]) toks then 10
  else if searchAlts (w1 ["split", "extract", "keep"]) toks then 11
  else if searchAlts (w1 ["reorder", "swap"]) toks then 12
  else if searchAlts (w1 ["rotate", "turn", "straight", "flip"]) toks then 13
  else if searchAlts (w1 ["watermark"]) toks then 20
  else if searchAlts pageNumbersPrioAlts toks then 21
  else if searchAlts (w1 ["compress"]) toks then 30
  else if searchAlts (w1 ["convert", "docx", "word"]) toks then 90
  else if searchAlts (w1 ["png", "jpg", "jpeg", "image", "images"]) toks then 91
  else if searchAlts extractTextPrioAlts toks then 92
  else if searchAlts splitToFilesPrioAlts toks then 93
  else 50

/-- The `sorted(normalized, key=lambda x: _clause_priority(x, file_names))`
call of `_auto_order_multi_op_no_order` (line 587): a stable ascending
sort by priority. -/
def auto_order_sort (clauses : List (List Char)) (file_names : List (List Char)) :
    List (List Char) :=
  clauses.mergeSort fun a b => clause_priority a file_names ≤ clause_priority b file_names

/-- C4 — counterexample.  The fixed priority table gives a merge clause
priority 1, and only when two or more files are uploaded; with a single
uploaded file a merge clause falls through to the default priority 50 and
sorts *after* e.g. a delete clause, contradicting both "merge … priority
0" and "a merge clause always sorts before every other family's clause". -/
theorem C4_counterexample :
    clause_priority ("merge this".toList) ["a.pdf".toList] = 50
    ∧ clause_priority ("delete page 2".toList) ["a.pdf".toList] = 10
    ∧ auto_order_sort [("merge this".toList), ("delete page 2".toList)] ["a.pdf".toList]
        = [("delete page 2".toList), ("merge this".toList)]
    ∧ clause_priority ("merge this".toList) ["a.pdf".toList, "b.pdf".toList] = 1 := by
  refine ⟨by decide, by decide, ?_, by decide⟩
  show List.mergeSort _ _ = _
  simp [List.mergeSort, List.merge]
  decide

/-- C4 — amended.  With 2+ operation families and no explicit sequencing
word, the emitted step order is the ascending stable order of the fixed
priority table of `_clause_priority`: images-to-pdf 0, merge 1 (merge only
when ≥ 2 files are uploaded, else 50), ocr 2, delete 10, split 11,
reorder 12, rotate 13, watermark 20, page-numbers 21, compress 30,
convert/docx 90, images 91, extract-text 92 (when no earlier family word
matches, e.g. the bare token `txt`), split-to-files 93, anything else 50. -/
theorem C4_priority_order (cs : List (List Char)) (fs : List (List Char)) :
    ((auto_order_sort cs fs).Pairwise
        (fun a b => clause_priority a fs ≤ clause_priority b fs)
      ∧ (auto_order_sort cs fs).Perm cs)
    ∧ (∀ fs2, clause_priority ("images to pdf".toList) fs2 = 0)
    ∧ clause_priority ("merge the files".toList) ["a.pdf".toList, "b.pdf".toList] = 1
    ∧ (∀ fs2, clause_priority ("run ocr".toList) fs2 = 2)
    ∧ (∀ fs2, clause_priority ("delete page 2".toList) fs2 = 10)
    ∧ (∀ fs2, clause_priority ("split pages 1-3".toList) fs2 = 11)
    ∧ (∀ fs2, clause_priority ("reorder the pages".toList) fs2 = 12)
    ∧ (∀ fs2, clause_priority ("rotate 90".toList) fs2 = 13)
    ∧ (∀ fs2, clause_priority ("watermark DRAFT".toList) fs2 = 20)
    ∧ (∀ fs2, clause_priority ("add page numbers".toList) fs2 = 21)
    ∧ (∀ fs2, clause_priority ("compress to 2mb".toList) fs2 = 30)
    ∧ (∀ fs2, clause_priority ("convert to docx".toList) fs2 = 90)
    ∧ (∀ fs2, clause_priority ("to png".toList) fs2 = 91)
    ∧ (∀ fs2, clause_priority ("txt".toList) fs2 = 92)
    ∧ (∀ fs2, clause_priority ("separate pdfs".toList) fs2 = 93)
    ∧ (∀ fs2, clause_priority ("do something".toList) fs2 = 50) := by
  constructor
  · constructor
    · have htrans : ∀ a b c : List Char,
          (clause_priority a fs ≤ clause_priority b fs : Bool) = true →
          (clause_priority b fs ≤ clause_priority c fs : Bool) = true →
          (clause_priority a fs ≤ clause_priority c fs : Bool) = true := by
        intro a b c h1 h2
        simp only [decide_eq_true_eq] at h1 h2 ⊢
        omega
      have htot : ∀ a b : List Char,
          ((clause_priority a fs ≤ clause_priority b fs : Bool)
            || (clause_priority b fs ≤ clause_priority a fs : Bool)) = true := by
        intro a b
        simp only [Bool.or_eq_true, decide_eq_true_eq]
        omega
      have := List.sorted_mergeSort htrans htot cs
      exact this.imp fun h => by simpa using h
    · exact List.mergeSort_perm cs _
  refine ⟨fun fs2 => rfl, by decide, fun fs2 => rfl, fun fs2 => rfl, fun fs2 => rfl,
    fun fs2 => rfl, fun fs2 => rfl, fun fs2 => rfl, fun fs2 => rfl, fun fs2 => rfl,
    fun fs2 => rfl, fun fs2 => rfl, fun fs2 => rfl, fun fs2 => rfl, fun fs2 => rfl⟩

/-! ## The session state machine of `process_job_background`
(app/main.py, lines 275-319, 382-390, 485-487 and 1157-1403)

`clarify_intent`, `_rephrase_with_context`, `_build_prompt_from_reply`,
`_canonicalize_button_action`, the file system and the executor are the
environment of this state machine; they enter as oracle fields of
`JobEnv`.  Everything else — the lock bookkeeping, the percent shortcut,
the repeat shortcut, slot filling, and which paths reset the lock — is
translated line by line. -/

namespace MainApp

/-- A parsed intent: the compress-to-target intent built inline by the
percent shortcut (lines 1204-1212), or an opaque intent coming from the
clarifier, whose internals the session layer never inspects. -/
inductive MIntent where
  | compress_to_target (file : List Char) (target_mb : ℕ)
  | opaque_intent (tag : ℕ)
  deriving Repr, DecidableEq

/-- `intent_status` (line 283): `UNRESOLVED | RESOLVED`. -/
inductive IntentStatus where
  | unresolved
  | resolved
  deriving Repr, DecidableEq

/-- `SessionState` (lines 275-286), minus the `updated_at` timestamp.
Note: there is no field counting clarification turns, and no
`last_response_type` field. -/
structure MSession where
  pendingQuestion : Option (List Char) := none
  pendingOptions : Option (List (List Char)) := none
  pendingBase : Option (List Char) := none
  lastSuccessPrompt : Option (List Char) := none
  lastSuccessIntent : Option MIntent := none
  intentStatus : IntentStatus := .unresolved
  intentSource : Option (List Char) := none
  lockedAction : Option (List Char) := none
  deriving Repr, DecidableEq

/-- `_clear_pending` (lines 304-310). -/
def clearPending (st : MSession) : MSession :=
  { st with pendingQuestion := none, pendingOptions := none, pendingBase := none }

/-- `_reset_intent_lock` (lines 313-319). -/
def resetIntentLock (st : MSession) : MSession :=
  { st with intentStatus := .unresolved, intentSource := none, lockedAction := none }

/-- `_lock_intent` (lines 322-328) with source `"button"`; the
canonicalized action text is supplied by the caller. -/
def lockIntent (st : MSession) (action : List Char) : MSession :=
  { st with intentStatus := .resolved, intentSource := some "button".toList,
            lockedAction := some action }

/-- `str.split()`: split on whitespace runs, dropping empty pieces
(fuel-recursive; the fuel `s.length + 1` always suffices). -/
def wsWordsF : ℕ → List Char → List (List Char)
  | 0, _ => []
  | _ + 1, [] => []
  | n + 1, c :: cs =>
    if isWs c then wsWordsF n cs
    else ((c :: cs).takeWhile fun d => ¬ isWs d)
         :: wsWordsF n ((c :: cs).dropWhile fun d => ¬ isWs d)

def wsWords (s : List Char) : List (List Char) := wsWordsF (s.length + 1) s

def joinSp : List (List Char) → List Char
  | [] => []
  | [w] => w
  | w :: ws => w ++ ' ' :: joinSp ws

/-- `_normalize_ws` (lines 485-487): collapse whitespace and lowercase. -/
def mainNormWs (s : List Char) : List Char := lowerL (joinSp (wsWords s))

/-- `_is_button_confirmation` (lines 382-390). -/
def isButtonConfirmation (st : MSession) (incoming : List Char) : Bool :=
  match st.pendingOptions with
  | none => false
  | some opts =>
    if opts = [] then false
    else
      let nr := mainNormWs incoming
      if nr = [] then false
      else (opts.filter fun o => o ≠ []).any fun o => mainNormWs o = nr

/-- Python truthiness of an optional string. -/
def optTruthy : Option (List Char) → Bool
  | some s => s ≠ []
  | none => false

/-- `a or d` for an optional string `a`. -/
def orElseStr (a : Option (List Char)) (d : List Char) : List Char :=
  match a with
  | some s => if s = [] then d else s
  | none => d

/-- The `(\d{1,3})%` part of the percent shortcut: a greedy 1-3 digit run
followed by `%`.  When the digit run is longer than 3, every backtracking
choice leaves a digit where `%` is required, so there is no match here. -/
def pctAfterBy (s : List Char) : Option ℕ :=
  let run := s.takeWhile Char.isDigit
  if run.length = 0 then none
  else if run.length ≤ 3 then
    match s.drop run.length with
    | '%' :: _ => some (digitsVal run)
    | _ => none
  else none

/-- `( this)?( pdf)? by (\d{1,3})%` after the literal `compress`, with the
regex backtracking order over the two optional groups. -/
def pctTail (s : List Char) : Option ℕ :=
  let afterPdf : List Char → Option ℕ := fun t =>
    match t with
    | ' ' :: 'b' :: 'y' :: ' ' :: r => pctAfterBy r
    | _ => none
  let afterThis : List Char → Option ℕ := fun t =>
    (match t with
     | ' ' :: 'p' :: 'd' :: 'f' :: r => afterPdf r
     | _ => none) <|> afterPdf t
  (match s with
   | ' ' :: 't' :: 'h' :: 'i' :: 's' :: r => afterThis r
   | _ => none) <|> afterThis s

/-- `re.search(r"compress( this)?( pdf)? by (\d{1,3})%", ·, IGNORECASE)`
(line 1196), applied to the lowered text: leftmost match, percent value. -/
def pctSearch : List Char → Option ℕ
  | [] => none
  | c :: cs =>
    (if ("compress".toList.isPrefixOf (c :: cs)) then pctTail ((c :: cs).drop 8)
     else none) <|> pctSearch cs

/-- `\b(same|again|repeat|do it again|do that again)\b` (line 1247). -/
def repeatAlts : List Phrase :=
  w1 ["same", "again", "repeat"] ++
  [ [Piece.lit "do".toList, .gapLit " ".toList, .lit "it".toList,
     .gapLit " ".toList, .lit "again".toList],
    [Piece.lit "do".toList, .gapLit " ".toList, .lit "that".toList,
     .gapLit " ".toList, .lit "again".toList] ]

/-- `re.fullmatch(r"[0-9,\-\s]+", active.strip())` (line 1281). -/
def slotNumericReply (s : List Char) : Bool :=
  let t := LocalNormalizer.stripWs s
  t ≠ [] && t.all fun c => c.isDigit || c = ',' || c = '-' || isWs c

/-- What the clarifier returns: `ClarificationResult`. -/
structure ClarifyRes where
  intent : Option MIntent := none
  clarification : Option (List Char) := none
  options : Option (List (List Char)) := none

/-- The environment of `process_job_background`: the clarifier, the
rephraser, the file system, the size arithmetic of the percent shortcut
(`max(1, int(size_mb * percent/100))`), the executor (`.error` models a
raised exception caught by the inner `try`), the slot-filling prompt
builder and the button canonicalizer. -/
structure JobEnv where
  clarify : List Char → List (List Char) → List Char → ClarifyRes
  rephrase : List Char → Option MIntent → List (List Char) → Option (List Char)
  fileExists : List Char → Bool
  computeTarget : ℕ → List Char → ℕ
  execOp : MIntent → List (List Char) → Except (List Char) (List Char)
  buildReply : List Char → List Char → List Char → List Char
  canonButton : List Char → List Char

/-- How one background job ends: `complete_job("success", …)`,
`complete_job("error", clarification, options)`, or `fail_job`. -/
inductive JobOutcome where
  | success (message : List Char) (intent : MIntent)
  | errorReply (message : List Char) (options : Option (List (List Char)))
  | failed (message : List Char)
  deriving Repr, DecidableEq

/-- The shared execution tail (lines 1349-1394): run the intent; an
exception fails the job and returns with the session untouched; success
records `last_success_*`, completes the job and only then resets the
intent lock. -/
def execPhase (env : JobEnv) (sess : MSession) (intent : MIntent)
    (ptp : List Char) (files : List (List Char)) : MSession × JobOutcome :=
  match env.execOp intent files with
  | .error e => (sess, .failed e)
  | .ok msg =>
    let s := { sess with lastSuccessPrompt := some ptp, lastSuccessIntent := some intent }
    (resetIntentLock s, .success msg intent)

/-- Lines 1268-1319: effective question, slot filling, the two-stage
clarify call, and either execution or an error reply recording the
pending question/options/base instruction. -/
def slotAndClarify (env : JobEnv) (sess : MSession) (active : List Char)
    (files : List (List Char)) (ctxQ : List Char) : MSession × JobOutcome :=
  let effQ := if ctxQ ≠ [] then ctxQ else sess.pendingQuestion.getD []
  let ptp :=
    match sess.pendingQuestion, sess.pendingBase with
    | some q, some base =>
      if q ≠ [] ∧ base ≠ [] then
        let nr := mainNormWs active
        let opts := (sess.pendingOptions.getD []).map mainNormWs
        if nr ≠ [] ∧ opts.contains nr then active
        else if (wsWords nr).length ≤ 6 ∨ slotNumericReply active then
          env.buildReply base q active
        else active
      else active
    | _, _ => active
  let cr0 := env.clarify ptp files effQ
  let cr :=
    if cr0.intent = none ∧ optTruthy cr0.clarification then
      match env.rephrase ptp sess.lastSuccessIntent files with
      | some r => env.clarify r files effQ
      | none => cr0
    else cr0
  match cr.intent with
  | some intent => execPhase env (clearPending sess) intent ptp files
  | none =>
    let s := { sess with pendingQuestion := cr.clarification,
                         pendingOptions := cr.options,
                         pendingBase := some ptp }
    (s, .errorReply (cr.clarification.getD []) cr.options)

/-- `process_job_background` (lines 1157-1403) as one session transition:
lock pickup/creation (1177-1184), the percent shortcut placed BEFORE the
locked branch (1196-1216), the locked branch which resets the lock right
after parsing (1219-1242), the repeat shortcut (1246-1266), and the
slot-filling/clarify path; returns the new session and the job outcome. -/
def processJob (env : JobEnv) (sess0 : MSession) (prompt : List Char)
    (files : List (List Char)) (ctxQ : List Char) (fromButton : Bool) :
    MSession × JobOutcome :=
  let locked0 : Option (List Char) :=
    match sess0.lockedAction with
    | some la => if sess0.intentStatus = IntentStatus.resolved ∧ la ≠ [] then some la else none
    | none => none
  let sl : MSession × Option (List Char) :=
    match locked0 with
    | some la => (sess0, some la)
    | none =>
      if fromButton then
        let s := lockIntent sess0 (env.canonButton prompt)
        (s, s.lockedAction)
      else if isButtonConfirmation sess0 prompt then
        let s := lockIntent sess0 (env.canonButton prompt)
        (s, s.lockedAction)
      else (sess0, none)
  let sess := sl.1
  let lockedPrompt := sl.2
  let active := lockedPrompt.getD prompt
  let lockedMode := lockedPrompt.isSome
  match pctSearch (lowerL active), files with
  | some pct, f :: _ =>
    if env.fileExists f then
      execPhase env sess (MIntent.compress_to_target f (env.computeTarget pct f)) active files
    else
      (sess, .failed ("File not found for compression: ".toList ++ f))
  | _, _ =>
    if lockedMode then
      let cr := env.clarify active files []
      match cr.intent with
      | some intent =>
        execPhase env (resetIntentLock (clearPending sess)) intent active files
      | none =>
        (resetIntentLock (clearPending sess),
         .errorReply (orElseStr cr.clarification "Could not execute confirmed action.".toList) none)
    else
      match sess.lastSuccessIntent with
      | some prevIntent =>
        if searchAlts repeatAlts (tokenize (lowerL active)) then
          match env.execOp prevIntent files with
          | .error e => (sess, .failed e)
          | .ok msg =>
            let s := { sess with
              lastSuccessPrompt := some (orElseStr sess.lastSuccessPrompt active),
              lastSuccessIntent := some prevIntent }
            (resetIntentLock (clearPending s), .success msg prevIntent)
        else slotAndClarify env sess active files ctxQ
      | none => slotAndClarify env sess active files ctxQ

/-- `check_clarification_loop` (app/llm_output_handler.py, lines 296-326):
the documented loop guard.  Its first argument models
`getattr(session, "last_response_type", None)`; `SessionState` has no such
field and `update_session_response_type` has no call site, so the argument
is `none` for every session the application can build — and the function
itself has no call site anywhere in the application. -/
def check_clarification_loop (lastResponseType : Option (List Char))
    (needsClarification : Bool) (lastOptions : Option (List (List Char))) :
    Option (List Char × List (List Char)) :=
  if lastResponseType = some "QUESTION".toList ∧ needsClarification then
    some ("Please select one of the options above.".toList, lastOptions.getD [])
  else none

end MainApp

/-! ### C2: the percent shortcut leaks the intent lock -/

/-- A session holding a confirmed (RESOLVED) locked action that matches the
percent shortcut, e.g. after the user clicked a `Compress this pdf by 50%`
option button. -/
def sessLockedPct : MainApp.MSession :=
  { intentStatus := .resolved, intentSource := some "button".toList,
    lockedAction := some "compress this pdf by 50%".toList }

/-- Environment in which the uploaded file is missing from disk. -/
def envFileMissing : MainApp.JobEnv :=
  { clarify := fun _ _ _ => {},
    rephrase := fun _ _ _ => none,
    fileExists := fun _ => false,
    computeTarget := fun _ _ => 1,
    execOp := fun _ _ => Except.error "boom".toList,
    buildReply := fun b _ _ => b,
    canonButton := fun t => t }

/-- Environment in which the file exists but executing the operation
raises an exception (caught by the inner `try` at line 1370). -/
def envExecBoom : MainApp.JobEnv :=
  { envFileMissing with fileExists := fun _ => true,
                        execOp := fun _ _ => Except.error "disk full".toList }

/-- Environment in which the file exists and execution succeeds. -/
def envExecOk : MainApp.JobEnv :=
  { envFileMissing with fileExists := fun _ => true,
                        execOp := fun _ _ => Except.ok "done".toList }

/-- C2: `Resolved` is NOT a one-shot lock.  The percent shortcut
(lines 1196-1216) runs before the locked branch and fails the job without
`_reset_intent_lock` both when the uploaded file is missing and when
execution raises; the session stays RESOLVED with the same locked action,
and a second, unrelated request picks it up and executes the same locked
action again. -/
theorem C2_lock_survives_failed_shortcut :
    ((MainApp.processJob envFileMissing sessLockedPct
        "please merge everything".toList ["doc.pdf".toList] [] false)
      = (sessLockedPct,
         .failed ("File not found for compression: doc.pdf".toList)))
    ∧ ((MainApp.processJob envExecBoom sessLockedPct
        "please merge everything".toList ["doc.pdf".toList] [] false)
      = (sessLockedPct, .failed ("disk full".toList)))
    ∧ ((MainApp.processJob envExecOk sessLockedPct
        "rotate the second page please".toList ["doc.pdf".toList] [] false).2
      = .success "done".toList (.compress_to_target "doc.pdf".toList 1)) := by
  refine ⟨by decide, by decide, by decide⟩

/-! ### C3: no clarification-loop guard is wired into the session flow -/

/-- The open question our clarifier environment keeps asking. -/
def askSplitQ : List Char := "Which pages should I split out?".toList

/-- An environment whose clarifier answers every prompt with the same open
question and no options (as `clarify_intent` does for persistently
under-specified prompts); nothing in the session layer restricts how
often this can happen. -/
def envAlwaysAsk : MainApp.JobEnv :=
  { clarify := fun _ _ _ => { clarification := some askSplitQ },
    rephrase := fun _ _ _ => none,
    fileExists := fun _ => true,
    computeTarget := fun _ _ => 1,
    execOp := fun _ _ => Except.error [],
    buildReply := fun b _ _ => b,
    canonButton := fun t => t }

/-- One user turn of the clarification session under `envAlwaysAsk`. -/
def clarTurn (p : List Char) (s : MainApp.MSession) :
    MainApp.MSession × MainApp.JobOutcome :=
  MainApp.processJob envAlwaysAsk s p ["doc.pdf".toList] [] false

def clarP1 : List Char := "split the uploaded document for me in a good way".toList
def clarP2 : List Char := "i am still not sure what i actually want here".toList
def clarP3 : List Char := "maybe you could figure out something reasonable on your own".toList

/-- C3: there is no loop guard.  Three consecutive turns of the same
session each end in the same open clarification question with no options
— the third outcome is another open question, not a forced choice.  The
guard described by the spec exists as `check_clarification_loop`
(llm_output_handler.py, lines 296-326) but is called nowhere, and since
`update_session_response_type` is also called nowhere, its
`last_response_type` input would be `None` on every reachable session, in
which case it forces nothing anyway. -/
theorem C3_three_open_questions :
    ((clarTurn clarP1 {}).2 = .errorReply askSplitQ none)
    ∧ ((clarTurn clarP2 (clarTurn clarP1 {}).1).2 = .errorReply askSplitQ none)
    ∧ ((clarTurn clarP3 (clarTurn clarP2 (clarTurn clarP1 {}).1).1).2
        = .errorReply askSplitQ none)
    ∧ (∀ (needs : Bool) (opts : Option (List (List Char))),
        MainApp.check_clarification_loop none needs opts = none) := by
  refine ⟨by decide, by decide, by decide, ?_⟩
  intro needs opts
  simp [MainApp.check_clarification_loop]

/-! ## The deterministic spine of `clarify_intent`
(app/clarification_layer.py, lines 823-3640)

The resolver pipeline is translated stage by stage.  Branches that none of
the verified input families can reach (proved below, via the transparency
lemmas) still have their *conditions* translated exactly; only their
bodies are collapsed into a distinguishable `otherPath` outcome.  The
second component of the result counts calls to the external
rewriting/parsing collaborator `ai_parser.parse_intent`. -/

namespace Clarify

/-- `UNSUPPORTED_REPLY` (line 47). -/
def UNSUPPORTED_REPLY : List Char := "Not supported yet or sooner".toList

/-- Modelled from the spec: `fuzzy_match_keyword` over
`ALL_NORMALIZE_KEYWORDS` lives in `app/utils.py`, which is not part of the
source tree; spec 4.1(a) describes it as whole-word typo correction via a
fixed map that never rewrites unrelated words.  We model it as the fixed
whole-word typo table documented in the repository's visible code. -/
def fuzzy_match_keyword (w : List Char) : List Char :=
  applyTypoRules connectorTypoRules w

theorem dropWhile_length_le (p : Char → Bool) (cs : List Char) :
    (cs.dropWhile p).length ≤ cs.length := by
  induction cs with
  | nil => simp
  | cons c cs ih =>
    rw [List.dropWhile_cons]
    split
    · simp; omega
    · simp

/-- Fuel-recursive worker for `normHeur`; one unit of fuel is spent per
leading character or alphabetic run, so any fuel above the length of the
input gives the same result (`normHeurF_fuel`). -/
def normHeurF : ℕ → List Char → List Char
  | 0, _ => []
  | _ + 1, [] => []
  | n + 1, c :: cs =>
    if c.isAlpha then
      let run := c :: cs.takeWhile Char.isAlpha
      let rest := cs.dropWhile Char.isAlpha
      (if 2 ≤ run.length then fuzzy_match_keyword run else run) ++ normHeurF n rest
    else c :: normHeurF n cs

/-- `_normalize_prompt_for_heuristics` (lines 205-212):
`re.sub(r"[A-Za-z]{2,}", fuzzy..., prompt)` — every maximal alphabetic run
of length at least 2 goes through the keyword corrector. -/
def normHeur (s : List Char) : List Char := normHeurF (s.length + 1) s

/-- `re.fullmatch(r"-?\d+", s)`. -/
def fullSignedDigits (s : List Char) : Bool :=
  match s with
  | [] => false
  | c :: r =>
    if c = '-' then !r.isEmpty && r.all Char.isDigit
    else (c :: r).all Char.isDigit

/-- Signed decimal value of a `-?\d+` match (Python `int`). -/
def signedVal (s : List Char) : ℤ :=
  match s with
  | [] => 0
  | c :: r => if c = '-' then -(digitsVal r : ℤ) else (digitsVal (c :: r) : ℤ)

/-- The decimal rendering of an integer, as Python prints it. -/
def intToDigits (z : ℤ) : List Char :=
  if z < 0 then '-' :: natToDigits z.natAbs else natToDigits z.toNat

/-! ### Char-level scanners for the regexes that mix literals with `\d` -/

/-- The `\s*(\d+)\s*mb` tail of Pattern 1.  The greedy `\s*`/`\d+` need no
backtracking before the literal `mb`. -/
def mbNum (r : List Char) : Option ℕ :=
  let r1 := r.dropWhile isWs
  let ds := r1.takeWhile Char.isDigit
  if ds.isEmpty then none
  else
    match (r1.drop ds.length).dropWhile isWs with
    | 'm' :: 'b' :: _ => some (digitsVal ds)
    | _ => none

/-- `( to| under)?\s*(\d+)\s*mb`, with the regex's backtracking order. -/
def mbAfter2 (s : List Char) : Option ℕ :=
  (if " to".toList.isPrefixOf s then mbNum (s.drop 3) else none) <|>
  (if " under".toList.isPrefixOf s then mbNum (s.drop 6) else none) <|>
  mbNum s

/-- `( this| pdf)?( to| under)?\s*(\d+)\s*mb` after the literal `compress`. -/
def mbTail (s : List Char) : Option ℕ :=
  (if " this".toList.isPrefixOf s then mbAfter2 (s.drop 5) else none) <|>
  (if " pdf".toList.isPrefixOf s then mbAfter2 (s.drop 4) else none) <|>
  mbAfter2 s

/-- Pattern 1 (line 3456):
`re.search(r"compress( this| pdf)?( to| under)?\s*(\d+)\s*mb", ., IGNORECASE)`
applied to the lowered text; returns the captured number. -/
def mbSearch : List Char → Option ℕ
  | [] => none
  | c :: cs =>
    (if "compress".toList.isPrefixOf (c :: cs) then mbTail ((c :: cs).drop 8) else none)
    <|> mbSearch cs

/-- Pattern 3 (line 3494): the `\s*(1st|first|page 1)\s*page` tail after
one of `split|extract|keep`. -/
def p3Tail (s : List Char) : Bool :=
  let s1 := s.dropWhile isWs
  let afterAlt : List Char → Bool := fun t =>
    "page".toList.isPrefixOf (t.dropWhile isWs)
  (if "1st".toList.isPrefixOf s1 then afterAlt (s1.drop 3) else false) ||
  (if "first".toList.isPrefixOf s1 then afterAlt (s1.drop 5) else false) ||
  (if "page 1".toList.isPrefixOf s1 then afterAlt (s1.drop 6) else false)

def p3At (s : List Char) : Bool :=
  (if "split".toList.isPrefixOf s then p3Tail (s.drop 5) else false) ||
  (if "extract".toList.isPrefixOf s then p3Tail (s.drop 7) else false) ||
  (if "keep".toList.isPrefixOf s then p3Tail (s.drop 4) else false)

def p3Search : List Char → Bool
  | [] => false
  | c :: cs => p3At (c :: cs) || p3Search cs

/-- Pattern 4 (line 3505): `(split|extract|keep)\s*first\s*(\d+)\s*pages?`. -/
def p4Tail (s : List Char) : Option ℕ :=
  let s1 := s.dropWhile isWs
  if "first".toList.isPrefixOf s1 then
    let s2 := (s1.drop 5).dropWhile isWs
    let ds := s2.takeWhile Char.isDigit
    if ds.isEmpty then none
    else if "page".toList.isPrefixOf ((s2.drop ds.length).dropWhile isWs) then
      some (digitsVal ds)
    else none
  else none

def p4At (s : List Char) : Option ℕ :=
  (if "split".toList.isPrefixOf s then p4Tail (s.drop 5) else none) <|>
  (if "extract".toList.isPrefixOf s then p4Tail (s.drop 7) else none) <|>
  (if "keep".toList.isPrefixOf s then p4Tail (s.drop 4) else none)

def p4Search : List Char → Option ℕ
  | [] => none
  | c :: cs => p4At (c :: cs) <|> p4Search cs

/-- Is there a word boundary right after a matched degree word: next char
absent or not a word character. -/
def bAfter (t : List Char) : Bool :=
  match t with
  | [] => true
  | c :: _ => !isWordChar c

/-- The `\s*(deg|degree|degrees)?\b` tail of the rotation-number regex
(line 3518).  The `\s*` is greedy; a degree word can only start at the
first non-space character; if no degree word fits, the bare `\b` holds
either right after the digits (when the next character is absent or not a
word character) or after consuming at least one space when a word
character follows. -/
def rotNumTail (t : List Char) : Bool :=
  let t1 := t.dropWhile isWs
  (if "degrees".toList.isPrefixOf t1 then bAfter (t1.drop 7) else false) ||
  (if "degree".toList.isPrefixOf t1 then bAfter (t1.drop 6) else false) ||
  (if "deg".toList.isPrefixOf t1 then bAfter (t1.drop 3) else false) ||
  (match t with
   | [] => true
   | c :: _ => !isWordChar c) ||
  (!(t.takeWhile isWs).isEmpty &&
    (match t1 with
     | c :: _ => isWordChar c
     | [] => false))

/-- Try `(-?\d+)\s*(deg|degree|degrees)?\b` at the current position. -/
def rotNumAt (s : List Char) : Option ℤ :=
  match s with
  | [] => none
  | c :: r =>
    if c = '-' then
      let ds := r.takeWhile Char.isDigit
      if ds.isEmpty then none
      else if rotNumTail (r.drop ds.length) then some (-(digitsVal ds : ℤ)) else none
    else
      let ds := (c :: r).takeWhile Char.isDigit
      if ds.isEmpty then none
      else if rotNumTail ((c :: r).drop ds.length) then some (digitsVal ds : ℤ) else none

/-- `re.search(r"(-?\d+)\s*(deg|degree|degrees)?\b", ., IGNORECASE)`:
leftmost match, returning the signed captured number. -/
def rotNumSearch : List Char → Option ℤ
  | [] => none
  | c :: cs => rotNumAt (c :: cs) <|> rotNumSearch cs

/-- The degree normalization of Pattern 4.5 (lines 3533-3547): Python
`%` on ints is `Int.emod`; exact right angles pass through, `0` becomes
`90`, and anything else goes to the first of `[90, 180, 270]` at minimal
circular distance (`min` keeps the earliest element on ties). -/
def rotSnap (raw : ℤ) : ℤ :=
  let normalized := raw.emod 360
  if normalized = 0 then 90
  else if normalized = 90 then 90
  else if normalized = 180 then 180
  else if normalized = 270 then 270
  else
    let dist : ℤ → ℤ := fun d => min ((normalized - d).emod 360) ((d - normalized).emod 360)
    if dist 90 ≤ dist 180 && dist 90 ≤ dist 270 then 90
    else if dist 180 ≤ dist 270 then 180
    else 270

/-! ### The `wants_*` keyword flags of the guard section
(lines 856-871 and 2521-3095), one alternation list per flag. -/

def ph2 (a b : String) : Phrase := [.lit a.toList, .anyGap, .lit b.toList]
def ph3 (a b c : String) : Phrase := [.lit a.toList, .anyGap, .lit b.toList, .anyGap, .lit c.toList]
def phAmp (a b : String) : Phrase := [.lit a.toList, .gapWith '&', .lit b.toList]

def toImageAlts : List Phrase :=
  [ph2 "to" "img", ph2 "to" "image", ph2 "to" "images", ph2 "to" "png", ph2 "to" "jpg",
   ph2 "to" "jpeg", ph2 "as" "png", ph2 "as" "jpg", ph2 "as" "jpeg",
   ph2 "export" "png", ph2 "export" "jpg", ph2 "export" "jpeg", ph2 "export" "image",
   ph2 "export" "images", ph3 "export" "as" "png", ph3 "export" "as" "jpg",
   ph3 "export" "as" "jpeg", ph3 "export" "as" "image", ph3 "export" "as" "images"]

def toPdfAlts : List Phrase :=
  [ph2 "to" "pdf", ph2 "as" "pdf", ph2 "convert" "pdf", ph3 "convert" "to" "pdf"]

def toDocxAlts : List Phrase :=
  [ph2 "to" "docx", ph2 "to" "word", ph2 "as" "docx", ph2 "as" "word",
   ph2 "convert" "docx", ph2 "convert" "word", ph3 "convert" "to" "docx",
   ph3 "convert" "to" "word"]

def wSplitAlts : List Phrase := w1 ["split"] ++ [ph2 "extract" "page", ph2 "keep" "page"]
def deletePagesAlts : List Phrase := [ph2 "delete" "page", ph2 "remove" "page"]
def mergeKwAlts : List Phrase := w1 ["merge", "combine", "join"]
def ocrKwAlts : List Phrase := w1 ["ocr"]
def reorderKwAlts : List Phrase := w1 ["reorder", "reverse", "swap"]
def cleanKwAlts : List Phrase :=
  w1 ["clean"] ++ [ph2 "remove" "blank", ph2 "remove" "duplicate",
                   ph2 "blank" "page", ph2 "duplicate" "page"]
def compressKwAlts : List Phrase :=
  w1 ["compress", "smaller", "shrink", "tiny"] ++ [ph2 "reduce" "size", ph2 "make" "small"]
def rotateKwAlts : List Phrase := w1 ["rotate", "turn", "flip", "straighten"]
def watermarkKwAlts : List Phrase := w1 ["watermark"]
def pageNumbersKwAlts : List Phrase :=
  [ph2 "page" "numbers", ph2 "page" "number", ph2 "number" "pages", ph2 "number" "page",
   ph2 "add" "numbers", ph2 "add" "number"]
def enhanceKwAlts : List Phrase :=
  w1 ["enhance", "improve", "clarify", "sharpen"] ++ [ph2 "clean" "up", ph2 "fix" "scan"]
def flattenKwAlts : List Phrase := w1 ["flatten", "sanitize", "optimize"]
def extractTextKwAlts : List Phrase :=
  [ph2 "extract" "text", ph2 "to" "txt", ph2 "as" "txt", ph2 "text" "only", ph2 "get" "text"]

def emailReadyAlts : List Phrase :=
  [ph2 "email" "ready", ph2 "for" "email", ph2 "send" "email", ph3 "send" "by" "email",
   ph2 "email" "size"]
def fixScanAlts : List Phrase :=
  [ph2 "fix" "scan", ph3 "fix" "this" "scan", ph2 "fix" "scanned", ph2 "clean" "scan"]
def printReadyAlts : List Phrase := [ph2 "print" "ready", ph2 "for" "print"] ++ w1 ["printing"]
def searchableAlts : List Phrase :=
  [ph2 "make" "searchable", ph2 "searchable" "pdf", ph2 "text" "searchable"]
def securePdfAlts : List Phrase :=
  [ph2 "secure" "pdf", ph2 "protect" "pdf", ph2 "sanitize" "pdf"]
def optimizeKwAlts : List Phrase := w1 ["optimize", "optimise"]
def finalKwAlts : List Phrase := w1 ["final", "finalize"]
def submissionAlts : List Phrase :=
  [ph2 "submission" "ready", ph2 "college" "submission"] ++ w1 ["submit", "assignment"]
def archiveAlts : List Phrase :=
  [ph2 "archive" "ready", ph2 "for" "archive"] ++ w1 ["archiving"]
def whatsappAlts : List Phrase := w1 ["whatsapp", "wa"]
def govtAlts : List Phrase := w1 ["govt", "government"]
def scanQualityAlts : List Phrase :=
  [ph2 "scan" "quality", ph2 "quality" "fix", ph2 "improve" "scan"]
def neatAlts : List Phrase := [ph3 "make" "it" "neat", ph2 "neat" "up"] ++ w1 ["tidy"]
/-- `make\s*professional|professional\s*(copy|version)?|look\s*professional`:
the bare middle alternative makes the whole search equivalent to the
whole-word search for `professional`. -/
def professionalAlts : List Phrase := w1 ["professional"]
def sendableAlts : List Phrase := w1 ["sendable", "shareable"] ++ [ph2 "share" "ready"]
def convertShrinkAlts : List Phrase :=
  [ph3 "convert" "and" "shrink", ph3 "convert" "and" "compress", ph3 "convert" "and" "smaller",
   phAmp "convert" "shrink", phAmp "convert" "compress", phAmp "convert" "smaller"]
def scanToPdfAlts : List Phrase := [ph3 "scan" "to" "pdf"]
def combineFixAlts : List Phrase :=
  [ph3 "combine" "and" "fix", phAmp "combine" "fix", ph3 "merge" "and" "clean",
   phAmp "merge" "clean"]
def combineShrinkAlts : List Phrase :=
  [ph3 "combine" "and" "shrink", ph3 "combine" "and" "compress", phAmp "combine" "shrink",
   phAmp "combine" "compress", ph3 "merge" "and" "shrink", ph3 "merge" "and" "compress",
   phAmp "merge" "shrink", phAmp "merge" "compress"]
def fixOrientationAlts : List Phrase :=
  [ph2 "fix" "orientation", ph2 "fix" "rotation", ph2 "orientation" "fix"]
def removeExtraAlts : List Phrase :=
  [ph2 "remove" "extra", ph2 "extra" "pages", ph2 "extra" "page", ph2 "unwanted" "pages",
   ph2 "unwanted" "page"]
def mobileAlts : List Phrase := w1 ["mobile"] ++ [ph2 "for" "mobile", ph2 "phone" "size"]

/-- All `wants_*` flags, computed once from the tokenized compact prompt. -/
structure GuardFlags where
  toImage : Bool
  toPdf : Bool
  toDocx : Bool
  split : Bool
  deletePages : Bool
  merge : Bool
  ocr : Bool
  reorder : Bool
  clean : Bool
  compress : Bool
  rotate : Bool
  watermark : Bool
  pageNumbers : Bool
  enhance : Bool
  flatten : Bool
  extractText : Bool
  emailReady : Bool
  fixScan : Bool
  printReady : Bool
  searchable : Bool
  secure : Bool
  optimize : Bool
  final : Bool
  submission : Bool
  archive : Bool
  whatsapp : Bool
  govt : Bool
  scanQuality : Bool
  neat : Bool
  professional : Bool
  sendable : Bool
  convertShrink : Bool
  scanToPdf : Bool
  combineFix : Bool
  combineShrink : Bool
  fixOrientation : Bool
  removeExtra : Bool
  mobile : Bool
  deriving Repr, DecidableEq

def mkFlags (toks : List Tok) : GuardFlags :=
  { toImage := searchAlts toImageAlts toks
    toPdf := searchAlts toPdfAlts toks
    toDocx := searchAlts toDocxAlts toks
    split := searchAlts wSplitAlts toks
    deletePages := searchAlts deletePagesAlts toks
    merge := searchAlts mergeKwAlts toks
    ocr := searchAlts ocrKwAlts toks
    reorder := searchAlts reorderKwAlts toks
    clean := searchAlts cleanKwAlts toks
    compress := searchAlts compressKwAlts toks
    rotate := searchAlts rotateKwAlts toks
    watermark := searchAlts watermarkKwAlts toks
    pageNumbers := searchAlts pageNumbersKwAlts toks
    enhance := searchAlts enhanceKwAlts toks
    flatten := searchAlts flattenKwAlts toks
    extractText := searchAlts extractTextKwAlts toks
    emailReady := searchAlts emailReadyAlts toks
    fixScan := searchAlts fixScanAlts toks
    printReady := searchAlts printReadyAlts toks
    searchable := searchAlts searchableAlts toks
    secure := searchAlts securePdfAlts toks
    optimize := searchAlts optimizeKwAlts toks
    final := searchAlts finalKwAlts toks
    submission := searchAlts submissionAlts toks
    archive := searchAlts archiveAlts toks
    whatsapp := searchAlts whatsappAlts toks
    govt := searchAlts govtAlts toks
    scanQuality := searchAlts scanQualityAlts toks
    neat := searchAlts neatAlts toks
    professional := searchAlts professionalAlts toks
    sendable := searchAlts sendableAlts toks
    convertShrink := searchAlts convertShrinkAlts toks
    scanToPdf := searchAlts scanToPdfAlts toks
    combineFix := searchAlts combineFixAlts toks
    combineShrink := searchAlts combineShrinkAlts toks
    fixOrientation := searchAlts fixOrientationAlts toks
    removeExtra := searchAlts removeExtraAlts toks
    mobile := searchAlts mobileAlts toks }

def boolN (b : Bool) : ℕ := if b then 1 else 0

/-- `num_operations` (lines 877-881): the sum of 15 of the flags. -/
def numOperations (f : GuardFlags) : ℕ :=
  boolN f.merge + boolN f.split + boolN f.deletePages + boolN f.compress + boolN f.rotate +
  boolN f.watermark + boolN f.pageNumbers + boolN f.ocr + boolN f.enhance + boolN f.flatten +
  boolN f.clean + boolN f.reorder + boolN f.toImage + boolN f.toDocx + boolN f.extractText

/-- The file-type context of the guard section (lines 850-858). -/
structure GFileCtx where
  isPdf : Bool
  isImg : Bool
  isDocx : Bool
  allPdfs : Bool
  allImgs : Bool
  numFiles : ℕ
  deriving Repr, DecidableEq

def imageExts : List (List Char) :=
  [".png".toList, ".jpg".toList, ".jpeg".toList, ".gif".toList, ".bmp".toList,
   ".tiff".toList, ".webp".toList]

def isImageName (f : List Char) : Bool :=
  imageExts.any fun e => e.isSuffixOf (lowerL f)

def mkFileCtx (files : List (List Char)) : GFileCtx :=
  let primary := lowerL ((files.headD []))
  { isPdf := ".pdf".toList.isSuffixOf primary
    isImg := imageExts.any fun e => e.isSuffixOf primary
    isDocx := ".docx".toList.isSuffixOf primary
    allPdfs := files.all fun f => ".pdf".toList.isSuffixOf (lowerL f)
    allImgs := files.all isImageName
    numFiles := files.length }

/-- Does the guard section (lines 848-3168) return?  Every branch
condition is transcribed in source order; the bodies are abstracted (see
`clarify_model`).  For the `wants_email_ready`-style families the branch
returns only when the inner file-type dispatch matches, which is folded
into the condition here. -/
def guardFires (f : GuardFlags) (x : GFileCtx) : Bool :=
  ((x.isPdf || x.allPdfs) &&
    (  (f.merge && f.compress && x.allPdfs && decide (2 ≤ x.numFiles))
    || (f.merge && f.watermark && x.allPdfs && decide (2 ≤ x.numFiles))
    || (f.ocr && f.compress && x.isPdf)
    || (f.enhance && f.ocr && x.isPdf)
    || (f.enhance && f.compress && x.isPdf)
    || (f.rotate && f.compress && x.isPdf)
    || (f.flatten && f.compress && x.isPdf)
    || (f.clean && f.compress && x.isPdf)
    || (f.watermark && f.compress && x.isPdf)
    || (f.pageNumbers && f.compress && x.isPdf)
    || (f.split && f.compress && x.isPdf)
    || (f.watermark && f.pageNumbers && x.isPdf)
    || (f.rotate && f.split && x.isPdf)
    || (f.merge && f.ocr && x.allPdfs && decide (2 ≤ x.numFiles))
    || (f.merge && f.enhance && x.allPdfs && decide (2 ≤ x.numFiles))
    || (f.merge && f.flatten && x.allPdfs && decide (2 ≤ x.numFiles))
    || (f.merge && f.pageNumbers && x.allPdfs && decide (2 ≤ x.numFiles))
    || (f.merge && f.rotate && x.allPdfs && decide (2 ≤ x.numFiles))
    || (f.merge && f.clean && x.allPdfs && decide (2 ≤ x.numFiles))
    || (f.ocr && f.flatten && x.isPdf)
    || (f.ocr && f.pageNumbers && x.isPdf)
    || (f.ocr && f.clean && x.isPdf)
    || (f.ocr && f.rotate && x.isPdf)
    || (f.clean && f.reorder && x.isPdf)
    || (f.clean && f.flatten && x.isPdf)
    || (f.pageNumbers && f.flatten && x.isPdf)
    || (f.watermark && f.flatten && x.isPdf)
    || (f.rotate && f.reorder && x.isPdf)
    || (f.enhance && f.ocr && f.compress && x.isPdf)
    || (f.clean && f.ocr && f.compress && x.isPdf)
    || (f.merge && f.clean && f.compress && x.allPdfs && decide (2 ≤ x.numFiles))
    || (f.merge && f.rotate && f.compress && x.allPdfs && decide (2 ≤ x.numFiles))
    || (f.merge && f.ocr && f.compress && x.allPdfs && decide (2 ≤ x.numFiles))
    || (f.ocr && f.pageNumbers && f.compress && x.isPdf)
    || (f.rotate && f.pageNumbers && f.compress && x.isPdf)
    || (f.merge && f.watermark && f.compress && x.allPdfs && decide (2 ≤ x.numFiles))
    || (f.enhance && f.flatten && f.compress && x.isPdf)
    || (f.clean && f.flatten && f.compress && x.isPdf)))
  ||
  ((x.isImg || x.allImgs) &&
    (  ((f.merge || f.toPdf) && f.compress && x.allImgs)
    || ((f.merge || f.toPdf) && f.watermark && x.allImgs)
    || ((f.merge || f.toPdf) && f.pageNumbers && x.allImgs)
    || (f.enhance && f.ocr && x.isImg)
    || (f.enhance && f.toPdf && x.isImg)
    || (f.enhance && f.compress && x.isImg)
    || ((f.merge || f.toPdf) && f.rotate && x.allImgs)
    || ((f.merge || f.toPdf) && f.ocr && x.allImgs)
    || ((f.merge || f.toPdf) && f.flatten && x.allImgs)
    || (f.ocr && f.compress && x.isImg)
    || (f.ocr && f.pageNumbers && x.isImg)
    || (f.ocr && f.flatten && x.isImg)
    || (f.enhance && f.rotate && x.isImg)
    || (f.enhance && f.ocr && f.compress && x.isImg)
    || ((f.merge || f.toPdf) && f.ocr && f.compress && x.allImgs)
    || ((f.merge || f.toPdf) && f.rotate && f.compress && x.allImgs)
    || (f.enhance && f.ocr && f.pageNumbers && x.isImg)
    || ((f.merge || f.toPdf) && f.watermark && f.compress && x.allImgs)
    || (f.ocr && f.rotate && f.compress && x.isImg)))
  ||
  (x.isDocx &&
    (  (f.toPdf && f.compress)
    || (f.toPdf && f.watermark)
    || (f.toPdf && f.pageNumbers)
    || (f.toImage && f.compress)
    || f.deletePages
    || (f.toPdf && f.flatten)
    || (f.clean && f.compress)
    || (f.enhance && f.compress)
    || (f.toPdf && f.ocr && f.compress)
    || (f.toPdf && f.watermark && f.compress)
    || (f.toPdf && f.pageNumbers && f.compress)
    || (f.toPdf && f.flatten && f.compress)))
  || (x.isImg && f.toImage && !f.toPdf && !f.compress)
  || (x.isPdf && f.toPdf && decide (numOperations f ≤ 1))
  || (x.isDocx && f.toDocx)
  || (f.merge && x.allImgs && decide (1 ≤ x.numFiles))
  || (f.toPdf && x.allImgs)
  || (f.toPdf && x.isDocx)
  || (f.ocr && x.isImg)
  || (f.extractText && x.isImg)
  || (f.enhance && x.isImg)
  || (f.toImage && x.isDocx)
  || (f.split && x.isDocx)
  || (f.compress && x.isDocx)
  || (f.watermark && x.isDocx)
  || (f.pageNumbers && x.isDocx)
  || (f.reorder && x.isDocx)
  || (f.flatten && x.isDocx)
  || (f.clean && x.isDocx)
  || (f.watermark && x.isImg)
  || (f.pageNumbers && x.isImg)
  || (f.compress && x.isImg)
  || (f.rotate && x.isImg)
  || (f.flatten && x.isImg)
  || (f.reorder && x.allImgs && decide (1 < x.numFiles))
  || (f.emailReady && (x.isPdf || x.isDocx || x.isImg))
  || (f.fixScan && (x.isPdf || x.isImg))
  || (f.printReady && (x.isPdf || x.isDocx || x.isImg))
  || (f.searchable && (x.isPdf || x.isImg))
  || (f.secure && x.isPdf)
  || (f.optimize && (x.isPdf || x.isDocx))
  || (f.final && (x.isPdf || x.isDocx))
  || (f.submission && (x.isPdf || x.isImg || x.isDocx))
  || (f.archive && (x.isPdf || x.isDocx))
  || (f.whatsapp && (x.isPdf || x.isDocx || x.isImg))
  || (f.govt && (x.isPdf || x.isImg))
  || (f.scanQuality && (x.isPdf || x.isImg))
  || (f.neat && x.isPdf)
  || (f.professional && (x.isPdf || x.isDocx))
  || (f.sendable && (x.isPdf || x.isDocx || x.isImg))
  || (f.convertShrink && (x.isDocx || x.isImg))
  || (f.scanToPdf && (x.isImg || x.allImgs))
  || (f.combineFix && x.allPdfs && decide (2 ≤ x.numFiles))
  || (f.combineShrink && ((x.allPdfs && decide (2 ≤ x.numFiles)) || x.allImgs))
  || (f.fixOrientation && (x.isPdf || x.isImg))
  || (f.removeExtra && x.isPdf)
  || (f.mobile && (x.isPdf || x.isDocx))
  || (f.split && x.isImg)
  || (f.ocr && x.isDocx)
  || (f.reorder && x.isImg && decide (x.numFiles = 1))
  || (f.clean && x.isImg)
  || (f.merge && !x.allPdfs && !x.allImgs && decide (1 < x.numFiles))
  || (f.extractText && x.isDocx)
  || (f.enhance && x.isDocx)
  || (f.merge && decide (x.numFiles = 1) && (x.isPdf || x.isImg || x.isDocx))
  || (f.toDocx && x.isImg)

/-- The convert shortcuts (lines 3170-3199): `wants_convert` etc. are
re-derived on `prompt_for_match`, and fire only for a matching primary
file type. -/
def convertShortcutFires (toks : List Tok) (x : GFileCtx) : Bool :=
  let conv := searchAlts (w1 ["convert", "change"]) toks
  let word := searchAlts (w1 ["word", "docx", "doc"]) toks
  let pdf := searchAlts (w1 ["pdf"]) toks
  let images := searchAlts (w1 ["image", "images", "img", "png", "jpg", "jpeg"]) toks
  (conv && pdf && x.isDocx) || (conv && word && x.isPdf) || (conv && images && x.isPdf)

/-- `_is_explicitly_unsupported_request` (lines 126-156). -/
def unsupported_request (pfm : List Char) : Bool :=
  let p := lowerL pfm
  let toks := tokenize p
  let conv := searchAlts (w1 ["convert", "change", "export"]) toks
  (conv && searchAlts (w1 ["pptx", "ppt", "powerpoint"]) toks)
  || (conv && searchAlts (w1 ["xlsx", "xls", "excel", "csv"]) toks)
  || (conv && searchAlts (w1 ["html", "htm"]) toks)
  || searchAlts (w1 ["password", "encrypt", "decrypt", "unlock", "protect"]) toks
  || searchAlts (w1 ["sign", "signature", "esign"]
       ++ [[.lit "e".toList, .gapLit "-".toList, .lit "sign".toList]]) toks
  || (searchAlts (w1 ["edit", "annotate", "highlight"]) toks && containsSeq "pdf".toList p)

/-- The explicit-sequencing-word search (line 404 and, modelled from the
spec, the precompiled `RE_EXPLICIT_ORDER` of the missing `app/utils.py`):
`\b(and then|then|after|before|first|second|finally)\b`.  The `and then`
alternative is omitted: any of its whole-word occurrences contains a
whole-word `then`, so the search result is unchanged. -/
def orderWordAlts : List Phrase :=
  w1 ["then", "after", "before", "first", "second", "finally"]

def hasOrderWords (s : List Char) : Bool :=
  searchAlts orderWordAlts (tokenize (lowerL s))


def ph4each1 : Phrase := [.lit "each".toList, .anyGap, .lit "page".toList, .anyGap, .lit "as".toList, .anyGap, .lit "pdf".toList]
def ph4each2 : Phrase := [.lit "each".toList, .anyGap, .lit "page".toList, .anyGap, .lit "as".toList, .anyGap, .lit "a".toList, .anyGap, .lit "pdf".toList]
def ph4each3 : Phrase := [.lit "each".toList, .anyGap, .lit "page".toList, .anyGap, .lit "into".toList, .anyGap, .lit "pdf".toList]
def ph4each4 : Phrase := [.lit "each".toList, .anyGap, .lit "page".toList, .anyGap, .lit "into".toList, .anyGap, .lit "a".toList, .anyGap, .lit "pdf".toList]

/-- `_detect_op_families` (lines 441-472): the 13 family checks. -/
def famChecks : List (List Phrase) :=
  [ mergeKwAlts,
    w1 ["split", "extract", "keep"],
    w1 ["delete", "remove"],
    w1 ["compress", "smaller", "size"],
    w1 ["reorder", "order", "swap", "reverse"],
    w1 ["watermark"],
    [ph2 "page" "numbers", ph2 "page" "number"],
    w1 ["ocr", "scanned", "selectable", "editable", "readable"],
    w1 ["rotate", "turn", "straight", "flip"],
    w1 ["docx", "word", "convert"],
    w1 ["png", "jpg", "jpeg", "image", "images"],
    [ph3 "split" "to" "files",
     [.lit "separate".toList, .someGap, .lit "pdfs".toList],
     ph4each1, ph4each2, ph4each3, ph4each4],
    [[.lit "extract".toList, .someGap, .lit "text".toList],
     [.lit "text".toList, .someGap, .lit "only".toList]] ]

/-- How many of the 13 families match. -/
def famCount (text : List Char) : ℕ :=
  ((famChecks.map fun a => searchAlts a (tokenize (lowerL text))).filter id).length

/-- `_looks_like_multi_operation_prompt` (lines 215-238).  The six family
groups are the precompiled `RE_*_OPS` of the missing `app/utils.py`,
modelled from the spec and from the sibling keyword vocabularies of
`clarification_layer.py`. -/
def multiOpGroups : List (List Phrase) :=
  [ mergeKwAlts,
    w1 ["split", "extract", "keep"],
    w1 ["delete", "remove"],
    compressKwAlts,
    w1 ["convert", "docx", "word"],
    w1 ["rotate", "turn", "straight", "flip"] ++ reorderKwAlts ++ watermarkKwAlts
      ++ pageNumbersKwAlts ++ ocrKwAlts ++ w1 ["png", "jpg", "jpeg", "image", "images"] ]

def looksMulti (up : List Char) : Bool :=
  let toks := tokenize (lowerL (normHeur up))
  searchAlts orderWordAlts toks ||
  decide (2 ≤ ((multiOpGroups.map fun a => searchAlts a toks).filter id).length)

/-! ### Clause splitting for the no-explicit-order auto-ordering -/

/-- The operation-word vocabulary of `_insert_missing_and_between_ops`
(line 410). -/
def insertAndOps : List (List Char) :=
  ["compress", "merge", "combine", "join", "split", "extract", "keep", "delete",
   "remove", "convert", "rotate", "reorder", "watermark", "ocr", "image", "images",
   "docx", "word", "txt"].map String.toList

/-- `re.sub(rf"\b{ops}\b\s+\b{ops}\b", r"\1 and \2", text, IGNORECASE)` at
token level: two operation words separated by pure whitespace get an
`and` inserted; scanning resumes after the second word, as `re.sub` does. -/
def insertAndToksF : ℕ → List Tok → List Tok
  | 0, _ => []
  | _ + 1, .word w1 :: .gap g :: .word w2 :: rest =>
    if insertAndOps.contains (lowerL w1) && pureWs g && insertAndOps.contains (lowerL w2) then
      .word w1 :: .gap [' '] :: .word "and".toList :: .gap [' '] :: .word w2 ::
        insertAndToksF rest.length rest
    else
      .word w1 :: insertAndToksF rest.length.succ.succ (.gap g :: .word w2 :: rest)
  | _ + 1, t :: rest => t :: insertAndToksF rest.length rest
  | _ + 1, [] => []

def insertAndToks (toks : List Tok) : List Tok := insertAndToksF toks.length toks

def insert_missing_and (s : List Char) : List Char :=
  flattenToks (insertAndToks (tokenize s))

/-- Fuel-recursive worker for `squeezeWs`. -/
def squeezeWsF : ℕ → List Char → List Char
  | 0, _ => []
  | _ + 1, [] => []
  | n + 1, c :: cs =>
    if isWs c then ' ' :: squeezeWsF n (cs.dropWhile isWs) else c :: squeezeWsF n cs

/-- `re.sub(r"\s+", " ", s)`: collapse every whitespace run to one space. -/
def squeezeWs (s : List Char) : List Char := squeezeWsF (s.length + 1) s

def squeezeStrip (s : List Char) : List Char := LocalNormalizer.stripWs (squeezeWs s)

/-- `s.split(",")`, keeping empty pieces (they are filtered afterwards). -/
def splitCommaRaw : List Char → List (List Char)
  | [] => [[]]
  | c :: cs =>
    if c = ',' then [] :: splitCommaRaw cs
    else
      match splitCommaRaw cs with
      | h :: t => (c :: h) :: t
      | [] => [[c]]

/-- `re.split(r"\band\b", chunk, IGNORECASE)` at token level. -/
def splitAndToks : List Tok → List (List Tok)
  | [] => [[]]
  | .word w :: rest =>
    if lowerL w = "and".toList then [] :: splitAndToks rest
    else
      match splitAndToks rest with
      | h :: t => (.word w :: h) :: t
      | [] => [[.word w]]
  | .gap g :: rest =>
    match splitAndToks rest with
    | h :: t => (.gap g :: h) :: t
    | [] => [[.gap g]]

def splitAndStr (s : List Char) : List (List Char) :=
  (splitAndToks (tokenize s)).map flattenToks

def isPunctSp (c : Char) : Bool := c = ' ' || c = ',' || c = '.' || c = ';'

/-- `p.strip(" ,.;")`. -/
def stripPunct (s : List Char) : List Char :=
  ((s.dropWhile isPunctSp).reverse.dropWhile isPunctSp).reverse

/-- `_split_clauses_no_order` (lines 475-500). -/
def split_clauses_no_order (up : List Char) : List (List Char) :=
  let s := squeezeStrip (insert_missing_and (fix_common_connector_typos up))
  if s.isEmpty then []
  else if hasOrderWords s then []
  else
    let chunks := ((splitCommaRaw s).map LocalNormalizer.stripWs).filter
      fun c => !c.isEmpty
    let parts := ((chunks.flatMap splitAndStr).map stripPunct).filter
      fun p => !p.isEmpty
    parts.take 6

/-! ### The resolver pipeline -/

/-- The intents producible on the fully-translated paths. -/
inductive CMIntent where
  | compress_to_target (file : List Char) (target_mb : ℕ)
  | compress_preset (file : List Char) (preset : List Char)
  | rotate (file : List Char) (degrees : ℤ)
  | merge (files : List (List Char))
  | page_numbers (file : List Char)
  | split_pages (file : List Char) (pages : List ℕ)
  | pdf_to_images (file : List Char) (fmt : List Char)
  | pdf_to_docx (file : List Char)
  | extract_text (file : List Char)
  | ocr (file : List Char)
  deriving Repr, DecidableEq

/-- What `clarify_intent` returns.  `otherPath n` marks a branch whose
condition is translated exactly but whose body is not needed by any
verified input family (the theorems prove those conditions false on the
families they quantify over). -/
inductive CMOut where
  | ok (i : CMIntent)
  | ask (q : List Char) (opts : Option (List (List Char)))
  | otherPath (tag : ℕ)
  deriving Repr, DecidableEq


def ph4small : Phrase :=
  [.lit "as".toList, .anyGap, .lit "small".toList, .anyGap, .lit "as".toList,
   .anyGap, .lit "possible".toList]
def phDontLose1 : Phrase :=
  [.lit "don".toList, .anyGap, .lit "t".toList, .anyGap, .lit "lose".toList,
   .anyGap, .lit "quality".toList]
def phDontLose2 : Phrase :=
  [.lit "don".toList, .gapWith '\'', .lit "t".toList, .anyGap, .lit "lose".toList,
   .anyGap, .lit "quality".toList]
def fmtImgSet : List (List Char) :=
  ["png", "jpg", "jpeg", "img", "to img", "to image", "to images"].map String.toList

/-- `_infer_compress_preset` (lines 360-377). -/
def infer_compress_preset (up : List Char) : List Char :=
  let toks := tokenize (lowerL (normHeur up))
  if searchAlts ([ph2 "very" "tiny"] ++ w1 ["tiny", "smallest", "max", "maximum",
      "strong", "strongly"] ++ [ph4small, ph2 "a" "lot"]) toks then "screen".toList
  else if searchAlts ([ph2 "a" "little", ph2 "little" "bit", ph2 "a" "bit"]
      ++ w1 ["slight", "slightly", "light", "lightly", "minor"]) toks then "printer".toList
  else if searchAlts ([ph2 "best" "quality", ph2 "highest" "quality",
      ph2 "minimal" "compression", phDontLose1, phDontLose2]) toks then "prepress".toList
  else "ebook".toList

/-- One user call of `clarify_intent` with `allow_multi = True` (the shape
used by the background job processor), as a deterministic pipeline:
typo repair, heuristic normalization (spec-modelled keyword corrector),
the explicit-unsupported check, the guard section (conditions exact,
bodies abstracted), the convert shortcuts, the digit+degree rewrite, the
auto-ordering and order-ambiguity stages, the format-only shortcuts, the
single-op heuristics, the multi-op collaborator gate, and Patterns 1-5.
The second component counts the calls to the external parsing
collaborator. -/
def clarify_model (user_prompt0 : List Char) (files : List (List Char))
    (last_question : List Char) : CMOut × ℕ :=
  let up := fix_common_connector_typos user_prompt0
  let pfm := normHeur up
  let pc := LocalNormalizer.stripWs (lowerL pfm)
  if unsupported_request pfm then (.ask UNSUPPORTED_REPLY none, 0)
  else
  let x := mkFileCtx files
  if !files.isEmpty && guardFires (mkFlags (tokenize pc)) x then (.otherPath 1, 0)
  else if !files.isEmpty && convertShortcutFires (tokenize (lowerL pfm)) x then
    (.otherPath 2, 0)
  else
  let rewriteHit := !files.isEmpty && fullSignedDigits pc
    && containsSeq "degree".toList (lowerL last_question)
    && containsSeq "rotate".toList (lowerL last_question)
  let pfm2 := if rewriteHit then "rotate ".toList ++ pc ++ " degrees".toList else pfm
  let pc2 := if rewriteHit then "rotate ".toList ++ pc ++ " degrees".toList else pc
  if 2 ≤ (split_clauses_no_order up).length then (.otherPath 3, 0)
  else if !hasOrderWords up
      && 2 ≤ famCount (normHeur (insert_missing_and (fix_common_connector_typos up))) then
    (.otherPath 4, 0)
  else if !files.isEmpty && fmtImgSet.contains pc2 then
    let f := files.headD []
    if isImageName f then (.ask "Already an image".toList none, 0)
    else if pc2 = "jpg".toList || pc2 = "jpeg".toList then
      (.ok (.pdf_to_images f "jpg".toList), 0)
    else (.ok (.pdf_to_images f "png".toList), 0)
  else if !files.isEmpty && (pc2 = "docx".toList || pc2 = "word".toList) then
    (.ok (.pdf_to_docx (files.headD [])), 0)
  else if !files.isEmpty && pc2 = "txt".toList then
    (.ok (.extract_text (files.headD [])), 0)
  else if !files.isEmpty && pc2 = "ocr".toList then
    (.ok (.ocr (files.headD [])), 0)
  else
  let toksPfm2 := tokenize (lowerL pfm2)
  if !(looksMulti up) &&
      (2 ≤ files.length && searchAlts mergeKwAlts toksPfm2) then
    (.ok (.merge files), 0)
  else if !(looksMulti up) && (!files.isEmpty && searchAlts (w1 ["delete", "remove"]) toksPfm2) then
    (.otherPath 5, 0)
  else if !(looksMulti up) && (!files.isEmpty && searchAlts (w1 ["reorder", "swap", "reverse"]) toksPfm2) then
    (.otherPath 6, 0)
  else if !(looksMulti up) && (!files.isEmpty && searchAlts watermarkKwAlts toksPfm2) then
    (.otherPath 7, 0)
  else if !(looksMulti up) && (!files.isEmpty &&
      searchAlts [ph2 "page" "numbers", ph2 "page" "number", ph2 "number" "pages"] toksPfm2) then
    (.ok (.page_numbers (files.headD [])), 0)
  else if !(looksMulti up) && (!files.isEmpty &&
      searchAlts [ph3 "split" "to" "files",
        [.lit "separate".toList, .someGap, .lit "pdfs".toList],
        [.lit "each".toList, .someGap, .lit "page".toList]] toksPfm2) then
    (.otherPath 8, 0)
  else if looksMulti up then (.otherPath 9, 1)
  else
  match mbSearch (lowerL pfm2), files with
  | some n, f :: _ => (.ok (.compress_to_target f n), 0)
  | _, _ =>
  if !files.isEmpty && (MainApp.pctSearch (lowerL pfm2)).isSome then (.otherPath 10, 0)
  else if !files.isEmpty && searchAlts
      [[.lit "split".toList, .someGap, .lit "pages".toList],
       [.lit "split".toList, .someGap, .lit "page".toList],
       [.lit "split".toList, .someGap, .lit "all".toList, .someGap, .lit "pages".toList],
       [.lit "split".toList, .someGap, .lit "all".toList, .someGap, .lit "page".toList]]
      toksPfm2 then
    (.otherPath 11, 0)
  else if p3Search (lowerL pfm2) && !files.isEmpty then
    (.ok (.split_pages (files.headD []) [1]), 0)
  else
  match p4Search (lowerL pfm2), files with
  | some n, f :: _ => (.ok (.split_pages f (List.range' 1 n)), 0)
  | _, _ =>
  let rotateWord := searchAlts (w1 ["rotate", "rotat", "turn", "flip", "straight"]) toksPfm2
  if !files.isEmpty && (rotateWord || fullSignedDigits pc2) then
    let f := files.headD []
    let degrees : ℤ :=
      if searchAlts (w1 ["left", "anti", "anticlock", "counter"]) toksPfm2 then 270
      else if searchAlts (w1 ["right", "clockwise"]) toksPfm2 then 90
      else if searchAlts (w1 ["flip"]) toksPfm2 then 180
      else
        match rotNumSearch (lowerL pfm2) with
        | some raw => rotSnap raw
        | none => 90
    (.ok (.rotate f degrees), 0)
  else if searchAlts (w1 ["compress"]) toksPfm2 && !files.isEmpty then
    (.ok (.compress_preset (files.headD []) (infer_compress_preset up)), 0)
  else (.otherPath 12, 1)

end Clarify

/-- C8: every instruction that the explicit-unsupported keyword scan
recognizes gets exactly the fixed sentinel string
`"Not supported yet or sooner"` as its clarification, with no options, no
surrounding text, and zero calls to the external rewriting/parsing
collaborator; the scenario `"sign this pdf"` with one uploaded PDF is the
witness. -/
theorem C8_unsupported_sentinel (p : List Char) (files : List (List Char))
    (lq : List Char)
    (h : Clarify.unsupported_request (Clarify.normHeur (fix_common_connector_typos p)) = true) :
    Clarify.clarify_model p files lq = (.ask Clarify.UNSUPPORTED_REPLY none, 0)
    ∧ Clarify.UNSUPPORTED_REPLY = "Not supported yet or sooner".toList := by
  constructor
  · unfold Clarify.clarify_model
    simp only [h, if_true]
  · rfl

/-- C8 witness: the spec's own scenario. -/
theorem C8_unsupported_sentinel_witness :
    Clarify.clarify_model "sign this pdf".toList ["doc.pdf".toList] [] =
      (.ask Clarify.UNSUPPORTED_REPLY none, 0) :=
  (C8_unsupported_sentinel "sign this pdf".toList ["doc.pdf".toList] [] (by decide)).1

/-! ### Toolkit for evaluating the pipeline on quantified prompt families -/

namespace Clarify

theorem toLower_of_isDigit {c : Char} (h : c.isDigit = true) : c.toLower = c := by
  unfold Char.toLower
  have h2 : c.toNat ≤ 57 := by
    simp [Char.isDigit] at h
    obtain ⟨_, h2⟩ := h
    rw [UInt32.le_def, BitVec.le_def] at h2
    have h57 : (57 : UInt32).toBitVec.toNat = 57 := rfl
    rw [h57] at h2
    exact h2
  rw [if_neg]
  omega

theorem ne_of_isDigit_of_not {c d : Char} (h : c.isDigit = true)
    (hd : d.isDigit = false) : c ≠ d := by
  intro he
  rw [he, hd] at h
  exact Bool.false_ne_true h

theorem lowerL_append (a b : List Char) : lowerL (a ++ b) = lowerL a ++ lowerL b :=
  List.map_append _ a b

theorem lowerL_digits {ds : List Char} (h : ∀ c ∈ ds, c.isDigit = true) :
    lowerL ds = ds := by
  induction ds with
  | nil => rfl
  | cons c cs ih =>
    have hc := h c (by simp)
    simp only [lowerL, List.map_cons]
    rw [show c.toLower = c from toLower_of_isDigit hc]
    have := ih fun x hx => h x (by simp [hx])
    simp only [lowerL] at this
    rw [this]

theorem dropWhile_eq_self_of_head {p : Char → Bool} :
    ∀ {l : List Char}, (∀ c, l.head? = some c → p c = false) → l.dropWhile p = l := by
  intro l h
  cases l with
  | nil => rfl
  | cons c cs =>
    have := h c rfl
    simp [List.dropWhile, this]

theorem stripWs_eq_self {s : List Char}
    (h1 : ∀ c, s.head? = some c → isWs c = false)
    (h2 : ∀ c, s.getLast? = some c → isWs c = false) :
    LocalNormalizer.stripWs s = s := by
  unfold LocalNormalizer.stripWs
  rw [dropWhile_eq_self_of_head h1]
  rw [dropWhile_eq_self_of_head (by
    intro c hc
    rw [List.head?_reverse] at hc
    exact h2 c hc)]
  exact List.reverse_reverse s

/-! #### Fuel insensitivity and structural steps of `normHeurF` -/

theorem normHeurF_fuel :
    ∀ (m : ℕ) (n : ℕ) (s : List Char), s.length < m → s.length < n →
      normHeurF m s = normHeurF n s := by
  intro m
  induction m with
  | zero => intro n s h _; omega
  | succ m ih =>
    intro n s hm hn
    cases n with
    | zero => omega
    | succ n =>
      cases s with
      | nil => rfl
      | cons c cs =>
        simp only [List.length_cons] at hm hn
        simp only [normHeurF]
        by_cases hc : c.isAlpha = true
        · simp only [hc, if_true]
          have hlen := dropWhile_length_le Char.isAlpha cs
          rw [ih n (cs.dropWhile Char.isAlpha) (by omega) (by omega)]
        · have hc2 : c.isAlpha = false := by
            cases hv : c.isAlpha
            · rfl
            · exact absurd hv hc
          simp only [hc2, Bool.false_eq_true, if_false]
          rw [ih n cs (by omega) (by omega)]

theorem normHeur_nil : normHeur [] = [] := rfl

theorem normHeur_nonalpha_cons {c : Char} (cs : List Char) (h : c.isAlpha = false) :
    normHeur (c :: cs) = c :: normHeur cs := by
  show normHeurF ((c :: cs).length + 1) (c :: cs) = _
  simp only [List.length_cons]
  rw [show cs.length + 1 + 1 = (cs.length + 1) + 1 from rfl]
  simp only [normHeurF, h, Bool.false_eq_true, if_false]
  rfl

theorem normHeur_alpha_run {w : List Char} (r : List Char) (hw : w ≠ [])
    (ha : ∀ c ∈ w, c.isAlpha = true)
    (hr : ∀ c, r.head? = some c → c.isAlpha = false) :
    normHeur (w ++ r)
      = (if 2 ≤ w.length then fuzzy_match_keyword w else w) ++ normHeur r := by
  cases w with
  | nil => exact absurd rfl hw
  | cons c cs =>
    have hc : c.isAlpha = true := ha c (by simp)
    have hcs : ∀ x ∈ cs, Char.isAlpha x = true := fun x hx => ha x (by simp [hx])
    have htk : (cs ++ r).takeWhile Char.isAlpha = cs := by
      rw [takeWhile_append_all hcs]
      have : r.takeWhile Char.isAlpha = [] := by
        cases r with
        | nil => rfl
        | cons y ys => simp [List.takeWhile_cons, hr y rfl]
      rw [this, List.append_nil]
    have hdr : (cs ++ r).dropWhile Char.isAlpha = r := by
      rw [dropWhile_append_all hcs]
      exact dropWhile_eq_self_of_head hr
    show normHeurF ((c :: cs ++ r).length + 1) (c :: (cs ++ r)) = _
    have hlen : (c :: cs ++ r).length + 1 = (cs ++ r).length + 1 + 1 := by simp
    rw [hlen]
    simp only [normHeurF, hc, if_true]
    rw [htk, hdr]
    have hfuel : normHeurF ((cs ++ r).length + 1) r = normHeur r := by
      apply normHeurF_fuel
      · simp only [List.length_append]; omega
      · omega
    rw [hfuel]

theorem normHeur_digits_pre {ds : List Char} (r : List Char)
    (hd : ∀ c ∈ ds, c.isDigit = true) :
    normHeur (ds ++ r) = ds ++ normHeur r := by
  induction ds with
  | nil => rfl
  | cons c cs ih =>
    have hc : c.isAlpha = false := not_isAlpha_of_isDigit (hd c (by simp))
    rw [List.cons_append, normHeur_nonalpha_cons _ hc,
        ih fun x hx => hd x (by simp [hx])]
    rfl

/-! #### Fuel insensitivity and structural steps of `squeezeWsF` -/

theorem squeezeWsF_fuel :
    ∀ (m : ℕ) (n : ℕ) (s : List Char), s.length < m → s.length < n →
      squeezeWsF m s = squeezeWsF n s := by
  intro m
  induction m with
  | zero => intro n s h _; omega
  | succ m ih =>
    intro n s hm hn
    cases n with
    | zero => omega
    | succ n =>
      cases s with
      | nil => rfl
      | cons c cs =>
        simp only [List.length_cons] at hm hn
        simp only [squeezeWsF]
        by_cases hc : isWs c = true
        · simp only [hc, if_true]
          have hlen := dropWhile_length_le isWs cs
          rw [ih n (cs.dropWhile isWs) (by omega) (by omega)]
        · have hc2 : isWs c = false := by
            cases hv : isWs c
            · rfl
            · exact absurd hv hc
          simp only [hc2, Bool.false_eq_true, if_false]
          rw [ih n cs (by omega) (by omega)]

theorem squeezeWs_nonws_cons {c : Char} (cs : List Char) (h : isWs c = false) :
    squeezeWs (c :: cs) = c :: squeezeWs cs := by
  show squeezeWsF ((c :: cs).length + 1) (c :: cs) = _
  simp only [List.length_cons]
  rw [show cs.length + 1 + 1 = (cs.length + 1) + 1 from rfl]
  simp only [squeezeWsF, h, Bool.false_eq_true, if_false]
  rfl

theorem squeezeWs_space_cons {cs : List Char}
    (h : ∀ c, cs.head? = some c → isWs c = false) :
    squeezeWs (' ' :: cs) = ' ' :: squeezeWs cs := by
  show squeezeWsF ((' ' :: cs).length + 1) (' ' :: cs) = _
  simp only [List.length_cons]
  rw [show cs.length + 1 + 1 = (cs.length + 1) + 1 from rfl]
  simp only [squeezeWsF, show isWs ' ' = true from rfl, if_true]
  rw [dropWhile_eq_self_of_head h]
  rfl

theorem squeezeWs_digits_pre {ds : List Char} (r : List Char)
    (hd : ∀ c ∈ ds, c.isDigit = true) :
    squeezeWs (ds ++ r) = ds ++ squeezeWs r := by
  induction ds with
  | nil => rfl
  | cons c cs ih =>
    have hc : isWs c = false := by
      have hdg := hd c (by simp)
      unfold isWs
      rw [show (decide (c = ' ') = false) from by
            simp; exact fun he => absurd hdg (by rw [he]; decide),
          show (decide (c = '\t') = false) from by
            simp; exact fun he => absurd hdg (by rw [he]; decide),
          show (decide (c = '\n') = false) from by
            simp; exact fun he => absurd hdg (by rw [he]; decide),
          show (decide (c = '\r') = false) from by
            simp; exact fun he => absurd hdg (by rw [he]; decide)]
      rfl
    rw [List.cons_append, squeezeWs_nonws_cons _ hc,
        ih fun x hx => hd x (by simp [hx])]
    rfl

end Clarify

namespace Clarify

/-! #### Keyword searches die on prompts whose word tokens all carry a
non-letter -/

theorem searchPh_false_of_all_taint {a : Phrase} (ha : alphaPhrase a = true) :
    ∀ {toks : List Tok}, (∀ w, Tok.word w ∈ toks → allAlpha w = false) →
      searchPh a toks = false := by
  intro toks
  induction toks with
  | nil => intro _; rfl
  | cons t rest ih =>
    intro h
    cases t with
    | word w =>
      have hw := h w (by simp)
      simp only [searchPh]
      rw [mAt_false_of_taint ha hw, ih fun v hv => h v (by simp [hv])]
      rfl
    | gap g =>
      simp only [searchPh]
      exact ih fun v hv => h v (by simp [hv])

theorem searchAlts_false_of_all_taint {alts : List Phrase}
    (ha : alphaAlts alts = true) {toks : List Tok}
    (h : ∀ w, Tok.word w ∈ toks → allAlpha w = false) :
    searchAlts alts toks = false := by
  induction alts with
  | nil => rfl
  | cons a rest ih =>
    rw [alphaAlts, List.all_cons, Bool.and_eq_true] at ha
    simp only [searchAlts, List.any_cons]
    rw [searchPh_false_of_all_taint ha.1 h]
    have := ih ha.2
    simp only [searchAlts] at this
    rw [this]
    rfl

/-! #### Word-level identity of the typo repair -/

theorem applyTypoRules_id_of_keys {rules : List (List Char × List Char)}
    (hk : ∀ r ∈ rules, allAlpha r.1 = true) {w : List Char}
    (hw : allAlpha (lowerL w) = false) :
    applyTypoRules rules w = w := by
  unfold applyTypoRules
  induction rules with
  | nil => rfl
  | cons r rs ih =>
    simp only [List.foldl_cons]
    rw [if_neg]
    · exact ih fun q hq => hk q (by simp [hq])
    · intro he
      rw [he] at hw
      rw [hk r (by simp)] at hw
      exact Bool.true_eq_false.mp hw

theorem applyTypoRules_id_of_not_key {rules : List (List Char × List Char)}
    {w : List Char} (hw : ∀ r ∈ rules, lowerL w ≠ r.1) :
    applyTypoRules rules w = w := by
  unfold applyTypoRules
  induction rules with
  | nil => rfl
  | cons r rs ih =>
    simp only [List.foldl_cons]
    rw [if_neg (hw r (by simp))]
    exact ih fun q hq => hw q (by simp [hq])

theorem map_wordtok_id {rules : List (List Char × List Char)} :
    ∀ {toks : List Tok}, (∀ w, Tok.word w ∈ toks → applyTypoRules rules w = w) →
      toks.map (mapWordTok rules) = toks := by
  intro toks
  induction toks with
  | nil => intro _; rfl
  | cons t rest ih =>
    intro h
    cases t with
    | word w =>
      simp only [List.map_cons, mapWordTok]
      rw [h w (by simp), ih fun v hv => h v (by simp [hv])]
    | gap g =>
      simp only [List.map_cons, mapWordTok]
      rw [ih fun v hv => h v (by simp [hv])]

theorem fixTypos_id {s : List Char}
    (h : ∀ w, Tok.word w ∈ tokenize s → applyTypoRules connectorTypoRules w = w) :
    fix_common_connector_typos s = s := by
  unfold fix_common_connector_typos
  rw [map_wordtok_id h, flatten_tokenize]

/-! #### Clause-splitting identities -/

theorem splitCommaRaw_no_comma {s : List Char} (h : ∀ c ∈ s, c ≠ ',') :
    splitCommaRaw s = [s] := by
  induction s with
  | nil => rfl
  | cons c cs ih =>
    simp only [splitCommaRaw]
    rw [if_neg (h c (by simp))]
    rw [ih fun x hx => h x (by simp [hx])]

theorem splitAndToks_no_and :
    ∀ {toks : List Tok}, (∀ w, Tok.word w ∈ toks → lowerL w ≠ "and".toList) →
      splitAndToks toks = [toks] := by
  intro toks
  induction toks with
  | nil => intro _; rfl
  | cons t rest ih =>
    intro h
    cases t with
    | word w =>
      simp only [splitAndToks]
      rw [if_neg (h w (by simp))]
      rw [ih fun v hv => h v (by simp [hv])]
    | gap g =>
      simp only [splitAndToks]
      rw [ih fun v hv => h v (by simp [hv])]

theorem stripPunct_eq_self {s : List Char}
    (h1 : ∀ c, s.head? = some c → isPunctSp c = false)
    (h2 : ∀ c, s.getLast? = some c → isPunctSp c = false) :
    stripPunct s = s := by
  unfold stripPunct
  rw [dropWhile_eq_self_of_head h1]
  rw [dropWhile_eq_self_of_head (by
    intro c hc
    rw [List.head?_reverse] at hc
    exact h2 c hc)]
  exact List.reverse_reverse s

theorem isPunctSp_false_of_isDigit {c : Char} (h : c.isDigit = true) :
    isPunctSp c = false := by
  unfold isPunctSp
  rw [show (decide (c = ' ') = false) from by
        simp; exact fun he => absurd h (by rw [he]; decide),
      show (decide (c = ',') = false) from by
        simp; exact fun he => absurd h (by rw [he]; decide),
      show (decide (c = '.') = false) from by
        simp; exact fun he => absurd h (by rw [he]; decide),
      show (decide (c = ';') = false) from by
        simp; exact fun he => absurd h (by rw [he]; decide)]
  rfl

theorem isWs_false_of_isDigit {c : Char} (h : c.isDigit = true) :
    isWs c = false := by
  unfold isWs
  rw [show (decide (c = ' ') = false) from by
        simp; exact fun he => absurd h (by rw [he]; decide),
      show (decide (c = '\t') = false) from by
        simp; exact fun he => absurd h (by rw [he]; decide),
      show (decide (c = '\n') = false) from by
        simp; exact fun he => absurd h (by rw [he]; decide),
      show (decide (c = '\r') = false) from by
        simp; exact fun he => absurd h (by rw [he]; decide)]
  rfl

/-! #### Scanner skip lemmas -/

theorem isPrefixOf_cons_false {a : Char} {as bs : List Char} {b : Char}
    (h : b ≠ a) : (a :: as).isPrefixOf (b :: bs) = false := by
  simp [List.isPrefixOf_cons₂]
  intro he
  exact absurd he.symm h

theorem mbSearch_cons_skip {c : Char} (cs : List Char) (h : c ≠ 'c') :
    mbSearch (c :: cs) = mbSearch cs := by
  simp only [mbSearch]
  rw [show ("compress".toList.isPrefixOf (c :: cs)) = false from
    isPrefixOf_cons_false (fun he => h he)]
  simp

theorem mbSearch_digits_skip {ds : List Char} (r : List Char)
    (h : ∀ c ∈ ds, c.isDigit = true) :
    mbSearch (ds ++ r) = mbSearch r := by
  induction ds with
  | nil => rfl
  | cons c cs ih =>
    rw [List.cons_append, mbSearch_cons_skip _
      (ne_of_isDigit_of_not (h c (by simp)) (by decide))]
    exact ih fun x hx => h x (by simp [hx])

theorem pctSearch_cons_skip {c : Char} (cs : List Char) (h : c ≠ 'c') :
    MainApp.pctSearch (c :: cs) = MainApp.pctSearch cs := by
  simp only [MainApp.pctSearch]
  rw [show ("compress".toList.isPrefixOf (c :: cs)) = false from
    isPrefixOf_cons_false (fun he => h he)]
  simp

theorem p3At_false_of_head {c : Char} (cs : List Char)
    (h1 : c ≠ 's') (h2 : c ≠ 'e') (h3 : c ≠ 'k') : p3At (c :: cs) = false := by
  unfold p3At
  rw [show ("split".toList.isPrefixOf (c :: cs)) = false from isPrefixOf_cons_false h1,
      show ("extract".toList.isPrefixOf (c :: cs)) = false from isPrefixOf_cons_false h2,
      show ("keep".toList.isPrefixOf (c :: cs)) = false from isPrefixOf_cons_false h3]
  rfl

theorem p4At_none_of_head {c : Char} (cs : List Char)
    (h1 : c ≠ 's') (h2 : c ≠ 'e') (h3 : c ≠ 'k') : p4At (c :: cs) = none := by
  unfold p4At
  rw [show ("split".toList.isPrefixOf (c :: cs)) = false from isPrefixOf_cons_false h1,
      show ("extract".toList.isPrefixOf (c :: cs)) = false from isPrefixOf_cons_false h2,
      show ("keep".toList.isPrefixOf (c :: cs)) = false from isPrefixOf_cons_false h3]
  rfl

theorem rotNumAt_none_of_head {c : Char} (cs : List Char)
    (h1 : c ≠ '-') (h2 : c.isDigit = false) : rotNumAt (c :: cs) = none := by
  simp only [rotNumAt]
  rw [if_neg h1]
  have : (c :: cs).takeWhile Char.isDigit = [] := by
    simp [List.takeWhile_cons, h2]
  rw [this]
  rfl

end Clarify

namespace Clarify

theorem p3Search_none {s : List Char}
    (h : ∀ c ∈ s, c ≠ 's' ∧ c ≠ 'e' ∧ c ≠ 'k') : p3Search s = false := by
  induction s with
  | nil => rfl
  | cons c cs ih =>
    obtain ⟨h1, h2, h3⟩ := h c (by simp)
    simp only [p3Search]
    rw [p3At_false_of_head cs h1 h2 h3, ih fun x hx => h x (by simp [hx])]
    rfl

theorem p4Search_none {s : List Char}
    (h : ∀ c ∈ s, c ≠ 's' ∧ c ≠ 'e' ∧ c ≠ 'k') : p4Search s = none := by
  induction s with
  | nil => rfl
  | cons c cs ih =>
    obtain ⟨h1, h2, h3⟩ := h c (by simp)
    simp only [p4Search]
    rw [p4At_none_of_head cs h1 h2 h3, ih fun x hx => h x (by simp [hx])]
    rfl

theorem mbSearch_none {s : List Char} (h : ∀ c ∈ s, c ≠ 'c') :
    mbSearch s = none := by
  induction s with
  | nil => rfl
  | cons c cs ih =>
    rw [mbSearch_cons_skip cs (h c (by simp))]
    exact ih fun x hx => h x (by simp [hx])

theorem pctSearch_none {s : List Char} (h : ∀ c ∈ s, c ≠ 'c') :
    MainApp.pctSearch s = none := by
  induction s with
  | nil => rfl
  | cons c cs ih =>
    rw [pctSearch_cons_skip cs (h c (by simp))]
    exact ih fun x hx => h x (by simp [hx])

theorem rotNumSearch_cons_skip {c : Char} (cs : List Char)
    (h1 : c ≠ '-') (h2 : c.isDigit = false) :
    rotNumSearch (c :: cs) = rotNumSearch cs := by
  simp only [rotNumSearch]
  rw [rotNumAt_none_of_head cs h1 h2]
  simp

/-- All the keyword flags coincide on token lists that only differ in
digit-carrying words and whitespace gap shapes. -/
theorem mkFlags_congr {toks toks' : List Tok} (hrel : TokRel toks toks') :
    mkFlags toks = mkFlags toks' := by
  unfold mkFlags
  congr 1 <;> exact searchAlts_congr (by decide) hrel

theorem mapSearch_congr {checks : List (List Phrase)}
    (hc : checks.all alphaAlts = true) {toks toks' : List Tok}
    (hrel : TokRel toks toks') :
    (checks.map fun a => searchAlts a toks) = checks.map fun a => searchAlts a toks' := by
  induction checks with
  | nil => rfl
  | cons a rest ih =>
    rw [List.all_cons, Bool.and_eq_true] at hc
    simp only [List.map_cons]
    rw [searchAlts_congr hc.1 hrel, ih hc.2]

theorem famCount_congr {t t' : List Char}
    (hrel : TokRel (tokenize (lowerL t)) (tokenize (lowerL t'))) :
    famCount t = famCount t' := by
  unfold famCount
  rw [mapSearch_congr (by decide) hrel]

end Clarify

namespace Clarify

/-- The Pattern 1-5 tail of `clarify_intent` for a prompt that the earlier
stages leave unchanged (`prompt_for_match = prompt_compact = p`). -/
def patternsTail (p : List Char) (files : List (List Char)) : CMOut × ℕ :=
  match mbSearch (lowerL p), files with
  | some n, f :: _ => (.ok (.compress_to_target f n), 0)
  | _, _ =>
  if !files.isEmpty && (MainApp.pctSearch (lowerL p)).isSome then (.otherPath 10, 0)
  else if !files.isEmpty && searchAlts
      [[.lit "split".toList, .someGap, .lit "pages".toList],
       [.lit "split".toList, .someGap, .lit "page".toList],
       [.lit "split".toList, .someGap, .lit "all".toList, .someGap, .lit "pages".toList],
       [.lit "split".toList, .someGap, .lit "all".toList, .someGap, .lit "page".toList]]
      (tokenize (lowerL p)) then
    (.otherPath 11, 0)
  else if p3Search (lowerL p) && !files.isEmpty then
    (.ok (.split_pages (files.headD []) [1]), 0)
  else
  match p4Search (lowerL p), files with
  | some n, f :: _ => (.ok (.split_pages f (List.range' 1 n)), 0)
  | _, _ =>
  let rotateWord := searchAlts (w1 ["rotate", "rotat", "turn", "flip", "straight"])
    (tokenize (lowerL p))
  if !files.isEmpty && (rotateWord || fullSignedDigits p) then
    let f := files.headD []
    let degrees : ℤ :=
      if searchAlts (w1 ["left", "anti", "anticlock", "counter"]) (tokenize (lowerL p)) then 270
      else if searchAlts (w1 ["right", "clockwise"]) (tokenize (lowerL p)) then 90
      else if searchAlts (w1 ["flip"]) (tokenize (lowerL p)) then 180
      else
        match rotNumSearch (lowerL p) with
        | some raw => rotSnap raw
        | none => 90
    (.ok (.rotate f degrees), 0)
  else if searchAlts (w1 ["compress"]) (tokenize (lowerL p)) && !files.isEmpty then
    (.ok (.compress_preset (files.headD []) (infer_compress_preset p)), 0)
  else (.otherPath 12, 1)

/-- A prompt fixed by typo repair and normalization, already lowercase and
stripped, that triggers neither the unsupported check, the guard section,
the rewrite/auto-order/format shortcuts nor the single-op heuristics,
flows to the Pattern 1-5 tail unchanged. -/
theorem clarify_model_to_patterns
    (p : List Char) (files : List (List Char))
    (hfix : fix_common_connector_typos p = p)
    (hnorm : normHeur p = p)
    (hlow : lowerL p = p)
    (hstrip : LocalNormalizer.stripWs p = p)
    (huns : unsupported_request p = false)
    (hguard : guardFires (mkFlags (tokenize p)) (mkFileCtx files) = false)
    (hconv : convertShortcutFires (tokenize p) (mkFileCtx files) = false)
    (hcls : (split_clauses_no_order p).length < 2)
    (hfam : famCount (normHeur (insert_missing_and (fix_common_connector_typos p))) < 2)
    (hfmt : fmtImgSet.contains p = false)
    (hdocx : p ≠ "docx".toList) (hword : p ≠ "word".toList)
    (htxt : p ≠ "txt".toList) (hocr : p ≠ "ocr".toList)
    (hlooks : looksMulti p = false)
    (hmg : (decide (2 ≤ files.length) && searchAlts mergeKwAlts (tokenize p)) = false)
    (hdel : searchAlts (w1 ["delete", "remove"]) (tokenize p) = false)
    (hreo : searchAlts (w1 ["reorder", "swap", "reverse"]) (tokenize p) = false)
    (hwat : searchAlts watermarkKwAlts (tokenize p) = false)
    (hpn : searchAlts [ph2 "page" "numbers", ph2 "page" "number",
        ph2 "number" "pages"] (tokenize p) = false)
    (hstf : searchAlts [ph3 "split" "to" "files",
        [.lit "separate".toList, .someGap, .lit "pdfs".toList],
        [.lit "each".toList, .someGap, .lit "page".toList]] (tokenize p) = false) :
    clarify_model p files [] = patternsTail p files := by
  unfold clarify_model
  simp only [hfix, hnorm, hlow, hstrip, huns,
    show lowerL [] = [] from rfl,
    show containsSeq "degree".toList [] = false from rfl,
    Bool.and_false, Bool.false_and, Bool.and_true, Bool.true_and,
    Bool.false_eq_true, if_false, hguard, hconv,
    Bool.or_false, Bool.false_or]
  rw [if_neg (show ¬(2 ≤ (split_clauses_no_order p).length) from by omega)]
  have hfam2 : famCount (normHeur (insert_missing_and p)) < 2 := by
    rw [← hfix]; exact hfam
  rw [if_neg (show ¬((!hasOrderWords p
      && decide (2 ≤ famCount (normHeur (insert_missing_and p)))) = true) from by
    intro hc
    rw [Bool.and_eq_true] at hc
    have := of_decide_eq_true hc.2
    omega)]
  simp only [hfmt, Bool.and_false, Bool.false_eq_true, if_false,
    show (decide (p = "docx".toList)) = false from decide_eq_false hdocx,
    show (decide (p = "word".toList)) = false from decide_eq_false hword,
    show (decide (p = "txt".toList)) = false from decide_eq_false htxt,
    show (decide (p = "ocr".toList)) = false from decide_eq_false hocr,
    Bool.or_false, hlooks, Bool.not_false, Bool.true_and, hmg, hdel, hreo, hwat,
    hpn, hstf, Bool.and_false, Bool.false_eq_true, if_false, Bool.not_true,
    Bool.false_and]
  unfold patternsTail
  simp only [hlow]

end Clarify

namespace Clarify

theorem allAlpha_false_of_head_digit {c : Char} {cs : List Char}
    (h : c.isDigit = true) : allAlpha (c :: cs) = false := by
  simp [allAlpha, List.all_cons, not_isAlpha_of_isDigit h]

theorem takeWhile_all {p : Char → Bool} {l : List Char}
    (h : ∀ c ∈ l, p c = true) : l.takeWhile p = l := by
  induction l with
  | nil => rfl
  | cons c cs ih =>
    simp [List.takeWhile_cons, h c (by simp), ih fun x hx => h x (by simp [hx])]

theorem contains_false_of_forall {l : List (List Char)} {x : List Char}
    (h : ∀ y ∈ l, ¬(x = y)) : l.contains x = false := by
  induction l with
  | nil => rfl
  | cons y t ih =>
    simp only [List.contains_cons]
    rw [show (x == y) = false from by
      cases hbe : x == y
      · rfl
      · exact absurd (by simpa using hbe) (h y (by simp))]
    simp only [Bool.false_or]
    exact ih fun z hz => h z (by simp [hz])

theorem countTrue_zero_of_taint {checks : List (List Phrase)}
    (hc : checks.all alphaAlts = true) {toks : List Tok}
    (ht : ∀ w, Tok.word w ∈ toks → allAlpha w = false) :
    ((checks.map fun a => searchAlts a toks).filter id).length = 0 := by
  induction checks with
  | nil => rfl
  | cons a rest ih =>
    rw [List.all_cons, Bool.and_eq_true] at hc
    simp only [List.map_cons, List.filter_cons]
    rw [searchAlts_false_of_all_taint hc.1 ht]
    simpa using ih hc.2

/-- `unsupported_request` needs an alphabetic keyword: it is false whenever
every word token of the prompt carries a non-letter. -/
theorem unsupported_false_of_taint {pfm : List Char} (hl : lowerL pfm = pfm)
    (ht : ∀ w, Tok.word w ∈ tokenize pfm → allAlpha w = false) :
    unsupported_request pfm = false := by
  unfold unsupported_request
  simp only []
  rw [hl]
  rw [@searchAlts_false_of_all_taint (w1 ["convert", "change", "export"])
      (by decide) _ ht,
    @searchAlts_false_of_all_taint (w1 ["password", "encrypt", "decrypt",
      "unlock", "protect"]) (by decide) _ ht,
    @searchAlts_false_of_all_taint (w1 ["sign", "signature", "esign"]
      ++ [[Piece.lit "e".toList, Piece.gapLit "-".toList, Piece.lit "sign".toList]])
      (by decide) _ ht,
    @searchAlts_false_of_all_taint (w1 ["edit", "annotate", "highlight"])
      (by decide) _ ht]
  rfl

end Clarify

namespace Clarify

/-- On a bare optionally-signed number with one uploaded file, the pattern
tail reaches Pattern 4.5 and emits a rotate intent with the snapped
degrees. -/
theorem patternsTail_signed (p : List Char) (v : ℤ)
    (hlow : lowerL p = p)
    (hnc : ∀ c ∈ p, c ≠ 'c')
    (hsek : ∀ c ∈ p, c ≠ 's' ∧ c ≠ 'e' ∧ c ≠ 'k')
    (ht : ∀ w, Tok.word w ∈ tokenize p → allAlpha w = false)
    (hfull : fullSignedDigits p = true)
    (hrot : rotNumSearch p = some v) :
    patternsTail p ["doc.pdf".toList] = (.ok (.rotate "doc.pdf".toList (rotSnap v)), 0) := by
  unfold patternsTail
  rw [hlow, mbSearch_none hnc]
  simp only []
  rw [pctSearch_none hnc]
  simp only [Option.isSome_none, Bool.and_false, Bool.false_eq_true, if_false]
  rw [searchAlts_false_of_all_taint (by decide) ht]
  simp only [Bool.and_false, Bool.false_eq_true, if_false]
  rw [p3Search_none hsek]
  simp only [Bool.false_and, Bool.false_eq_true, if_false]
  rw [p4Search_none hsek]
  simp only []
  rw [@searchAlts_false_of_all_taint
      (w1 ["rotate", "rotat", "turn", "flip", "straight"]) (by decide) _ ht,
    hfull]
  simp only [Bool.false_or, Bool.and_true, Bool.and_self]
  rw [if_pos (by rfl),
    @searchAlts_false_of_all_taint (w1 ["left", "anti", "anticlock", "counter"])
      (by decide) _ ht,
    @searchAlts_false_of_all_taint (w1 ["right", "clockwise"]) (by decide) _ ht,
    @searchAlts_false_of_all_taint (w1 ["flip"]) (by decide) _ ht,
    hrot]
  simp

end Clarify

namespace Clarify

/-- The resolver on a bare (unsigned) digit string with one uploaded PDF:
a rotate intent with snapped degrees. -/
theorem clarify_model_digits (ds : List Char) (hne : ds ≠ [])
    (hd : ∀ c ∈ ds, c.isDigit = true) :
    clarify_model ds ["doc.pdf".toList] []
      = (.ok (.rotate "doc.pdf".toList (rotSnap (digitsVal ds))), 0) := by
  obtain ⟨c, cs, rfl⟩ : ∃ c cs, ds = c :: cs := by
    cases ds with
    | nil => exact absurd rfl hne
    | cons c cs => exact ⟨c, cs, rfl⟩
  have hdc : c.isDigit = true := hd c (by simp)
  have htoks : tokenize (c :: cs) = [.word (c :: cs)] :=
    tokenize_all_word (by simp) fun x hx => isWordChar_of_isDigit (hd x hx)
  have ht : ∀ w, Tok.word w ∈ tokenize (c :: cs) → allAlpha w = false := by
    intro w hw
    rw [htoks] at hw
    simp at hw
    rw [hw]
    exact allAlpha_false_of_head_digit hdc
  have hlow : lowerL (c :: cs) = c :: cs := lowerL_digits hd
  have happly : applyTypoRules connectorTypoRules (c :: cs) = c :: cs :=
    applyTypoRules_id_of_keys (by decide)
      (by rw [hlow]; exact allAlpha_false_of_head_digit hdc)
  have hfix : fix_common_connector_typos (c :: cs) = c :: cs := by
    refine fixTypos_id ?_
    intro w hw
    rw [htoks] at hw
    simp at hw
    rw [hw]
    exact happly
  have hnorm : normHeur (c :: cs) = c :: cs := by
    have := @normHeur_digits_pre (c :: cs) [] hd
    rw [show normHeur ([] : List Char) = [] from rfl] at this
    simpa using this
  have hstrip : LocalNormalizer.stripWs (c :: cs) = c :: cs := by
    refine stripWs_eq_self ?_ ?_
    · intro x hx
      simp at hx
      exact hx ▸ isWs_false_of_isDigit hdc
    · intro x hx
      exact isWs_false_of_isDigit (hd x (mem_of_getLast_opt hx))
  have huns : unsupported_request (c :: cs) = false := unsupported_false_of_taint hlow ht
  have hrel : TokRel (tokenize (c :: cs)) (tokenize "7".toList) := by
    rw [htoks]
    exact List.Forall₂.cons
      (TokRelOne.word_taint _ _ (allAlpha_false_of_head_digit hdc) (by decide))
      List.Forall₂.nil
  have hguard : guardFires (mkFlags (tokenize (c :: cs)))
      (mkFileCtx ["doc.pdf".toList]) = false := by
    rw [mkFlags_congr hrel]
    decide
  have hconv : convertShortcutFires (tokenize (c :: cs))
      (mkFileCtx ["doc.pdf".toList]) = false := by
    unfold convertShortcutFires
    simp only []
    rw [@searchAlts_false_of_all_taint (w1 ["convert", "change"]) (by decide) _ ht]
    simp
  have hinsert : insert_missing_and (c :: cs) = c :: cs := by
    unfold insert_missing_and insertAndToks
    rw [htoks]
    simp [insertAndToksF, flattenToks]
  have hsq : squeezeWs (c :: cs) = c :: cs := by
    have := @squeezeWs_digits_pre (c :: cs) [] hd
    rw [show squeezeWs ([] : List Char) = [] from rfl] at this
    simpa using this
  have hand : splitAndToks [Tok.word (c :: cs)] = [[Tok.word (c :: cs)]] := by
    refine splitAndToks_no_and ?_
    intro w hw
    simp at hw
    rw [hw]
    rw [hlow]
    intro he
    injection he with h1 _
    exact absurd h1 (ne_of_isDigit_of_not hdc (by decide))
  have hpunct : stripPunct (c :: cs) = c :: cs := by
    refine stripPunct_eq_self ?_ ?_
    · intro x hx
      simp at hx
      exact hx ▸ isPunctSp_false_of_isDigit hdc
    · intro x hx
      exact isPunctSp_false_of_isDigit (hd x (mem_of_getLast_opt hx))
  have hcls : split_clauses_no_order (c :: cs) = [c :: cs] := by
    unfold split_clauses_no_order
    rw [hfix, hinsert]
    unfold squeezeStrip
    rw [hsq, hstrip]
    rw [if_neg (by simp)]
    rw [if_neg (by
      unfold hasOrderWords
      rw [hlow, searchAlts_false_of_all_taint (by decide) ht]
      simp)]
    rw [splitCommaRaw_no_comma
      (fun x hx => ne_of_isDigit_of_not (hd x hx) (by decide))]
    simp only [List.map_cons, List.map_nil, hstrip, List.filter]
    rw [show ((c :: cs).isEmpty = false) from rfl]
    simp only [List.flatMap, Bool.not_false, List.filter_cons, List.filter_nil]
    have hsplitstr : splitAndStr (c :: cs) = [c :: cs] := by
      unfold splitAndStr
      rw [htoks, hand]
      simp [flattenToks]
    simp [hsplitstr, hpunct, List.take]
  have hfam : famCount (normHeur (insert_missing_and
      (fix_common_connector_typos (c :: cs)))) < 2 := by
    rw [hfix, hinsert, hnorm]
    unfold famCount
    rw [hlow, countTrue_zero_of_taint (by decide) ht]
    omega
  have hne' : ∀ (lit : List Char) (d : Char) (r : List Char), lit = d :: r →
      d.isDigit = false → ¬(c :: cs = lit) := by
    intro lit d r hlit hd2 he
    rw [hlit] at he
    injection he with h1 _
    exact absurd h1 (ne_of_isDigit_of_not hdc hd2)
  have hfmt : fmtImgSet.contains (c :: cs) = false := by
    refine contains_false_of_forall ?_
    intro y hy
    simp only [fmtImgSet, List.map_cons, List.map_nil, List.mem_cons,
      List.not_mem_nil, or_false] at hy
    rcases hy with rfl | rfl | rfl | rfl | rfl | rfl | rfl <;>
      exact hne' _ _ _ rfl (by decide)
  have hlooks : looksMulti (c :: cs) = false := by
    unfold looksMulti
    rw [hnorm, hlow]
    simp only []
    rw [@searchAlts_false_of_all_taint (orderWordAlts) (by decide) _ ht,
        countTrue_zero_of_taint (by decide) ht]
    rfl
  have hfull : fullSignedDigits (c :: cs) = true := by
    simp only [fullSignedDigits]
    rw [if_neg (ne_of_isDigit_of_not hdc (by decide) : c ≠ '-')]
    exact List.all_eq_true.mpr hd
  have hrot : rotNumSearch (c :: cs) = some ((digitsVal (c :: cs) : ℤ)) := by
    simp only [rotNumSearch, rotNumAt]
    rw [if_neg (ne_of_isDigit_of_not hdc (by decide) : c ≠ '-')]
    rw [takeWhile_all hd]
    rw [show ((c :: cs).isEmpty = false) from rfl]
    simp only [Bool.false_eq_true, if_false]
    rw [List.drop_length]
    rw [show rotNumTail [] = true from rfl]
    simp
  rw [clarify_model_to_patterns (c :: cs) ["doc.pdf".toList] hfix hnorm hlow hstrip
    huns hguard hconv (by rw [hcls]; simp) hfam hfmt
    (hne' _ _ _ rfl (by decide)) (hne' _ _ _ rfl (by decide))
    (hne' _ _ _ rfl (by decide)) (hne' _ _ _ rfl (by decide)) hlooks
    (by rw [searchAlts_false_of_all_taint (by decide) ht]; simp)
    (searchAlts_false_of_all_taint (by decide) ht)
    (searchAlts_false_of_all_taint (by decide) ht)
    (searchAlts_false_of_all_taint (by decide) ht)
    (searchAlts_false_of_all_taint (by decide) ht)
    (searchAlts_false_of_all_taint (by decide) ht)]
  exact patternsTail_signed _ _ hlow
    (fun x hx => ne_of_isDigit_of_not (hd x hx) (by decide))
    (fun x hx => ⟨ne_of_isDigit_of_not (hd x hx) (by decide),
      ne_of_isDigit_of_not (hd x hx) (by decide),
      ne_of_isDigit_of_not (hd x hx) (by decide)⟩)
    ht hfull hrot

end Clarify

namespace Clarify

/-- The resolver on a bare negative number (`-` followed by digits) with
one uploaded PDF: a rotate intent with snapped degrees. -/
theorem clarify_model_neg_digits (ds : List Char) (hne : ds ≠ [])
    (hd : ∀ c ∈ ds, c.isDigit = true) :
    clarify_model ('-' :: ds) ["doc.pdf".toList] []
      = (.ok (.rotate "doc.pdf".toList (rotSnap (-(digitsVal ds : ℤ)))), 0) := by
  have htoksd : tokenize ds = [.word ds] :=
    tokenize_all_word hne fun x hx => isWordChar_of_isDigit (hd x hx)
  have hdsc : ∃ e es, ds = e :: es := by
    cases ds with
    | nil => exact absurd rfl hne
    | cons e es => exact ⟨e, es, rfl⟩
  obtain ⟨e, es, rfl⟩ := hdsc
  have hde : e.isDigit = true := hd e (by simp)
  have htoks : tokenize ('-' :: e :: es) = [.gap ['-'], .word (e :: es)] := by
    rw [tokenize_cons_eq, htoksd]
    rfl
  have ht : ∀ w, Tok.word w ∈ tokenize ('-' :: e :: es) → allAlpha w = false := by
    intro w hw
    rw [htoks] at hw
    simp at hw
    rw [hw]
    exact allAlpha_false_of_head_digit hde
  have hlowd : lowerL (e :: es) = e :: es := lowerL_digits hd
  have hlow : lowerL ('-' :: e :: es) = '-' :: e :: es := by
    show '-'.toLower :: lowerL (e :: es) = _
    rw [hlowd]
    rfl
  have happly : applyTypoRules connectorTypoRules (e :: es) = e :: es :=
    applyTypoRules_id_of_keys (by decide)
      (by rw [hlowd]; exact allAlpha_false_of_head_digit hde)
  have hfix : fix_common_connector_typos ('-' :: e :: es) = '-' :: e :: es := by
    refine fixTypos_id ?_
    intro w hw
    rw [htoks] at hw
    simp at hw
    rw [hw]
    exact happly
  have hnorm : normHeur ('-' :: e :: es) = '-' :: e :: es := by
    rw [normHeur_nonalpha_cons _ (by decide)]
    have := @normHeur_digits_pre (e :: es) [] hd
    rw [show normHeur ([] : List Char) = [] from rfl] at this
    simp at this
    rw [this]
  have hstrip : LocalNormalizer.stripWs ('-' :: e :: es) = '-' :: e :: es := by
    refine stripWs_eq_self ?_ ?_
    · intro x hx
      simp at hx
      rw [← hx]
      decide
    · intro x hx
      have := mem_of_getLast_opt hx
      simp at this
      rcases this with rfl | rfl | hm
      · decide
      · exact isWs_false_of_isDigit hde
      · exact isWs_false_of_isDigit (hd x (by simp [hm]))
  have huns : unsupported_request ('-' :: e :: es) = false :=
    unsupported_false_of_taint hlow ht
  have hrel : TokRel (tokenize ('-' :: e :: es)) (tokenize "-7".toList) := by
    rw [htoks]
    exact List.Forall₂.cons (TokRelOne.gap_eq _)
      (List.Forall₂.cons
        (TokRelOne.word_taint _ _ (allAlpha_false_of_head_digit hde) (by decide))
        List.Forall₂.nil)
  have hguard : guardFires (mkFlags (tokenize ('-' :: e :: es)))
      (mkFileCtx ["doc.pdf".toList]) = false := by
    rw [mkFlags_congr hrel]
    decide
  have hconv : convertShortcutFires (tokenize ('-' :: e :: es))
      (mkFileCtx ["doc.pdf".toList]) = false := by
    unfold convertShortcutFires
    simp only []
    rw [@searchAlts_false_of_all_taint (w1 ["convert", "change"]) (by decide) _ ht]
    simp
  have hinsert : insert_missing_and ('-' :: e :: es) = '-' :: e :: es := by
    unfold insert_missing_and insertAndToks
    rw [htoks]
    simp [insertAndToksF, flattenToks]
  have hsq : squeezeWs ('-' :: e :: es) = '-' :: e :: es := by
    rw [squeezeWs_nonws_cons _ (by decide)]
    have := @squeezeWs_digits_pre (e :: es) [] hd
    rw [show squeezeWs ([] : List Char) = [] from rfl] at this
    simp at this
    rw [this]
  have hand : splitAndToks [Tok.gap ['-'], Tok.word (e :: es)]
      = [[Tok.gap ['-'], Tok.word (e :: es)]] := by
    refine splitAndToks_no_and ?_
    intro w hw
    simp at hw
    rw [hw, hlowd]
    intro he
    injection he with h1 _
    exact absurd h1 (ne_of_isDigit_of_not hde (by decide))
  have hpunct : stripPunct ('-' :: e :: es) = '-' :: e :: es := by
    refine stripPunct_eq_self ?_ ?_
    · intro x hx
      simp at hx
      rw [← hx]
      decide
    · intro x hx
      have := mem_of_getLast_opt hx
      simp at this
      rcases this with rfl | rfl | hm
      · decide
      · exact isPunctSp_false_of_isDigit hde
      · exact isPunctSp_false_of_isDigit (hd x (by simp [hm]))
  have hcls : split_clauses_no_order ('-' :: e :: es) = ['-' :: e :: es] := by
    unfold split_clauses_no_order
    rw [hfix, hinsert]
    unfold squeezeStrip
    rw [hsq, hstrip]
    rw [if_neg (by simp)]
    rw [if_neg (by
      unfold hasOrderWords
      rw [hlow, searchAlts_false_of_all_taint (by decide) ht]
      simp)]
    rw [splitCommaRaw_no_comma (by
      intro x hx
      simp at hx
      rcases hx with rfl | rfl | hm
      · decide
      · exact ne_of_isDigit_of_not hde (by decide)
      · exact ne_of_isDigit_of_not (hd x (by simp [hm])) (by decide))]
    simp only [List.map_cons, List.map_nil, hstrip, List.filter]
    rw [show (('-' :: e :: es).isEmpty = false) from rfl]
    have hsplitstr : splitAndStr ('-' :: e :: es) = ['-' :: e :: es] := by
      unfold splitAndStr
      rw [htoks, hand]
      simp [flattenToks]
    simp [hsplitstr, hpunct, List.take]
  have hfam : famCount (normHeur (insert_missing_and
      (fix_common_connector_typos ('-' :: e :: es)))) < 2 := by
    rw [hfix, hinsert, hnorm]
    unfold famCount
    rw [hlow, countTrue_zero_of_taint (by decide) ht]
    omega
  have hne' : ∀ (lit : List Char) (d : Char) (r : List Char), lit = d :: r →
      ¬('-' = d) → ¬('-' :: e :: es = lit) := by
    intro lit d r hlit hd2 he
    rw [hlit] at he
    injection he with h1 _
    exact absurd h1 hd2
  have hfmt : fmtImgSet.contains ('-' :: e :: es) = false := by
    refine contains_false_of_forall ?_
    intro y hy
    simp only [fmtImgSet, List.map_cons, List.map_nil, List.mem_cons,
      List.not_mem_nil, or_false] at hy
    rcases hy with rfl | rfl | rfl | rfl | rfl | rfl | rfl <;>
      exact hne' _ _ _ rfl (by decide)
  have hlooks : looksMulti ('-' :: e :: es) = false := by
    unfold looksMulti
    rw [hnorm, hlow]
    simp only []
    rw [@searchAlts_false_of_all_taint (orderWordAlts) (by decide) _ ht,
        countTrue_zero_of_taint (by decide) ht]
    rfl
  have hfull : fullSignedDigits ('-' :: e :: es) = true := by
    simp only [fullSignedDigits]
    rw [if_pos trivial]
    simp [List.all_eq_true.mpr hd]
  have hrot : rotNumSearch ('-' :: e :: es) = some (-(digitsVal (e :: es) : ℤ)) := by
    simp only [rotNumSearch, rotNumAt]
    rw [if_pos trivial]
    rw [takeWhile_all hd]
    rw [show ((e :: es).isEmpty = false) from rfl]
    simp only [Bool.false_eq_true, if_false]
    rw [List.drop_length]
    rw [show rotNumTail [] = true from rfl]
    simp
  rw [clarify_model_to_patterns ('-' :: e :: es) ["doc.pdf".toList] hfix hnorm hlow
    hstrip huns hguard hconv (by rw [hcls]; simp) hfam hfmt
    (hne' _ _ _ rfl (by decide)) (hne' _ _ _ rfl (by decide))
    (hne' _ _ _ rfl (by decide)) (hne' _ _ _ rfl (by decide)) hlooks
    (by rw [searchAlts_false_of_all_taint (by decide) ht]; simp)
    (searchAlts_false_of_all_taint (by decide) ht)
    (searchAlts_false_of_all_taint (by decide) ht)
    (searchAlts_false_of_all_taint (by decide) ht)
    (searchAlts_false_of_all_taint (by decide) ht)
    (searchAlts_false_of_all_taint (by decide) ht)]
  refine patternsTail_signed _ _ hlow ?_ ?_ ht hfull hrot
  · intro x hx
    simp at hx
    rcases hx with rfl | rfl | hm
    · decide
    · exact ne_of_isDigit_of_not hde (by decide)
    · exact ne_of_isDigit_of_not (hd x (by simp [hm])) (by decide)
  · intro x hx
    simp at hx
    rcases hx with rfl | rfl | hm
    · refine ⟨by decide, by decide, by decide⟩
    · exact ⟨ne_of_isDigit_of_not hde (by decide),
        ne_of_isDigit_of_not hde (by decide), ne_of_isDigit_of_not hde (by decide)⟩
    · exact ⟨ne_of_isDigit_of_not (hd x (by simp [hm])) (by decide),
        ne_of_isDigit_of_not (hd x (by simp [hm])) (by decide),
        ne_of_isDigit_of_not (hd x (by simp [hm])) (by decide)⟩

end Clarify

theorem rotSnap_cases (raw : ℤ) :
    Clarify.rotSnap raw = 90 ∨ Clarify.rotSnap raw = 180 ∨ Clarify.rotSnap raw = 270 := by
  unfold Clarify.rotSnap
  simp only []
  split_ifs <;> simp

/-- C10: an instruction whose entire text is an optionally-signed integer,
with one uploaded PDF and an empty last-question hint, produces a rotate
intent on the first uploaded file with the snapped degrees (always one of
90, 180, 270) and no clarification question — no rotation keyword and no
pending question are needed. -/
theorem C10_bare_number_rotates (D : ℤ) :
    Clarify.clarify_model (Clarify.intToDigits D) ["doc.pdf".toList] []
      = (.ok (.rotate "doc.pdf".toList (Clarify.rotSnap D)), 0)
    ∧ (Clarify.rotSnap D = 90 ∨ Clarify.rotSnap D = 180 ∨ Clarify.rotSnap D = 270) := by
  constructor
  · unfold Clarify.intToDigits
    by_cases hD : D < 0
    · rw [if_pos hD]
      rw [Clarify.clarify_model_neg_digits (natToDigits D.natAbs)
        (natToDigits_ne_nil _) (natToDigits_all_digit _)]
      have hval : -((digitsVal (natToDigits D.natAbs) : ℕ) : ℤ) = D := by
        rw [digitsVal_natToDigits]
        omega
      rw [hval]
    · rw [if_neg hD]
      rw [Clarify.clarify_model_digits (natToDigits D.toNat)
        (natToDigits_ne_nil _) (natToDigits_all_digit _)]
      have hval : ((digitsVal (natToDigits D.toNat) : ℕ) : ℤ) = D := by
        rw [digitsVal_natToDigits]
        omega
      rw [hval]
  · exact rotSnap_cases D

namespace Clarify

theorem mbSearch_seg_skip {w : List Char} (r : List Char)
    (h : ∀ c ∈ w, c ≠ 'c') : mbSearch (w ++ r) = mbSearch r := by
  induction w with
  | nil => rfl
  | cons c cs ih =>
    rw [List.cons_append, mbSearch_cons_skip _ (h c (by simp))]
    exact ih fun x hx => h x (by simp [hx])

theorem pctSearch_seg_skip {w : List Char} (r : List Char)
    (h : ∀ c ∈ w, c ≠ 'c') : MainApp.pctSearch (w ++ r) = MainApp.pctSearch r := by
  induction w with
  | nil => rfl
  | cons c cs ih =>
    rw [List.cons_append, pctSearch_cons_skip _ (h c (by simp))]
    exact ih fun x hx => h x (by simp [hx])

theorem p3Search_seg_skip {w : List Char} (r : List Char)
    (h : ∀ c ∈ w, c ≠ 's' ∧ c ≠ 'e' ∧ c ≠ 'k') :
    p3Search (w ++ r) = p3Search r := by
  induction w with
  | nil => rfl
  | cons c cs ih =>
    obtain ⟨h1, h2, h3⟩ := h c (by simp)
    rw [List.cons_append]
    simp only [p3Search]
    rw [p3At_false_of_head _ h1 h2 h3, ih fun x hx => h x (by simp [hx])]
    simp

theorem p4Search_seg_skip {w : List Char} (r : List Char)
    (h : ∀ c ∈ w, c ≠ 's' ∧ c ≠ 'e' ∧ c ≠ 'k') :
    p4Search (w ++ r) = p4Search r := by
  induction w with
  | nil => rfl
  | cons c cs ih =>
    obtain ⟨h1, h2, h3⟩ := h c (by simp)
    rw [List.cons_append]
    simp only [p4Search]
    rw [p4At_none_of_head _ h1 h2 h3, ih fun x hx => h x (by simp [hx])]
    simp

theorem rotNumSearch_seg_skip {w : List Char} (r : List Char)
    (h : ∀ c ∈ w, c ≠ '-' ∧ c.isDigit = false) :
    rotNumSearch (w ++ r) = rotNumSearch r := by
  induction w with
  | nil => rfl
  | cons c cs ih =>
    obtain ⟨h1, h2⟩ := h c (by simp)
    rw [List.cons_append, rotNumSearch_cons_skip _ h1 h2]
    exact ih fun x hx => h x (by simp [hx])

theorem containsSeq_cons_skip {d : Char} {pr : List Char} {c : Char} (cs : List Char)
    (h : c ≠ d) : containsSeq (d :: pr) (c :: cs) = containsSeq (d :: pr) cs := by
  simp only [containsSeq]
  rw [isPrefixOf_cons_false h]
  simp

theorem containsSeq_seg_skip {d : Char} {pr : List Char} {w : List Char} (r : List Char)
    (h : ∀ c ∈ w, c ≠ d) : containsSeq (d :: pr) (w ++ r) = containsSeq (d :: pr) r := by
  induction w with
  | nil => rfl
  | cons c cs ih =>
    rw [List.cons_append, containsSeq_cons_skip _ (h c (by simp))]
    exact ih fun x hx => h x (by simp [hx])

theorem squeezeWs_word_pre {w : List Char} (r : List Char)
    (hw : ∀ c ∈ w, isWs c = false) : squeezeWs (w ++ r) = w ++ squeezeWs r := by
  induction w with
  | nil => rfl
  | cons c cs ih =>
    rw [List.cons_append, squeezeWs_nonws_cons _ (hw c (by simp)),
      ih fun x hx => hw x (by simp [hx])]
    rfl

theorem contains_false_of_digit_vs_heads {l : List (List Char)} {c : Char}
    {cs : List Char} (hc : c.isDigit = true)
    (hl : (l.all fun y =>
      match y.head? with
      | some d => !d.isDigit
      | none => false) = true) :
    l.contains (c :: cs) = false := by
  refine contains_false_of_forall ?_
  intro y hy he
  have := List.all_eq_true.mp hl y hy
  rw [← he] at this
  simp at this
  rw [this] at hc
  exact Bool.false_ne_true hc

/-- `unsupported_request` is decided by the keyword flags alone once the
conversion and edit groups fail on a digit-transparent representative. -/
theorem unsupported_false_of_rel {a b : List Char} (hla : lowerL a = a)
    (hrel : TokRel (tokenize a) (tokenize b))
    (h1 : searchAlts (w1 ["convert", "change", "export"]) (tokenize b) = false)
    (h2 : searchAlts (w1 ["password", "encrypt", "decrypt", "unlock", "protect"])
      (tokenize b) = false)
    (h3 : searchAlts (w1 ["sign", "signature", "esign"]
      ++ [[Piece.lit "e".toList, Piece.gapLit "-".toList, Piece.lit "sign".toList]])
      (tokenize b) = false)
    (h4 : searchAlts (w1 ["edit", "annotate", "highlight"]) (tokenize b) = false) :
    unsupported_request a = false := by
  unfold unsupported_request
  simp only []
  rw [hla]
  rw [searchAlts_congr (by decide) hrel, h1]
  simp only [Bool.false_and, Bool.false_or]
  rw [searchAlts_congr (by decide) hrel, h2]
  simp only [Bool.false_or]
  rw [searchAlts_congr (by decide) hrel, h3]
  simp only [Bool.false_or]
  rw [searchAlts_congr (by decide) hrel, h4]
  simp

end Clarify

namespace Clarify

theorem getLast_opt_append {b : List Char} (a : List Char) (hb : b ≠ []) :
    (a ++ b).getLast? = b.getLast? := by
  induction a with
  | nil => rfl
  | cons c as ih =>
    rw [List.cons_append]
    cases has : as ++ b with
    | nil =>
      rcases List.append_eq_nil.mp has with ⟨_, h2⟩
      exact absurd h2 hb
    | cons y ys =>
      rw [List.getLast?_cons_cons, ← has]
      exact ih

/-- A five-token word/gap/word/gap/word list is untouched by the
missing-`and` insertion when neither adjacent word pair is an
operation-word pair. -/
theorem insertAndToks_id5 (w1 g1 w2 g2 w3 : List Char)
    (h12 : (insertAndOps.contains (lowerL w1) && pureWs g1
      && insertAndOps.contains (lowerL w2)) = false)
    (h23 : (insertAndOps.contains (lowerL w2) && pureWs g2
      && insertAndOps.contains (lowerL w3)) = false) :
    insertAndToks [Tok.word w1, Tok.gap g1, Tok.word w2, Tok.gap g2, Tok.word w3]
      = [Tok.word w1, Tok.gap g1, Tok.word w2, Tok.gap g2, Tok.word w3] := by
  unfold insertAndToks
  simp only [insertAndToksF, h12, h23]
  simp

end Clarify

namespace Clarify

/-- Pattern 1 fires on `compress to <digits>mb`, capturing the number. -/
theorem mbSearch_compress_to (ds : List Char) (hne : ds ≠ [])
    (hd : ∀ c ∈ ds, c.isDigit = true) :
    mbSearch ("compress to ".toList ++ (ds ++ "mb".toList)) = some (digitsVal ds) := by
  obtain ⟨c, cs, rfl⟩ : ∃ c cs, ds = c :: cs := by
    cases ds with
    | nil => exact absurd rfl hne
    | cons c cs => exact ⟨c, cs, rfl⟩
  have hdc : c.isDigit = true := hd c (by simp)
  show mbSearch ('c' :: 'o' :: 'm' :: 'p' :: 'r' :: 'e' :: 's' :: 's' :: ' ' :: 't'
    :: 'o' :: ' ' :: ((c :: cs) ++ "mb".toList)) = some (digitsVal (c :: cs))
  simp only [mbSearch]
  rw [if_pos (by simp [List.isPrefixOf])]
  have hdrop : ('c' :: 'o' :: 'm' :: 'p' :: 'r' :: 'e' :: 's' :: 's' :: ' ' :: 't'
      :: 'o' :: ' ' :: ((c :: cs) ++ "mb".toList)).drop 8
      = ' ' :: 't' :: 'o' :: ' ' :: ((c :: cs) ++ "mb".toList) := rfl
  rw [hdrop]
  have hnum : mbNum (' ' :: ((c :: cs) ++ "mb".toList)) = some (digitsVal (c :: cs)) := by
    unfold mbNum
    simp only []
    rw [show (' ' :: ((c :: cs) ++ "mb".toList)).dropWhile isWs
        = ((c :: cs) ++ "mb".toList).dropWhile isWs from by
      simp [List.dropWhile_cons, isWs]]
    rw [dropWhile_eq_self_of_head (by
      intro x hx
      simp at hx
      exact hx ▸ isWs_false_of_isDigit hdc)]
    rw [takeWhile_append_all (fun x hx => hd x hx)]
    rw [show "mb".toList.takeWhile Char.isDigit = [] from rfl, List.append_nil]
    rw [show ((c :: cs).isEmpty = false) from rfl]
    simp only [Bool.false_eq_true, if_false]
    rw [List.drop_left]
    rfl
  have htail : mbTail (' ' :: 't' :: 'o' :: ' ' :: ((c :: cs) ++ "mb".toList))
      = some (digitsVal (c :: cs)) := by
    unfold mbTail mbAfter2
    rw [show (" this".toList.isPrefixOf (' ' :: 't' :: 'o' :: ' '
        :: ((c :: cs) ++ "mb".toList))) = false from by simp [List.isPrefixOf]]
    rw [show (" pdf".toList.isPrefixOf (' ' :: 't' :: 'o' :: ' '
        :: ((c :: cs) ++ "mb".toList))) = false from by simp [List.isPrefixOf]]
    rw [show (" to".toList.isPrefixOf (' ' :: 't' :: 'o' :: ' '
        :: ((c :: cs) ++ "mb".toList))) = true from by simp [List.isPrefixOf]]
    simp only [Bool.false_eq_true, if_false, if_true]
    rw [show (' ' :: 't' :: 'o' :: ' ' :: ((c :: cs) ++ "mb".toList)).drop 3
        = ' ' :: ((c :: cs) ++ "mb".toList) from rfl]
    rw [hnum]
    simp
  rw [htail]
  simp

end Clarify

namespace Clarify

theorem allAlpha_lower_digit {c : Char} (l : List Char) (h : c.isDigit = true) :
    allAlpha (lowerL (c :: l)) = false := by
  show allAlpha (c.toLower :: lowerL l) = false
  rw [toLower_of_isDigit h]
  exact allAlpha_false_of_head_digit h

/-- The resolver on `compress to <digits>mb` with one uploaded PDF:
Pattern 1 fires with exactly the written number of megabytes. -/
theorem clarify_model_compress_mb (ds : List Char) (hne : ds ≠ [])
    (hd : ∀ c ∈ ds, c.isDigit = true) :
    clarify_model ("compress to ".toList ++ ds ++ "mb".toList) ["doc.pdf".toList] []
      = (.ok (.compress_to_target "doc.pdf".toList (digitsVal ds)), 0) := by
  obtain ⟨c, cs, rfl⟩ : ∃ c cs, ds = c :: cs := by
    cases ds with
    | nil => exact absurd rfl hne
    | cons c cs => exact ⟨c, cs, rfl⟩
  have hdc : c.isDigit = true := hd c (by simp)
  have hwordb : ∀ x ∈ (c :: cs) ++ "mb".toList, isWordChar x = true := by
    intro x hx
    rcases List.mem_append.mp hx with h | h
    · exact isWordChar_of_isDigit (hd x h)
    · simp at h
      rcases h with rfl | rfl <;> decide
  have htoksb : tokenize ((c :: cs) ++ "mb".toList) = [.word ((c :: cs) ++ "mb".toList)] :=
    tokenize_all_word (by simp) hwordb
  have htoks : tokenize ("compress to ".toList ++ (c :: cs) ++ "mb".toList)
      = [.word "compress".toList, .gap [' '], .word "to".toList, .gap [' '],
         .word ((c :: cs) ++ "mb".toList)] := by
    rw [List.append_assoc]
    rw [tokenize_append_break (by decide) (by simp) (by
      intro x y hx hy
      simp at hx
      have hy2 : c = y := by simpa using hy
      rw [← hx, ← hy2, isWordChar_of_isDigit hdc]
      decide)]
    rw [htoksb]
    rfl
  have htaintw : allAlpha ((c :: cs) ++ "mb".toList) = false := by
    show allAlpha (c :: (cs ++ "mb".toList)) = false
    exact allAlpha_false_of_head_digit hdc
  have hrel : TokRel (tokenize ("compress to ".toList ++ (c :: cs) ++ "mb".toList))
      (tokenize "compress to 1mb".toList) := by
    rw [htoks]
    exact List.Forall₂.cons (TokRelOne.word_eq _)
      (List.Forall₂.cons (TokRelOne.gap_eq _)
        (List.Forall₂.cons (TokRelOne.word_eq _)
          (List.Forall₂.cons (TokRelOne.gap_eq _)
            (List.Forall₂.cons (TokRelOne.word_taint _ _ htaintw (by decide))
              List.Forall₂.nil))))
  have hlowds : lowerL (c :: cs) = c :: cs := lowerL_digits hd
  have hlow : lowerL ("compress to ".toList ++ (c :: cs) ++ "mb".toList)
      = "compress to ".toList ++ (c :: cs) ++ "mb".toList := by
    rw [lowerL_append, lowerL_append, hlowds]
    rfl
  have hlowb : lowerL ((c :: cs) ++ "mb".toList) = (c :: cs) ++ "mb".toList := by
    rw [lowerL_append, hlowds]
    rfl
  have hfix : fix_common_connector_typos ("compress to ".toList ++ (c :: cs) ++ "mb".toList)
      = "compress to ".toList ++ (c :: cs) ++ "mb".toList := by
    refine fixTypos_id ?_
    intro w hw
    rw [htoks] at hw
    simp at hw
    rcases hw with rfl | rfl | rfl
    · exact applyTypoRules_id_of_not_key (by decide)
    · exact applyTypoRules_id_of_not_key (by decide)
    · exact applyTypoRules_id_of_keys (by decide) (allAlpha_lower_digit _ hdc)
  have hnorm : normHeur ("compress to ".toList ++ (c :: cs) ++ "mb".toList)
      = "compress to ".toList ++ (c :: cs) ++ "mb".toList := by
    have hsh : "compress to ".toList ++ (c :: cs) ++ "mb".toList
        = "compress".toList ++ (' ' :: ("to".toList
            ++ (' ' :: ((c :: cs) ++ "mb".toList)))) := by
      simp
    rw [hsh]
    rw [normHeur_alpha_run _ (by simp) (by decide) (by
      intro x hx
      simp at hx
      rw [← hx]
      decide)]
    rw [show (if 2 ≤ "compress".toList.length
        then fuzzy_match_keyword "compress".toList
        else "compress".toList) = "compress".toList from by decide]
    rw [normHeur_nonalpha_cons _ (by decide)]
    rw [normHeur_alpha_run _ (by simp) (by decide) (by
      intro x hx
      simp at hx
      rw [← hx]
      decide)]
    rw [show (if 2 ≤ "to".toList.length
        then fuzzy_match_keyword "to".toList
        else "to".toList) = "to".toList from by decide]
    rw [normHeur_nonalpha_cons _ (by decide)]
    rw [normHeur_digits_pre _ hd]
    rw [show normHeur "mb".toList = "mb".toList from by decide]
  have hstrip : LocalNormalizer.stripWs ("compress to ".toList ++ (c :: cs) ++ "mb".toList)
      = "compress to ".toList ++ (c :: cs) ++ "mb".toList := by
    refine stripWs_eq_self ?_ ?_
    · intro x hx
      simp at hx
      rw [← hx]
      decide
    · intro x hx
      rw [List.append_assoc, getLast_opt_append _ (by simp),
        getLast_opt_append _ (by simp)] at hx
      simp at hx
      rw [← hx]
      decide
  have huns := unsupported_false_of_rel hlow hrel (by decide) (by decide) (by decide)
    (by decide)
  have hguard : guardFires (mkFlags (tokenize ("compress to ".toList ++ (c :: cs)
      ++ "mb".toList))) (mkFileCtx ["doc.pdf".toList]) = false := by
    rw [mkFlags_congr hrel]
    decide
  have hconv : convertShortcutFires (tokenize ("compress to ".toList ++ (c :: cs)
      ++ "mb".toList)) (mkFileCtx ["doc.pdf".toList]) = false := by
    unfold convertShortcutFires
    simp only []
    rw [searchAlts_congr (by decide : alphaAlts (w1 ["convert", "change"]) = true) hrel]
    rw [show searchAlts (w1 ["convert", "change"]) (tokenize "compress to 1mb".toList)
      = false from by decide]
    simp
  have hand : splitAndToks (tokenize ("compress to ".toList ++ (c :: cs) ++ "mb".toList))
      = [tokenize ("compress to ".toList ++ (c :: cs) ++ "mb".toList)] := by
    rw [htoks]
    refine splitAndToks_no_and ?_
    intro w hw
    simp at hw
    rcases hw with rfl | rfl | rfl
    · decide
    · decide
    · intro he
      have hh := congrArg List.head? he
      simp [lowerL, toLower_of_isDigit hdc] at hh
      rw [hh] at hdc
      exact absurd hdc (by decide)
  have hinsert : insert_missing_and ("compress to ".toList ++ (c :: cs) ++ "mb".toList)
      = "compress to ".toList ++ (c :: cs) ++ "mb".toList := by
    unfold insert_missing_and
    rw [htoks, insertAndToks_id5 _ _ _ _ _ (by decide) (by
      rw [show insertAndOps.contains (lowerL "to".toList) = false from by decide]
      simp)]
    rw [← htoks, flatten_tokenize]
  have hsq : squeezeWs ("compress to ".toList ++ (c :: cs) ++ "mb".toList)
      = "compress to ".toList ++ (c :: cs) ++ "mb".toList := by
    have hsh : "compress to ".toList ++ (c :: cs) ++ "mb".toList
        = "compress".toList ++ (' ' :: ("to".toList
            ++ (' ' :: ((c :: cs) ++ "mb".toList)))) := by
      simp
    rw [hsh]
    rw [squeezeWs_word_pre _ (by decide)]
    rw [squeezeWs_space_cons (by
      intro x hx
      simp at hx
      rw [← hx]
      decide)]
    rw [squeezeWs_word_pre _ (by decide)]
    rw [squeezeWs_space_cons (by
      intro x hx
      simp at hx
      exact hx ▸ isWs_false_of_isDigit hdc)]
    rw [squeezeWs_word_pre _ fun x hx => isWs_false_of_isDigit (hd x hx)]
    rw [show squeezeWs "mb".toList = "mb".toList from by decide]
  have hpunct : stripPunct ("compress to ".toList ++ (c :: cs) ++ "mb".toList)
      = "compress to ".toList ++ (c :: cs) ++ "mb".toList := by
    refine stripPunct_eq_self ?_ ?_
    · intro x hx
      simp at hx
      rw [← hx]
      decide
    · intro x hx
      rw [List.append_assoc, getLast_opt_append _ (by simp),
        getLast_opt_append _ (by simp)] at hx
      simp at hx
      rw [← hx]
      decide
  have hcomma : ∀ x ∈ "compress to ".toList ++ (c :: cs) ++ "mb".toList, x ≠ ',' := by
    intro x hx
    rcases List.mem_append.mp hx with h | h
    · rcases List.mem_append.mp h with h2 | h2
      · exact (by decide : ∀ y ∈ "compress to ".toList, y ≠ ',') x h2
      · exact ne_of_isDigit_of_not (hd x h2) (by decide)
    · exact (by decide : ∀ y ∈ "mb".toList, y ≠ ',') x h
  have hcls : split_clauses_no_order ("compress to ".toList ++ (c :: cs) ++ "mb".toList)
      = ["compress to ".toList ++ (c :: cs) ++ "mb".toList] := by
    unfold split_clauses_no_order
    rw [hfix, hinsert]
    unfold squeezeStrip
    rw [hsq, hstrip]
    rw [if_neg (by simp)]
    rw [if_neg (by
      unfold hasOrderWords
      rw [hlow, searchAlts_congr (by decide : alphaAlts orderWordAlts = true) hrel]
      decide)]
    rw [splitCommaRaw_no_comma hcomma]
    have hsplitstr : splitAndStr ("compress to ".toList ++ (c :: cs) ++ "mb".toList)
        = ["compress to ".toList ++ (c :: cs) ++ "mb".toList] := by
      unfold splitAndStr
      rw [hand]
      simp [flatten_tokenize]
    rw [List.map_cons, List.map_nil, hstrip]
    rw [List.filter_cons, List.filter_nil]
    rw [if_pos (show (!(("compress to ".toList ++ (c :: cs)
      ++ "mb".toList)).isEmpty) = true from rfl)]
    simp only []
    rw [List.flatMap_cons, List.flatMap_nil, List.append_nil, hsplitstr]
    rw [List.map_cons, List.map_nil, hpunct]
    rw [List.filter_cons, List.filter_nil]
    rw [if_pos (show (!(("compress to ".toList ++ (c :: cs)
      ++ "mb".toList)).isEmpty) = true from rfl)]
    rfl
  have hfam : famCount (normHeur (insert_missing_and (fix_common_connector_typos
      ("compress to ".toList ++ (c :: cs) ++ "mb".toList)))) < 2 := by
    rw [hfix, hinsert, hnorm]
    have : famCount ("compress to ".toList ++ (c :: cs) ++ "mb".toList)
        = famCount "compress to 1mb".toList := by
      refine famCount_congr ?_
      rw [hlow, show lowerL "compress to 1mb".toList = "compress to 1mb".toList
        from by decide]
      exact hrel
    rw [this]
    decide
  have hnehead : ∀ (lit : List Char) (d : Char) (r : List Char), lit = d :: r →
      ¬('c' = d) → ¬("compress to ".toList ++ (c :: cs) ++ "mb".toList = lit) := by
    intro lit d r hlit hd2 he
    rw [hlit] at he
    have := congrArg List.head? he
    simp at this
    exact hd2 this
  have hfmt : fmtImgSet.contains ("compress to ".toList ++ (c :: cs) ++ "mb".toList)
      = false := by
    refine contains_false_of_forall ?_
    intro y hy
    simp only [fmtImgSet, List.map_cons, List.map_nil, List.mem_cons,
      List.not_mem_nil, or_false] at hy
    rcases hy with rfl | rfl | rfl | rfl | rfl | rfl | rfl <;>
      exact hnehead _ _ _ rfl (by decide)
  have hlooks : looksMulti ("compress to ".toList ++ (c :: cs) ++ "mb".toList)
      = false := by
    unfold looksMulti
    rw [hnorm, hlow]
    simp only []
    rw [searchAlts_congr (by decide : alphaAlts orderWordAlts = true) hrel,
        mapSearch_congr (by decide) hrel]
    decide
  rw [clarify_model_to_patterns _ ["doc.pdf".toList] hfix hnorm hlow hstrip huns
    hguard hconv (by rw [hcls]; simp) hfam hfmt
    (hnehead _ _ _ rfl (by decide)) (hnehead _ _ _ rfl (by decide))
    (hnehead _ _ _ rfl (by decide)) (hnehead _ _ _ rfl (by decide)) hlooks
    (by rw [searchAlts_congr (by decide : alphaAlts mergeKwAlts = true) hrel]; decide)
    (by rw [searchAlts_congr (by decide) hrel]
        exact (by decide : searchAlts (w1 ["delete", "remove"])
          (tokenize "compress to 1mb".toList) = false))
    (by rw [searchAlts_congr (by decide) hrel]
        exact (by decide : searchAlts (w1 ["reorder", "swap", "reverse"])
          (tokenize "compress to 1mb".toList) = false))
    (by rw [searchAlts_congr (by decide) hrel]
        exact (by decide : searchAlts watermarkKwAlts
          (tokenize "compress to 1mb".toList) = false))
    (by rw [searchAlts_congr (by decide) hrel]
        exact (by decide : searchAlts [ph2 "page" "numbers", ph2 "page" "number",
          ph2 "number" "pages"] (tokenize "compress to 1mb".toList) = false))
    (by rw [searchAlts_congr (by decide) hrel]
        exact (by decide : searchAlts [ph3 "split" "to" "files",
          [.lit "separate".toList, .someGap, .lit "pdfs".toList],
          [.lit "each".toList, .someGap, .lit "page".toList]]
          (tokenize "compress to 1mb".toList) = false))]
  unfold patternsTail
  rw [hlow]
  rw [show "compress to ".toList ++ (c :: cs) ++ "mb".toList
    = "compress to ".toList ++ ((c :: cs) ++ "mb".toList) from by simp]
  rw [mbSearch_compress_to (c :: cs) (by simp) hd]

end Clarify

namespace Clarify

theorem isPrefixOf_cons_same {a : Char} (as bs : List Char) :
    (a :: as).isPrefixOf (a :: bs) = as.isPrefixOf bs := by
  simp [List.isPrefixOf_cons₂]

theorem p3At_false_parts {s : List Char}
    (h1 : "split".toList.isPrefixOf s = false)
    (h2 : "extract".toList.isPrefixOf s = false)
    (h3 : "keep".toList.isPrefixOf s = false) : p3At s = false := by
  unfold p3At
  rw [h1, h2, h3]
  rfl

theorem p4At_none_parts {s : List Char}
    (h1 : "split".toList.isPrefixOf s = false)
    (h2 : "extract".toList.isPrefixOf s = false)
    (h3 : "keep".toList.isPrefixOf s = false) : p4At s = none := by
  unfold p4At
  rw [h1, h2, h3]
  rfl

theorem p3Search_cons2 {c : Char} (cs : List Char) (h : p3At (c :: cs) = false) :
    p3Search (c :: cs) = p3Search cs := by
  simp only [p3Search, h, Bool.false_or]

theorem p4Search_cons2 {c : Char} (cs : List Char) (h : p4At (c :: cs) = none) :
    p4Search (c :: cs) = p4Search cs := by
  simp only [p4Search, h]
  simp

theorem p3Search_rotate_pre (r : List Char) :
    p3Search ("rotate ".toList ++ r) = p3Search r := by
  show p3Search ('r' :: 'o' :: 't' :: 'a' :: 't' :: 'e' :: ' ' :: r) = p3Search r
  rw [p3Search_cons2 _ (p3At_false_of_head _ (by decide) (by decide) (by decide)),
      p3Search_cons2 _ (p3At_false_of_head _ (by decide) (by decide) (by decide)),
      p3Search_cons2 _ (p3At_false_of_head _ (by decide) (by decide) (by decide)),
      p3Search_cons2 _ (p3At_false_of_head _ (by decide) (by decide) (by decide)),
      p3Search_cons2 _ (p3At_false_of_head _ (by decide) (by decide) (by decide)),
      p3Search_cons2 _ (p3At_false_parts
        (isPrefixOf_cons_false (by decide))
        (by
          rw [show "extract".toList = 'e' :: 'x' :: "tract".toList from rfl,
            isPrefixOf_cons_same, isPrefixOf_cons_false (by decide)])
        (isPrefixOf_cons_false (by decide))),
      p3Search_cons2 _ (p3At_false_of_head _ (by decide) (by decide) (by decide))]

theorem p4Search_rotate_pre (r : List Char) :
    p4Search ("rotate ".toList ++ r) = p4Search r := by
  show p4Search ('r' :: 'o' :: 't' :: 'a' :: 't' :: 'e' :: ' ' :: r) = p4Search r
  rw [p4Search_cons2 _ (p4At_none_of_head _ (by decide) (by decide) (by decide)),
      p4Search_cons2 _ (p4At_none_of_head _ (by decide) (by decide) (by decide)),
      p4Search_cons2 _ (p4At_none_of_head _ (by decide) (by decide) (by decide)),
      p4Search_cons2 _ (p4At_none_of_head _ (by decide) (by decide) (by decide)),
      p4Search_cons2 _ (p4At_none_of_head _ (by decide) (by decide) (by decide)),
      p4Search_cons2 _ (p4At_none_parts
        (isPrefixOf_cons_false (by decide))
        (by
          rw [show "extract".toList = 'e' :: 'x' :: "tract".toList from rfl,
            isPrefixOf_cons_same, isPrefixOf_cons_false (by decide)])
        (isPrefixOf_cons_false (by decide))),
      p4Search_cons2 _ (p4At_none_of_head _ (by decide) (by decide) (by decide))]

/-- Pattern 4.5 with a rotation keyword present, no direction word, and a
number found by the signed-number scan: the snapped number of degrees. -/
theorem patternsTail_rotate (p : List Char) (v : ℤ)
    (hlow : lowerL p = p)
    (hmb : mbSearch p = none)
    (hpct : MainApp.pctSearch p = none)
    (hsplitall : searchAlts
      [[.lit "split".toList, .someGap, .lit "pages".toList],
       [.lit "split".toList, .someGap, .lit "page".toList],
       [.lit "split".toList, .someGap, .lit "all".toList, .someGap, .lit "pages".toList],
       [.lit "split".toList, .someGap, .lit "all".toList, .someGap, .lit "page".toList]]
      (tokenize p) = false)
    (hp3 : p3Search p = false)
    (hp4 : p4Search p = none)
    (hrotw : searchAlts (w1 ["rotate", "rotat", "turn", "flip", "straight"])
      (tokenize p) = true)
    (hleft : searchAlts (w1 ["left", "anti", "anticlock", "counter"])
      (tokenize p) = false)
    (hright : searchAlts (w1 ["right", "clockwise"]) (tokenize p) = false)
    (hflip : searchAlts (w1 ["flip"]) (tokenize p) = false)
    (hrot : rotNumSearch p = some v) :
    patternsTail p ["doc.pdf".toList] = (.ok (.rotate "doc.pdf".toList (rotSnap v)), 0) := by
  unfold patternsTail
  rw [hlow, hmb]
  simp only []
  rw [hpct]
  simp only [Option.isSome_none, Bool.and_false, Bool.false_eq_true, if_false]
  rw [hsplitall]
  simp only [Bool.and_false, Bool.false_eq_true, if_false]
  rw [hp3]
  simp only [Bool.false_and, Bool.false_eq_true, if_false]
  rw [hp4]
  simp only []
  rw [hrotw]
  simp only [Bool.true_or, Bool.and_true, Bool.and_self]
  rw [if_pos (by rfl), hleft, hright, hflip, hrot]
  simp

end Clarify

namespace Clarify

/-- The resolver on `rotate <digits> degrees` with one uploaded PDF:
Pattern 4.5 fires with the snapped written number. -/
theorem clarify_model_rotate_pos (ds : List Char) (hne : ds ≠ [])
    (hd : ∀ c ∈ ds, c.isDigit = true) :
    clarify_model ("rotate ".toList ++ ds ++ " degrees".toList) ["doc.pdf".toList] []
      = (.ok (.rotate "doc.pdf".toList (rotSnap (digitsVal ds))), 0) := by
  obtain ⟨c, cs, rfl⟩ : ∃ c cs, ds = c :: cs := by
    cases ds with
    | nil => exact absurd rfl hne
    | cons c cs => exact ⟨c, cs, rfl⟩
  have hdc : c.isDigit = true := hd c (by simp)
  have htoksd : tokenize (c :: cs) = [.word (c :: cs)] :=
    tokenize_all_word (by simp) fun x hx => isWordChar_of_isDigit (hd x hx)
  have htoks : tokenize ("rotate ".toList ++ (c :: cs) ++ " degrees".toList)
      = [.word "rotate".toList, .gap [' '], .word (c :: cs),
         .gap [' '], .word "degrees".toList] := by
    rw [List.append_assoc]
    rw [tokenize_append_break (by decide) (by simp) (by
      intro x y hx hy
      simp at hx
      have hy2 : c = y := by simpa using hy
      rw [← hx, ← hy2, isWordChar_of_isDigit hdc]
      decide)]
    rw [tokenize_append_break (by simp) (by decide) (by
      intro x y hx hy
      have hxm : x ∈ c :: cs := mem_of_getLast_opt hx
      have hy2 : (' ' : Char) = y := by simpa using hy
      rw [isWordChar_of_isDigit (hd x hxm), ← hy2]
      decide)]
    rw [htoksd]
    rfl
  have hrel : TokRel (tokenize ("rotate ".toList ++ (c :: cs) ++ " degrees".toList))
      (tokenize "rotate 1 degrees".toList) := by
    rw [htoks]
    exact List.Forall₂.cons (TokRelOne.word_eq _)
      (List.Forall₂.cons (TokRelOne.gap_eq _)
        (List.Forall₂.cons
          (TokRelOne.word_taint _ _ (allAlpha_false_of_head_digit hdc) (by decide))
          (List.Forall₂.cons (TokRelOne.gap_eq _)
            (List.Forall₂.cons (TokRelOne.word_eq _) List.Forall₂.nil))))
  have hlowds : lowerL (c :: cs) = c :: cs := lowerL_digits hd
  have hlow : lowerL ("rotate ".toList ++ (c :: cs) ++ " degrees".toList)
      = "rotate ".toList ++ (c :: cs) ++ " degrees".toList := by
    rw [lowerL_append, lowerL_append, hlowds]
    rfl
  have hfix : fix_common_connector_typos ("rotate ".toList ++ (c :: cs)
      ++ " degrees".toList) = "rotate ".toList ++ (c :: cs) ++ " degrees".toList := by
    refine fixTypos_id ?_
    intro w hw
    rw [htoks] at hw
    simp at hw
    rcases hw with rfl | rfl | rfl
    · exact applyTypoRules_id_of_not_key (by decide)
    · exact applyTypoRules_id_of_keys (by decide) (allAlpha_lower_digit _ hdc)
    · exact applyTypoRules_id_of_not_key (by decide)
  have hnorm : normHeur ("rotate ".toList ++ (c :: cs) ++ " degrees".toList)
      = "rotate ".toList ++ (c :: cs) ++ " degrees".toList := by
    have hsh : "rotate ".toList ++ (c :: cs) ++ " degrees".toList
        = "rotate".toList ++ (' ' :: ((c :: cs) ++ (' ' :: "degrees".toList))) := by
      simp
    rw [hsh]
    rw [normHeur_alpha_run _ (by simp) (by decide) (by
      intro x hx
      simp at hx
      rw [← hx]
      decide)]
    rw [show (if 2 ≤ "rotate".toList.length
        then fuzzy_match_keyword "rotate".toList
        else "rotate".toList) = "rotate".toList from by decide]
    rw [normHeur_nonalpha_cons _ (by decide)]
    rw [normHeur_digits_pre _ hd]
    rw [show normHeur (' ' :: "degrees".toList) = ' ' :: "degrees".toList from by decide]
  have hstrip : LocalNormalizer.stripWs ("rotate ".toList ++ (c :: cs)
      ++ " degrees".toList) = "rotate ".toList ++ (c :: cs) ++ " degrees".toList := by
    refine stripWs_eq_self ?_ ?_
    · intro x hx
      simp at hx
      rw [← hx]
      decide
    · intro x hx
      rw [List.append_assoc, getLast_opt_append _ (by simp),
        getLast_opt_append _ (by simp)] at hx
      simp at hx
      rw [← hx]
      decide
  have huns := unsupported_false_of_rel hlow hrel (by decide) (by decide) (by decide)
    (by decide)
  have hguard : guardFires (mkFlags (tokenize ("rotate ".toList ++ (c :: cs)
      ++ " degrees".toList))) (mkFileCtx ["doc.pdf".toList]) = false := by
    rw [mkFlags_congr hrel]
    decide
  have hconv : convertShortcutFires (tokenize ("rotate ".toList ++ (c :: cs)
      ++ " degrees".toList)) (mkFileCtx ["doc.pdf".toList]) = false := by
    unfold convertShortcutFires
    simp only []
    rw [searchAlts_congr (by decide : alphaAlts (w1 ["convert", "change"]) = true) hrel]
    rw [show searchAlts (w1 ["convert", "change"]) (tokenize "rotate 1 degrees".toList)
      = false from by decide]
    simp
  have hand : splitAndToks (tokenize ("rotate ".toList ++ (c :: cs) ++ " degrees".toList))
      = [tokenize ("rotate ".toList ++ (c :: cs) ++ " degrees".toList)] := by
    rw [htoks]
    refine splitAndToks_no_and ?_
    intro w hw
    simp at hw
    rcases hw with rfl | rfl | rfl
    · decide
    · intro he
      have hh := congrArg List.head? he
      simp [lowerL, toLower_of_isDigit hdc] at hh
      rw [hh] at hdc
      exact absurd hdc (by decide)
    · decide
  have hinsert : insert_missing_and ("rotate ".toList ++ (c :: cs) ++ " degrees".toList)
      = "rotate ".toList ++ (c :: cs) ++ " degrees".toList := by
    unfold insert_missing_and
    rw [htoks, insertAndToks_id5 _ _ _ _ _ (by
        rw [hlowds, contains_false_of_digit_vs_heads hdc (by decide)]
        simp) (by
        rw [hlowds, contains_false_of_digit_vs_heads hdc (by decide)]
        simp)]
    rw [← htoks, flatten_tokenize]
  have hsq : squeezeWs ("rotate ".toList ++ (c :: cs) ++ " degrees".toList)
      = "rotate ".toList ++ (c :: cs) ++ " degrees".toList := by
    have hsh : "rotate ".toList ++ (c :: cs) ++ " degrees".toList
        = "rotate".toList ++ (' ' :: ((c :: cs) ++ (' ' :: "degrees".toList))) := by
      simp
    rw [hsh]
    rw [squeezeWs_word_pre _ (by decide)]
    rw [squeezeWs_space_cons (by
      intro x hx
      simp at hx
      exact hx ▸ isWs_false_of_isDigit hdc)]
    rw [squeezeWs_word_pre _ fun x hx => isWs_false_of_isDigit (hd x hx)]
    rw [squeezeWs_space_cons (by
      intro x hx
      simp at hx
      rw [← hx]
      decide)]
    rw [show squeezeWs "degrees".toList = "degrees".toList from by decide]
  have hpunct : stripPunct ("rotate ".toList ++ (c :: cs) ++ " degrees".toList)
      = "rotate ".toList ++ (c :: cs) ++ " degrees".toList := by
    refine stripPunct_eq_self ?_ ?_
    · intro x hx
      simp at hx
      rw [← hx]
      decide
    · intro x hx
      rw [List.append_assoc, getLast_opt_append _ (by simp),
        getLast_opt_append _ (by simp)] at hx
      simp at hx
      rw [← hx]
      decide
  have hcomma : ∀ x ∈ "rotate ".toList ++ (c :: cs) ++ " degrees".toList, x ≠ ',' := by
    intro x hx
    rcases List.mem_append.mp hx with h | h
    · rcases List.mem_append.mp h with h2 | h2
      · exact (by decide : ∀ y ∈ "rotate ".toList, y ≠ ',') x h2
      · exact ne_of_isDigit_of_not (hd x h2) (by decide)
    · exact (by decide : ∀ y ∈ " degrees".toList, y ≠ ',') x h
  have hcls : split_clauses_no_order ("rotate ".toList ++ (c :: cs) ++ " degrees".toList)
      = ["rotate ".toList ++ (c :: cs) ++ " degrees".toList] := by
    unfold split_clauses_no_order
    rw [hfix, hinsert]
    unfold squeezeStrip
    rw [hsq, hstrip]
    rw [if_neg (by simp)]
    rw [if_neg (by
      unfold hasOrderWords
      rw [hlow, searchAlts_congr (by decide : alphaAlts orderWordAlts = true) hrel]
      decide)]
    rw [splitCommaRaw_no_comma hcomma]
    have hsplitstr : splitAndStr ("rotate ".toList ++ (c :: cs) ++ " degrees".toList)
        = ["rotate ".toList ++ (c :: cs) ++ " degrees".toList] := by
      unfold splitAndStr
      rw [hand]
      simp [flatten_tokenize]
    rw [List.map_cons, List.map_nil, hstrip]
    rw [List.filter_cons, List.filter_nil]
    rw [if_pos (show (!(("rotate ".toList ++ (c :: cs)
      ++ " degrees".toList)).isEmpty) = true from rfl)]
    simp only []
    rw [List.flatMap_cons, List.flatMap_nil, List.append_nil, hsplitstr]
    rw [List.map_cons, List.map_nil, hpunct]
    rw [List.filter_cons, List.filter_nil]
    rw [if_pos (show (!(("rotate ".toList ++ (c :: cs)
      ++ " degrees".toList)).isEmpty) = true from rfl)]
    rfl
  have hfam : famCount (normHeur (insert_missing_and (fix_common_connector_typos
      ("rotate ".toList ++ (c :: cs) ++ " degrees".toList)))) < 2 := by
    rw [hfix, hinsert, hnorm]
    have : famCount ("rotate ".toList ++ (c :: cs) ++ " degrees".toList)
        = famCount "rotate 1 degrees".toList := by
      refine famCount_congr ?_
      rw [hlow, show lowerL "rotate 1 degrees".toList = "rotate 1 degrees".toList
        from by decide]
      exact hrel
    rw [this]
    decide
  have hnehead : ∀ (lit : List Char) (d : Char) (r : List Char), lit = d :: r →
      ¬('r' = d) → ¬("rotate ".toList ++ (c :: cs) ++ " degrees".toList = lit) := by
    intro lit d r hlit hd2 he
    rw [hlit] at he
    have := congrArg List.head? he
    simp at this
    exact hd2 this
  have hfmt : fmtImgSet.contains ("rotate ".toList ++ (c :: cs) ++ " degrees".toList)
      = false := by
    refine contains_false_of_forall ?_
    intro y hy
    simp only [fmtImgSet, List.map_cons, List.map_nil, List.mem_cons,
      List.not_mem_nil, or_false] at hy
    rcases hy with rfl | rfl | rfl | rfl | rfl | rfl | rfl <;>
      exact hnehead _ _ _ rfl (by decide)
  have hlooks : looksMulti ("rotate ".toList ++ (c :: cs) ++ " degrees".toList)
      = false := by
    unfold looksMulti
    rw [hnorm, hlow]
    simp only []
    rw [searchAlts_congr (by decide : alphaAlts orderWordAlts = true) hrel,
        mapSearch_congr (by decide) hrel]
    decide
  have hnc : ∀ x ∈ "rotate ".toList ++ (c :: cs) ++ " degrees".toList, x ≠ 'c' := by
    intro x hx
    rcases List.mem_append.mp hx with h | h
    · rcases List.mem_append.mp h with h2 | h2
      · exact (by decide : ∀ y ∈ "rotate ".toList, y ≠ 'c') x h2
      · exact ne_of_isDigit_of_not (hd x h2) (by decide)
    · exact (by decide : ∀ y ∈ " degrees".toList, y ≠ 'c') x h
  have hrot : rotNumSearch ("rotate ".toList ++ (c :: cs) ++ " degrees".toList)
      = some ((digitsVal (c :: cs) : ℤ)) := by
    rw [List.append_assoc]
    rw [rotNumSearch_seg_skip _ (by decide)]
    show rotNumSearch (c :: (cs ++ " degrees".toList)) = _
    simp only [rotNumSearch, rotNumAt]
    rw [if_neg (ne_of_isDigit_of_not hdc (by decide) : c ≠ '-')]
    rw [show c :: (cs ++ " degrees".toList) = (c :: cs) ++ " degrees".toList from rfl]
    rw [takeWhile_append_all (fun x hx => hd x hx)]
    rw [show (" degrees".toList.takeWhile Char.isDigit) = [] from rfl, List.append_nil]
    rw [show ((c :: cs).isEmpty = false) from rfl]
    simp only [Bool.false_eq_true, if_false]
    rw [List.drop_left]
    rw [show rotNumTail " degrees".toList = true from by decide]
    simp
  rw [clarify_model_to_patterns _ ["doc.pdf".toList] hfix hnorm hlow hstrip huns
    hguard hconv (by rw [hcls]; simp) hfam hfmt
    (hnehead _ _ _ rfl (by decide)) (hnehead _ _ _ rfl (by decide))
    (hnehead _ _ _ rfl (by decide)) (hnehead _ _ _ rfl (by decide)) hlooks
    (by rw [searchAlts_congr (by decide : alphaAlts mergeKwAlts = true) hrel]; decide)
    (by rw [searchAlts_congr (by decide) hrel]
        exact (by decide : searchAlts (w1 ["delete", "remove"])
          (tokenize "rotate 1 degrees".toList) = false))
    (by rw [searchAlts_congr (by decide) hrel]
        exact (by decide : searchAlts (w1 ["reorder", "swap", "reverse"])
          (tokenize "rotate 1 degrees".toList) = false))
    (by rw [searchAlts_congr (by decide) hrel]
        exact (by decide : searchAlts watermarkKwAlts
          (tokenize "rotate 1 degrees".toList) = false))
    (by rw [searchAlts_congr (by decide) hrel]
        exact (by decide : searchAlts [ph2 "page" "numbers", ph2 "page" "number",
          ph2 "number" "pages"] (tokenize "rotate 1 degrees".toList) = false))
    (by rw [searchAlts_congr (by decide) hrel]
        exact (by decide : searchAlts [ph3 "split" "to" "files",
          [.lit "separate".toList, .someGap, .lit "pdfs".toList],
          [.lit "each".toList, .someGap, .lit "page".toList]]
          (tokenize "rotate 1 degrees".toList) = false))]
  refine patternsTail_rotate _ _ hlow (mbSearch_none hnc) (pctSearch_none hnc) ?_ ?_ ?_
    ?_ ?_ ?_ ?_ hrot
  · rw [searchAlts_congr (by decide) hrel]
    exact (by decide : searchAlts
      [[.lit "split".toList, .someGap, .lit "pages".toList],
       [.lit "split".toList, .someGap, .lit "page".toList],
       [.lit "split".toList, .someGap, .lit "all".toList, .someGap, .lit "pages".toList],
       [.lit "split".toList, .someGap, .lit "all".toList, .someGap, .lit "page".toList]]
      (tokenize "rotate 1 degrees".toList) = false)
  · rw [List.append_assoc, p3Search_rotate_pre]
    rw [p3Search_seg_skip _ (fun x hx => ⟨ne_of_isDigit_of_not (hd x hx) (by decide),
      ne_of_isDigit_of_not (hd x hx) (by decide),
      ne_of_isDigit_of_not (hd x hx) (by decide)⟩)]
    decide
  · rw [List.append_assoc, p4Search_rotate_pre]
    rw [p4Search_seg_skip _ (fun x hx => ⟨ne_of_isDigit_of_not (hd x hx) (by decide),
      ne_of_isDigit_of_not (hd x hx) (by decide),
      ne_of_isDigit_of_not (hd x hx) (by decide)⟩)]
    decide
  · rw [searchAlts_congr (by decide) hrel]
    exact (by decide : searchAlts (w1 ["rotate", "rotat", "turn", "flip", "straight"])
      (tokenize "rotate 1 degrees".toList) = true)
  · rw [searchAlts_congr (by decide) hrel]
    exact (by decide : searchAlts (w1 ["left", "anti", "anticlock", "counter"])
      (tokenize "rotate 1 degrees".toList) = false)
  · rw [searchAlts_congr (by decide) hrel]
    exact (by decide : searchAlts (w1 ["right", "clockwise"])
      (tokenize "rotate 1 degrees".toList) = false)
  · rw [searchAlts_congr (by decide) hrel]
    exact (by decide : searchAlts (w1 ["flip"])
      (tokenize "rotate 1 degrees".toList) = false)

end Clarify

namespace Clarify

/-- The resolver on `rotate -<digits> degrees` with one uploaded PDF:
Pattern 4.5 fires with the snapped negative written number. -/
theorem clarify_model_rotate_neg (ds : List Char) (hne : ds ≠ [])
    (hd : ∀ c ∈ ds, c.isDigit = true) :
    clarify_model ("rotate ".toList ++ ('-' :: ds) ++ " degrees".toList)
        ["doc.pdf".toList] []
      = (.ok (.rotate "doc.pdf".toList (rotSnap (-(digitsVal ds : ℤ)))), 0) := by
  obtain ⟨c, cs, rfl⟩ : ∃ c cs, ds = c :: cs := by
    cases ds with
    | nil => exact absurd rfl hne
    | cons c cs => exact ⟨c, cs, rfl⟩
  have hdc : c.isDigit = true := hd c (by simp)
  have htoksd : tokenize (c :: cs) = [.word (c :: cs)] :=
    tokenize_all_word (by simp) fun x hx => isWordChar_of_isDigit (hd x hx)
  have htoks : tokenize ("rotate ".toList ++ ('-' :: (c :: cs)) ++ " degrees".toList)
      = [.word "rotate".toList, .gap [' ', '-'], .word (c :: cs),
         .gap [' '], .word "degrees".toList] := by
    rw [show "rotate ".toList ++ ('-' :: (c :: cs)) ++ " degrees".toList
        = "rotate".toList ++ (' ' :: '-' :: ((c :: cs) ++ " degrees".toList)) from by
      simp]
    rw [tokenize_append_break (by decide) (by simp) (by
      intro x y hx hy
      simp at hx
      have hy2 : (' ' : Char) = y := by simpa using hy
      rw [← hx, ← hy2]
      decide)]
    rw [show (' ' :: '-' :: ((c :: cs) ++ " degrees".toList))
        = ([' ', '-'] ++ ((c :: cs) ++ " degrees".toList)) from rfl]
    rw [tokenize_append_break (by decide) (by simp) (by
      intro x y hx hy
      simp at hx
      have hy2 : c = y := by simpa using hy
      rw [← hx, ← hy2, isWordChar_of_isDigit hdc]
      decide)]
    rw [tokenize_append_break (by simp) (by decide) (by
      intro x y hx hy
      have hxm : x ∈ c :: cs := mem_of_getLast_opt hx
      have hy2 : (' ' : Char) = y := by simpa using hy
      rw [isWordChar_of_isDigit (hd x hxm), ← hy2]
      decide)]
    rw [htoksd]
    rfl
  have hrel : TokRel
      (tokenize ("rotate ".toList ++ ('-' :: (c :: cs)) ++ " degrees".toList))
      (tokenize "rotate -1 degrees".toList) := by
    rw [htoks]
    exact List.Forall₂.cons (TokRelOne.word_eq _)
      (List.Forall₂.cons (TokRelOne.gap_eq _)
        (List.Forall₂.cons
          (TokRelOne.word_taint _ _ (allAlpha_false_of_head_digit hdc) (by decide))
          (List.Forall₂.cons (TokRelOne.gap_eq _)
            (List.Forall₂.cons (TokRelOne.word_eq _) List.Forall₂.nil))))
  have hlowds : lowerL (c :: cs) = c :: cs := lowerL_digits hd
  have hlowsd : lowerL ('-' :: (c :: cs)) = '-' :: (c :: cs) := by
    show '-'.toLower :: lowerL (c :: cs) = _
    rw [hlowds]
    rfl
  have hlow : lowerL ("rotate ".toList ++ ('-' :: (c :: cs)) ++ " degrees".toList)
      = "rotate ".toList ++ ('-' :: (c :: cs)) ++ " degrees".toList := by
    rw [lowerL_append, lowerL_append, hlowsd]
    rfl
  have hfix : fix_common_connector_typos ("rotate ".toList ++ ('-' :: (c :: cs))
      ++ " degrees".toList)
      = "rotate ".toList ++ ('-' :: (c :: cs)) ++ " degrees".toList := by
    refine fixTypos_id ?_
    intro w hw
    rw [htoks] at hw
    simp at hw
    rcases hw with rfl | rfl | rfl
    · exact applyTypoRules_id_of_not_key (by decide)
    · exact applyTypoRules_id_of_keys (by decide) (allAlpha_lower_digit _ hdc)
    · exact applyTypoRules_id_of_not_key (by decide)
  have hnorm : normHeur ("rotate ".toList ++ ('-' :: (c :: cs)) ++ " degrees".toList)
      = "rotate ".toList ++ ('-' :: (c :: cs)) ++ " degrees".toList := by
    have hsh : "rotate ".toList ++ ('-' :: (c :: cs)) ++ " degrees".toList
        = "rotate".toList ++ (' ' :: '-' :: ((c :: cs) ++ (' ' :: "degrees".toList))) := by
      simp
    rw [hsh]
    rw [normHeur_alpha_run _ (by simp) (by decide) (by
      intro x hx
      simp at hx
      rw [← hx]
      decide)]
    rw [show (if 2 ≤ "rotate".toList.length
        then fuzzy_match_keyword "rotate".toList
        else "rotate".toList) = "rotate".toList from by decide]
    rw [normHeur_nonalpha_cons _ (by decide)]
    rw [normHeur_nonalpha_cons _ (by decide)]
    rw [normHeur_digits_pre _ hd]
    rw [show normHeur (' ' :: "degrees".toList) = ' ' :: "degrees".toList from by decide]
  have hstrip : LocalNormalizer.stripWs ("rotate ".toList ++ ('-' :: (c :: cs))
      ++ " degrees".toList)
      = "rotate ".toList ++ ('-' :: (c :: cs)) ++ " degrees".toList := by
    refine stripWs_eq_self ?_ ?_
    · intro x hx
      simp at hx
      rw [← hx]
      decide
    · intro x hx
      rw [List.append_assoc, getLast_opt_append _ (by simp),
        getLast_opt_append _ (by simp)] at hx
      simp at hx
      rw [← hx]
      decide
  have huns := unsupported_false_of_rel hlow hrel (by decide) (by decide) (by decide)
    (by decide)
  have hguard : guardFires (mkFlags (tokenize ("rotate ".toList ++ ('-' :: (c :: cs))
      ++ " degrees".toList))) (mkFileCtx ["doc.pdf".toList]) = false := by
    rw [mkFlags_congr hrel]
    decide
  have hconv : convertShortcutFires (tokenize ("rotate ".toList ++ ('-' :: (c :: cs))
      ++ " degrees".toList)) (mkFileCtx ["doc.pdf".toList]) = false := by
    unfold convertShortcutFires
    simp only []
    rw [searchAlts_congr (by decide : alphaAlts (w1 ["convert", "change"]) = true) hrel]
    rw [show searchAlts (w1 ["convert", "change"]) (tokenize "rotate -1 degrees".toList)
      = false from by decide]
    simp
  have hand : splitAndToks (tokenize ("rotate ".toList ++ ('-' :: (c :: cs))
      ++ " degrees".toList))
      = [tokenize ("rotate ".toList ++ ('-' :: (c :: cs)) ++ " degrees".toList)] := by
    rw [htoks]
    refine splitAndToks_no_and ?_
    intro w hw
    simp at hw
    rcases hw with rfl | rfl | rfl
    · decide
    · intro he
      have hh := congrArg List.head? he
      simp [lowerL, toLower_of_isDigit hdc] at hh
      rw [hh] at hdc
      exact absurd hdc (by decide)
    · decide
  have hinsert : insert_missing_and ("rotate ".toList ++ ('-' :: (c :: cs))
      ++ " degrees".toList)
      = "rotate ".toList ++ ('-' :: (c :: cs)) ++ " degrees".toList := by
    unfold insert_missing_and
    rw [htoks, insertAndToks_id5 _ _ _ _ _ (by
        rw [show pureWs [' ', '-'] = false from by decide]
        simp) (by
        rw [hlowds, contains_false_of_digit_vs_heads hdc (by decide)]
        simp)]
    rw [← htoks, flatten_tokenize]
  have hsq : squeezeWs ("rotate ".toList ++ ('-' :: (c :: cs)) ++ " degrees".toList)
      = "rotate ".toList ++ ('-' :: (c :: cs)) ++ " degrees".toList := by
    have hsh : "rotate ".toList ++ ('-' :: (c :: cs)) ++ " degrees".toList
        = "rotate".toList ++ (' ' :: ('-' :: ((c :: cs) ++ (' ' :: "degrees".toList)))) := by
      simp
    rw [hsh]
    rw [squeezeWs_word_pre _ (by decide)]
    rw [squeezeWs_space_cons (by
      intro x hx
      simp at hx
      rw [← hx]
      decide)]
    rw [squeezeWs_nonws_cons _ (by decide)]
    rw [squeezeWs_word_pre _ fun x hx => isWs_false_of_isDigit (hd x hx)]
    rw [squeezeWs_space_cons (by
      intro x hx
      simp at hx
      rw [← hx]
      decide)]
    rw [show squeezeWs "degrees".toList = "degrees".toList from by decide]
  have hpunct : stripPunct ("rotate ".toList ++ ('-' :: (c :: cs)) ++ " degrees".toList)
      = "rotate ".toList ++ ('-' :: (c :: cs)) ++ " degrees".toList := by
    refine stripPunct_eq_self ?_ ?_
    · intro x hx
      simp at hx
      rw [← hx]
      decide
    · intro x hx
      rw [List.append_assoc, getLast_opt_append _ (by simp),
        getLast_opt_append _ (by simp)] at hx
      simp at hx
      rw [← hx]
      decide
  have hcomma : ∀ x ∈ "rotate ".toList ++ ('-' :: (c :: cs)) ++ " degrees".toList,
      x ≠ ',' := by
    intro x hx
    rcases List.mem_append.mp hx with h | h
    · rcases List.mem_append.mp h with h2 | h2
      · exact (by decide : ∀ y ∈ "rotate ".toList, y ≠ ',') x h2
      · rcases List.mem_cons.mp h2 with rfl | hm
        · decide
        · exact ne_of_isDigit_of_not (hd x hm) (by decide)
    · exact (by decide : ∀ y ∈ " degrees".toList, y ≠ ',') x h
  have hcls : split_clauses_no_order ("rotate ".toList ++ ('-' :: (c :: cs))
      ++ " degrees".toList)
      = ["rotate ".toList ++ ('-' :: (c :: cs)) ++ " degrees".toList] := by
    unfold split_clauses_no_order
    rw [hfix, hinsert]
    unfold squeezeStrip
    rw [hsq, hstrip]
    rw [if_neg (by simp)]
    rw [if_neg (by
      unfold hasOrderWords
      rw [hlow, searchAlts_congr (by decide : alphaAlts orderWordAlts = true) hrel]
      decide)]
    rw [splitCommaRaw_no_comma hcomma]
    have hsplitstr : splitAndStr ("rotate ".toList ++ ('-' :: (c :: cs))
        ++ " degrees".toList)
        = ["rotate ".toList ++ ('-' :: (c :: cs)) ++ " degrees".toList] := by
      unfold splitAndStr
      rw [hand]
      simp [flatten_tokenize]
    rw [List.map_cons, List.map_nil, hstrip]
    rw [List.filter_cons, List.filter_nil]
    rw [if_pos (show (!(("rotate ".toList ++ ('-' :: (c :: cs))
      ++ " degrees".toList)).isEmpty) = true from rfl)]
    simp only []
    rw [List.flatMap_cons, List.flatMap_nil, List.append_nil, hsplitstr]
    rw [List.map_cons, List.map_nil, hpunct]
    rw [List.filter_cons, List.filter_nil]
    rw [if_pos (show (!(("rotate ".toList ++ ('-' :: (c :: cs))
      ++ " degrees".toList)).isEmpty) = true from rfl)]
    rfl
  have hfam : famCount (normHeur (insert_missing_and (fix_common_connector_typos
      ("rotate ".toList ++ ('-' :: (c :: cs)) ++ " degrees".toList)))) < 2 := by
    rw [hfix, hinsert, hnorm]
    have : famCount ("rotate ".toList ++ ('-' :: (c :: cs)) ++ " degrees".toList)
        = famCount "rotate -1 degrees".toList := by
      refine famCount_congr ?_
      rw [hlow, show lowerL "rotate -1 degrees".toList = "rotate -1 degrees".toList
        from by decide]
      exact hrel
    rw [this]
    decide
  have hnehead : ∀ (lit : List Char) (d : Char) (r : List Char), lit = d :: r →
      ¬('r' = d) → ¬("rotate ".toList ++ ('-' :: (c :: cs)) ++ " degrees".toList
        = lit) := by
    intro lit d r hlit hd2 he
    rw [hlit] at he
    have := congrArg List.head? he
    simp at this
    exact hd2 this
  have hfmt : fmtImgSet.contains ("rotate ".toList ++ ('-' :: (c :: cs))
      ++ " degrees".toList) = false := by
    refine contains_false_of_forall ?_
    intro y hy
    simp only [fmtImgSet, List.map_cons, List.map_nil, List.mem_cons,
      List.not_mem_nil, or_false] at hy
    rcases hy with rfl | rfl | rfl | rfl | rfl | rfl | rfl <;>
      exact hnehead _ _ _ rfl (by decide)
  have hlooks : looksMulti ("rotate ".toList ++ ('-' :: (c :: cs))
      ++ " degrees".toList) = false := by
    unfold looksMulti
    rw [hnorm, hlow]
    simp only []
    rw [searchAlts_congr (by decide : alphaAlts orderWordAlts = true) hrel,
        mapSearch_congr (by decide) hrel]
    decide
  have hnc : ∀ x ∈ "rotate ".toList ++ ('-' :: (c :: cs)) ++ " degrees".toList,
      x ≠ 'c' := by
    intro x hx
    rcases List.mem_append.mp hx with h | h
    · rcases List.mem_append.mp h with h2 | h2
      · exact (by decide : ∀ y ∈ "rotate ".toList, y ≠ 'c') x h2
      · rcases List.mem_cons.mp h2 with rfl | hm
        · decide
        · exact ne_of_isDigit_of_not (hd x hm) (by decide)
    · exact (by decide : ∀ y ∈ " degrees".toList, y ≠ 'c') x h
  have hsek : ∀ x ∈ '-' :: (c :: cs), x ≠ 's' ∧ x ≠ 'e' ∧ x ≠ 'k' := by
    intro x hx
    rcases List.mem_cons.mp hx with rfl | hm
    · exact ⟨by decide, by decide, by decide⟩
    · exact ⟨ne_of_isDigit_of_not (hd x hm) (by decide),
        ne_of_isDigit_of_not (hd x hm) (by decide),
        ne_of_isDigit_of_not (hd x hm) (by decide)⟩
  have hrot : rotNumSearch ("rotate ".toList ++ ('-' :: (c :: cs))
      ++ " degrees".toList) = some (-(digitsVal (c :: cs) : ℤ)) := by
    rw [List.append_assoc]
    rw [rotNumSearch_seg_skip _ (by decide)]
    show rotNumSearch ('-' :: ((c :: cs) ++ " degrees".toList)) = _
    simp only [rotNumSearch, rotNumAt]
    rw [if_pos trivial]
    rw [takeWhile_append_all (fun x hx => hd x hx)]
    rw [show (" degrees".toList.takeWhile Char.isDigit) = [] from rfl, List.append_nil]
    rw [show ((c :: cs).isEmpty = false) from rfl]
    simp only [Bool.false_eq_true, if_false]
    rw [List.drop_left]
    rw [show rotNumTail " degrees".toList = true from by decide]
    simp
  rw [clarify_model_to_patterns _ ["doc.pdf".toList] hfix hnorm hlow hstrip huns
    hguard hconv (by rw [hcls]; simp) hfam hfmt
    (hnehead _ _ _ rfl (by decide)) (hnehead _ _ _ rfl (by decide))
    (hnehead _ _ _ rfl (by decide)) (hnehead _ _ _ rfl (by decide)) hlooks
    (by rw [searchAlts_congr (by decide : alphaAlts mergeKwAlts = true) hrel]; decide)
    (by rw [searchAlts_congr (by decide) hrel]
        exact (by decide : searchAlts (w1 ["delete", "remove"])
          (tokenize "rotate -1 degrees".toList) = false))
    (by rw [searchAlts_congr (by decide) hrel]
        exact (by decide : searchAlts (w1 ["reorder", "swap", "reverse"])
          (tokenize "rotate -1 degrees".toList) = false))
    (by rw [searchAlts_congr (by decide) hrel]
        exact (by decide : searchAlts watermarkKwAlts
          (tokenize "rotate -1 degrees".toList) = false))
    (by rw [searchAlts_congr (by decide) hrel]
        exact (by decide : searchAlts [ph2 "page" "numbers", ph2 "page" "number",
          ph2 "number" "pages"] (tokenize "rotate -1 degrees".toList) = false))
    (by rw [searchAlts_congr (by decide) hrel]
        exact (by decide : searchAlts [ph3 "split" "to" "files",
          [.lit "separate".toList, .someGap, .lit "pdfs".toList],
          [.lit "each".toList, .someGap, .lit "page".toList]]
          (tokenize "rotate -1 degrees".toList) = false))]
  refine patternsTail_rotate _ _ hlow (mbSearch_none hnc) (pctSearch_none hnc) ?_ ?_ ?_
    ?_ ?_ ?_ ?_ hrot
  · rw [searchAlts_congr (by decide) hrel]
    exact (by decide : searchAlts
      [[.lit "split".toList, .someGap, .lit "pages".toList],
       [.lit "split".toList, .someGap, .lit "page".toList],
       [.lit "split".toList, .someGap, .lit "all".toList, .someGap, .lit "pages".toList],
       [.lit "split".toList, .someGap, .lit "all".toList, .someGap, .lit "page".toList]]
      (tokenize "rotate -1 degrees".toList) = false)
  · rw [List.append_assoc, p3Search_rotate_pre]
    rw [p3Search_seg_skip _ hsek]
    decide
  · rw [List.append_assoc, p4Search_rotate_pre]
    rw [p4Search_seg_skip _ hsek]
    decide
  · rw [searchAlts_congr (by decide) hrel]
    exact (by decide : searchAlts (w1 ["rotate", "rotat", "turn", "flip", "straight"])
      (tokenize "rotate -1 degrees".toList) = true)
  · rw [searchAlts_congr (by decide) hrel]
    exact (by decide : searchAlts (w1 ["left", "anti", "anticlock", "counter"])
      (tokenize "rotate -1 degrees".toList) = false)
  · rw [searchAlts_congr (by decide) hrel]
    exact (by decide : searchAlts (w1 ["right", "clockwise"])
      (tokenize "rotate -1 degrees".toList) = false)
  · rw [searchAlts_congr (by decide) hrel]
    exact (by decide : searchAlts (w1 ["flip"])
      (tokenize "rotate -1 degrees".toList) = false)

end Clarify

set_option maxRecDepth 100000 in
/-- C6 counterexample: "rotate left 180 degrees" contains a rotation request
with the explicit signed integer 180, and 180 mod 360 = 180 already lies in
{90, 180, 270}, so the claimed rule predicts degrees = 180; but the resolver
returns 270, because a direction word (left/anti/counter) takes precedence
over the explicit number. -/
theorem C6_counterexample :
    Clarify.clarify_model "rotate left 180 degrees".toList ["doc.pdf".toList] []
      = (.ok (.rotate "doc.pdf".toList 270), 0)
    ∧ ((180 : ℤ).emod 360 = 180 ∧ Clarify.rotSnap 180 = 180)
    ∧ (270 : ℤ) ≠ 180 := by
  refine ⟨by decide, ⟨by decide, by decide⟩, by decide⟩

/-- C6 (amended): for every signed integer D, the instruction
"rotate {D} degrees" with one uploaded PDF and no direction word yields a
rotate intent whose degrees are D taken modulo 360 and snapped to the
nearest of {90, 180, 270} (rotSnap), and the result is always one of
90, 180 or 270; a direction word, when present, overrides the explicit
number (see the counterexample). -/
theorem C6_rotate_snap_amended (D : ℤ) :
    Clarify.clarify_model ("rotate ".toList ++ Clarify.intToDigits D
        ++ " degrees".toList) ["doc.pdf".toList] []
      = (.ok (.rotate "doc.pdf".toList (Clarify.rotSnap D)), 0)
    ∧ (Clarify.rotSnap D = 90 ∨ Clarify.rotSnap D = 180 ∨ Clarify.rotSnap D = 270) := by
  constructor
  · unfold Clarify.intToDigits
    by_cases hD : D < 0
    · rw [if_pos hD]
      rw [Clarify.clarify_model_rotate_neg (natToDigits D.natAbs)
        (natToDigits_ne_nil _) (natToDigits_all_digit _)]
      have hval : -((digitsVal (natToDigits D.natAbs) : ℕ) : ℤ) = D := by
        rw [digitsVal_natToDigits]
        omega
      rw [hval]
    · rw [if_neg hD]
      rw [Clarify.clarify_model_rotate_pos (natToDigits D.toNat)
        (natToDigits_ne_nil _) (natToDigits_all_digit _)]
      have hval : ((digitsVal (natToDigits D.toNat) : ℕ) : ℤ) = D := by
        rw [digitsVal_natToDigits]
        omega
      rw [hval]
  · exact rotSnap_cases D

/-- C1: for every N in 1..1000, the instruction "compress to {N}mb" with
exactly one uploaded PDF resolves — with zero AI-collaborator calls, hence
never a clarification question — to a single compress-to-target intent whose
target_mb is N and whose file is the uploaded PDF. -/
theorem C1_compress_to_Nmb (N : ℕ) (h1 : 1 ≤ N) (h2 : N ≤ 1000) :
    Clarify.clarify_model ("compress to ".toList ++ natToDigits N ++ "mb".toList)
        ["doc.pdf".toList] []
      = (.ok (.compress_to_target "doc.pdf".toList N), 0) := by
  rw [Clarify.clarify_model_compress_mb (natToDigits N)
    (natToDigits_ne_nil N) (natToDigits_all_digit N), digitsVal_natToDigits]

theorem C1_compress_to_Nmb_witness :
    1 ≤ 128 ∧ 128 ≤ 1000 ∧
    Clarify.clarify_model ("compress to ".toList ++ natToDigits 128 ++ "mb".toList)
        ["doc.pdf".toList] []
      = (.ok (.compress_to_target "doc.pdf".toList 128), 0) :=
  ⟨by decide, by decide, C1_compress_to_Nmb 128 (by decide) (by decide)⟩

end OrderMyPdf
